import Mathlib

/- Rational arithmetic is kernel-computable but its core operations are
marked irreducible, which blocks `decide` on concrete runs; reopen them. -/
unseal Rat.add Rat.sub Rat.mul Rat.inv

/-!
Verification of the scgraph shortest-path library against its specification.

The Python source is shallowly embedded:
- a graph `list[dict[int, int|float]]` becomes `List (List (Nat × ℚ))`,
  each adjacency dictionary being an association list in insertion order
  (Python dictionaries iterate in insertion order and hold unique keys);
- `float` arithmetic on weights becomes exact `ℚ` arithmetic and
  `float("inf")` becomes the top element of `WithTop ℚ`;
- the `heapq` binary min-heap is modelled as an ascending sorted list:
  every heap entry in the algorithms below is a `(distance, node)` pair and
  entries are pairwise distinct (a pair is pushed only together with a strict
  improvement of `distance_matrix[node]`), so the CPython heap pops entries
  in exactly ascending lexicographic order, which is what the sorted list does;
- Python exceptions become `Except String`;
- `while` loops become fuel-indexed recursion; exhausted fuel returns a
  distinguished error that is proved (or evaluated) not to occur.
-/

/-- Adjacency of one node: association list `destination ↦ weight`. -/
abbrev Adj : Type := List (Nat × ℚ)

/-- A sparse graph: the i-th entry is the adjacency dictionary of node i. -/
abbrev SGraph : Type := List Adj

/-- Python `d.get(k)` on an insertion-ordered dictionary. -/
def dictGet? (k : Nat) : Adj → Option ℚ
  | [] => none
  | (k', v) :: t => if k' = k then some v else dictGet? k t

/-- Python `d[k] = v`: replace in place if present, else append. -/
def dictSet (k : Nat) (v : ℚ) : Adj → Adj
  | [] => [(k, v)]
  | (k', v') :: t => if k' = k then (k, v) :: t else (k', v') :: dictSet k v t

/-- Python `del d[k]` when the key is known to exist; drops the first match. -/
def dictDel (k : Nat) : Adj → Adj
  | [] => []
  | (k', v') :: t => if k' = k then t else (k', v') :: dictDel k t

/-- Key list of a dictionary, in iteration order. -/
def dictKeys (d : Adj) : List Nat := d.map Prod.fst

/-- Adjacency dictionary of node `u` (empty for an out-of-range index). -/
def adj (G : SGraph) (u : Nat) : Adj := G.getD u []

/-- Distances with infinity: `float("inf")` is `⊤`. -/
abbrev DQ : Type := WithTop ℚ

/-- Heap entries `(distance, node)` as pushed by the algorithms. -/
abbrev Ent : Type := ℚ × Nat

/-- Lexicographic comparison of heap entries, as Python compares tuples. -/
def entLe (a b : Ent) : Bool :=
  if a.1 = b.1 then a.2 ≤ b.2 else a.1 ≤ b.1

/-- `heapq.heappush`: the heap is modelled as an ascending sorted list;
the new entry goes after all entries that are ≤ it. -/
def heapPush (h : List Ent) (e : Ent) : List Ent :=
  match h with
  | [] => [e]
  | x :: t => if entLe x e then x :: heapPush t e else e :: x :: t

/-- `heapq.heappop` on a nonempty heap: the least entry is the head. -/
def heapPop (h : List Ent) : Option (Ent × List Ent) :=
  match h with
  | [] => none
  | x :: t => some (x, t)

/-- State of a Dijkstra-style run over a graph of `n` nodes. -/
structure DijkstraState where
  dist : List DQ
  pred : List Int
  heap : List Ent
deriving Repr

/-- Read `distance_matrix[v]` (`⊤` out of range; the runs stay in range). -/
def getDist (s : List DQ) (v : Nat) : DQ := s.getD v ⊤

/-- Read `predecessor[v]`. -/
def getPred (p : List Int) (v : Nat) : Int := p.getD v (-1)

/-- One relaxation pass over the adjacency list of the popped node, as in the
body of the `for connected_id, connected_distance in graph[...].items()` loop
of `Graph.dijkstra_makowski` (and of the other heap algorithms). -/
def relaxAll (cur : Nat) (curDist : ℚ) (edges : Adj) (st : DijkstraState) :
    DijkstraState :=
  match edges with
  | [] => st
  | (v, w) :: rest =>
      let possible : ℚ := curDist + w
      if (possible : DQ) < getDist st.dist v then
        relaxAll cur curDist rest
          { dist := st.dist.set v (possible : DQ)
            pred := st.pred.set v (Int.ofNat cur)
            heap := heapPush st.heap (possible, v) }
      else
        relaxAll cur curDist rest st

/-- Result returned by the path algorithms. -/
structure PathResult where
  path : List Nat
  length : DQ
deriving Repr, DecidableEq

deriving instance DecidableEq for Except

/-- Walk the predecessor array from `v` as in
`while predecessor[current_id] != -1`, collecting the ids in visit order.
Fuel-indexed; the runs verified here never exhaust the fuel. -/
def predWalk (pred : List Int) (v : Nat) : Nat → Option (List Nat)
  | 0 => none
  | fuel + 1 =>
      match getPred pred v with
      | .negSucc _ => some [v]
      | .ofNat u => (predWalk pred u fuel).map (fun l => v :: l)

/-- Path reconstruction of the source: walk predecessors from `v`, then
reverse. -/
def buildPath (pred : List Int) (v : Nat) : Option (List Nat) :=
  (predWalk pred v (pred.length + 1)).map List.reverse

/-- Main loop of `Graph.dijkstra_makowski`: pop, break on the destination,
relax only when the popped distance is current (lazy deletion).  Returns the
value of `current_id` after the loop together with the final state.  The
accumulator `lastId` is the most recently popped node. -/
def makowskiLoop (G : SGraph) (destination : Nat) :
    Nat → DijkstraState → Nat → Option (Nat × DijkstraState)
  | 0, _, _ => none
  | fuel + 1, st, lastId =>
      match heapPop st.heap with
      | none => some (lastId, st)
      | some ((d, cur), rest) =>
          if cur = destination then some (cur, { st with heap := rest })
          else if getDist st.dist cur = (d : DQ) then
            makowskiLoop G destination fuel
              (relaxAll cur d (adj G cur) { st with heap := rest }) cur
          else
            makowskiLoop G destination fuel { st with heap := rest } cur

/-- Initial state shared by the heap-based algorithms:
`distance_matrix = [inf] * n` with `distance_matrix[origin] = 0`,
`predecessor = [-1] * n`, heap `[(0, origin)]`. -/
def initState (n origin : Nat) : DijkstraState :=
  { dist := (List.replicate n (⊤ : DQ)).set origin (0 : ℚ)
    pred := List.replicate n (-1 : Int)
    heap := [((0 : ℚ), origin)] }

/-- Fuel that the correctness proofs show is sufficient for the loops:
one unit per possible heap pop, bounded through the total number of pushes. -/
def stdFuel (G : SGraph) : Nat :=
  (G.length + 1) * ((G.map List.length).sum + 2) + 2

/-- `Graph.dijkstra_makowski` (the input_check call is omitted here: for
integer arguments it is a no-op, see `input_check` below). -/
def dijkstra_makowski (G : SGraph) (origin destination : Nat) :
    Except String PathResult :=
  match makowskiLoop G destination (stdFuel G) (initState G.length origin)
      origin with
  | none => .error "fuel"
  | some (finalId, st) =>
      if finalId = destination then
        match buildPath st.pred finalId with
        | none => .error "fuel"
        | some p => .ok { path := p, length := getDist st.dist destination }
      else
        .error "Something went wrong, the origin and destination nodes are not connected."

/-- `Graph.input_check`.  The source tests
`not isinstance(origin_id, int) and origin_id < len(graph) and origin_id >= 0`
(and the same with `origin_id` inside the second test); for integer arguments
`isinstance(origin_id, int)` is `True`, so both conditions are `False` and the
function never raises.  The embedding keeps the dead bound tests verbatim. -/
def input_check (G : SGraph) (origin_id destination_id : Int) :
    Except String Unit :=
  if (!true) && origin_id < (G.length : Int) && origin_id ≥ 0 then
    .error s!"Origin node ({origin_id}) is not in the graph"
  else if (!true) && origin_id < (G.length : Int) && origin_id ≥ 0 then
    .error s!"Destination node ({destination_id}) is not in the graph"
  else
    .ok ()

/-- State of a dense-Dijkstra run (`Graph.dijkstra`). -/
structure DenseState where
  dist : List DQ
  branchTip : List DQ
  pred : List Int
deriving Repr

/-- Relaxation pass of dense `Graph.dijkstra`. -/
def denseRelaxAll (cur : Nat) (curDist : ℚ) (edges : Adj) (st : DenseState) :
    DenseState :=
  match edges with
  | [] => st
  | (v, w) :: rest =>
      let possible : ℚ := curDist + w
      if (possible : DQ) < getDist st.dist v then
        denseRelaxAll cur curDist rest
          { dist := st.dist.set v (possible : DQ)
            pred := st.pred.set v (Int.ofNat cur)
            branchTip := st.branchTip.set v (possible : DQ) }
      else
        denseRelaxAll cur curDist rest st

/-- `min(branch_tip_distances)`. -/
def listMinD (l : List DQ) : DQ :=
  l.foldl (fun a b => if b < a then b else a) ⊤

/-- `branch_tip_distances.index(current_distance)`:
index of the first occurrence. -/
def listIndexOf (l : List DQ) (x : DQ) : Nat := l.findIdx (fun y => y = x)

/-- Main loop of dense `Graph.dijkstra`: select the minimum branch tip, fail
when it is infinite, clear it, break on the destination, else relax. -/
def denseLoop (G : SGraph) (destination : Nat) :
    Nat → DenseState → Except String (Nat × DenseState)
  | 0, _ => .error "fuel"
  | fuel + 1, st =>
      match listMinD st.branchTip with
      | ⊤ =>
          .error "Something went wrong, the origin and destination nodes are not connected."
      | (curDist : ℚ) =>
          let cur : Nat := listIndexOf st.branchTip (curDist : DQ)
          let st1 : DenseState :=
            { st with branchTip := st.branchTip.set cur (⊤ : DQ) }
          if cur = destination then .ok (cur, st1)
          else denseLoop G destination fuel
            (denseRelaxAll cur curDist (adj G cur) st1)

/-- `Graph.dijkstra` (dense reference implementation). -/
def dijkstra (G : SGraph) (origin destination : Nat) :
    Except String PathResult :=
  let st0 : DenseState :=
    { dist := (List.replicate G.length (⊤ : DQ)).set origin (0 : ℚ)
      branchTip := (List.replicate G.length (⊤ : DQ)).set origin (0 : ℚ)
      pred := List.replicate G.length (-1 : Int) }
  match denseLoop G destination (stdFuel G) st0 with
  | .error e => .error e
  | .ok (finalId, st) =>
      match buildPath st.pred finalId with
      | none => .error "fuel"
      | some p => .ok { path := p, length := getDist st.dist destination }

/-- `SpanningTree.makowskis_spanning_tree`: run the heap loop to exhaustion,
relaxing on every pop (the source has no staleness check here). -/
def spanningLoop (G : SGraph) :
    Nat → DijkstraState → Option DijkstraState
  | 0, _ => none
  | fuel + 1, st =>
      match heapPop st.heap with
      | none => some st
      | some ((d, cur), rest) =>
          spanningLoop G fuel (relaxAll cur d (adj G cur) { st with heap := rest })

/-- Result of `SpanningTree.makowskis_spanning_tree`. -/
structure SpanningTreeRes where
  node_id : Nat
  predecessors : List Int
  distance_matrix : List DQ
deriving Repr

/-- `SpanningTree.makowskis_spanning_tree` (the two input asserts are the
hypotheses of the theorems below). -/
def makowskis_spanning_tree (G : SGraph) (node_id : Nat) :
    Option SpanningTreeRes :=
  match spanningLoop G (stdFuel G) (initState G.length node_id) with
  | none => none
  | some st =>
      some { node_id := node_id, predecessors := st.pred
             distance_matrix := st.dist }

/-- Inner walk of `Graph.cycle_check` after the first step. -/
def cycleWalk (pred : List Int) (node_id : Nat) :
    Nat → Nat → Except String Unit
  | _, 0 => .error "fuel"
  | cur, fuel + 1 =>
      if cur = node_id then
        .error s!"Cycle detected in the graph at node {node_id}"
      else
        match getPred pred cur with
        | .negSucc _ => .ok ()
        | .ofNat u => cycleWalk pred node_id u fuel

/-- `Graph.cycle_check`: walk the predecessor chain from `node_id`; error on
return to `node_id`, success on reaching `-1`.  Fuel models the possible
divergence of the source loop on a predecessor cycle avoiding `node_id`. -/
def cycle_check (pred : List Int) (node_id : Nat) (fuel : Nat) :
    Except String Unit :=
  match getPred pred node_id with
  | .negSucc _ => .ok ()
  | .ofNat u => cycleWalk pred node_id u fuel

/-- Main loop of `Graph.dijkstra_negative`: no early termination, staleness
check before relaxing, cycle check every `cycle_check_iterations` fresh pops. -/
def negativeLoop (G : SGraph) (checkIters : Nat) :
    Nat → Nat → DijkstraState → Nat → Except String (Nat × DijkstraState)
  | 0, _, _, _ => .error "fuel"
  | fuel + 1, cycleIter, st, lastId =>
      match heapPop st.heap with
      | none => .ok (lastId, st)
      | some ((d, cur), rest) =>
          if getDist st.dist cur = (d : DQ) then
            let cycleIter1 := cycleIter + 1
            if cycleIter1 ≥ checkIters then
              match cycle_check st.pred cur (st.pred.length + 1) with
              | .error e => .error e
              | .ok () =>
                  negativeLoop G checkIters fuel 0
                    (relaxAll cur d (adj G cur) { st with heap := rest }) cur
            else
              negativeLoop G checkIters fuel cycleIter1
                (relaxAll cur d (adj G cur) { st with heap := rest }) cur
          else
            negativeLoop G checkIters fuel cycleIter { st with heap := rest } cur

/-- Python `set` of small nonnegative integers, modelled as a strictly
ascending list.  CPython iterates such a set in ascending order whenever all
members are smaller than the hash-table size (small ints hash to themselves),
which holds for every set arising in the runs verified here (all graphs have
fewer than 8 nodes). -/
abbrev PySet : Type := List Nat

/-- Insert into a `PySet`, keeping the strictly ascending order. -/
def pyIns (x : Nat) : PySet → PySet
  | [] => [x]
  | y :: t => if x < y then x :: y :: t else if x = y then y :: t
              else y :: pyIns x t

/-- Union of `PySet`s. -/
def pyUnion (s other : PySet) : PySet := other.foldl (fun a x => pyIns x a) s

/-- A set of `(node, distance)` pairs (used for the BMSSP batch-prepend
staging set).  Iteration order is irrelevant to the result, see the doc of
`recursive_bmssp`; kept as a list with set semantics. -/
abbrev PairSet : Type := List (Nat × ℚ)

def pairIns (p : Nat × ℚ) (s : PairSet) : PairSet :=
  if s.contains p then s else s ++ [p]

/-- Insertion-ordered dictionary `Nat ↦ ℚ` (the `best` map of the BMSSP
bucket structure). -/
abbrev BestMap : Type := List (Nat × ℚ)

def bestGet? (k : Nat) : BestMap → Option ℚ
  | [] => none
  | (k', v) :: t => if k' = k then some v else bestGet? k t

def bestSet (k : Nat) (v : ℚ) : BestMap → BestMap
  | [] => [(k, v)]
  | (k', v') :: t => if k' = k then (k, v) :: t else (k', v') :: bestSet k v t

def bestDel (k : Nat) : BestMap → BestMap
  | [] => []
  | (k', v') :: t => if k' = k then t else (k', v') :: bestDel k t

/-- `BmsspDataStructure` of `bmssp.py`. -/
structure BmsspDS where
  subset_size : Nat
  upper_bound : DQ
  best : BestMap
  heap : List Ent
deriving Repr, DecidableEq

/-- `BmsspDataStructure.insert_key_value`. -/
def dsInsert (ds : BmsspDS) (key : Nat) (value : ℚ) : BmsspDS :=
  match bestGet? key ds.best with
  | some old =>
      if value < old then
        { ds with best := bestSet key value ds.best
                  heap := heapPush ds.heap (value, key) }
      else ds
  | none =>
      { ds with best := bestSet key value ds.best
                heap := heapPush ds.heap (value, key) }

/-- `BmsspDataStructure.__pop_current__` on an explicit heap list:
pop until a non-stale entry. -/
def dsPopAux (best : BestMap) : List Ent → Option (Nat × BestMap × List Ent)
  | [] => none
  | (value, key) :: rest =>
      if bestGet? key best = some value then
        some (key, bestDel key best, rest)
      else
        dsPopAux best rest

/-- `BmsspDataStructure.__pop_current__`. -/
def dsPopCurrent (ds : BmsspDS) : Option (Nat × BmsspDS) :=
  match dsPopAux ds.best ds.heap with
  | none => none
  | some (key, best', heap') =>
      some (key, { ds with best := best', heap := heap' })

/-- `BmsspDataStructure.is_empty`. -/
def dsIsEmpty (ds : BmsspDS) : Bool := ds.best.isEmpty

/-- Take up to `count` current keys (the loop inside `pull`). -/
def dsTake (count : Nat) (ds : BmsspDS) (acc : PySet) : PySet × BmsspDS :=
  match count with
  | 0 => (acc, ds)
  | c + 1 =>
      match dsPopCurrent ds with
      | none => (acc, ds)
      | some (key, ds') => dsTake c ds' (pyIns key acc)

/-- `BmsspDataStructure.pull`. -/
def dsPull (ds : BmsspDS) : DQ × PySet × BmsspDS :=
  let (subset, ds') := dsTake ds.subset_size ds []
  let remaining : DQ :=
    match (ds'.best.map Prod.snd) with
    | [] => ds'.upper_bound
    | v :: vs => ((vs.foldl min v : ℚ) : DQ)
  (remaining, subset, ds')

/-- Mutable state of `BmsspSolver`: `distance_matrix` and `predecessor`. -/
structure BState where
  dist : List DQ
  pred : List Int
deriving Repr, DecidableEq

/-- `k = max(2, int(log(n) ** (1/3)))` of `BmsspSolver.__init__`.
`int(log(n) ** (1/3)) ≤ 2` for every `n ≤ e^27`, so the practical pivot
relaxation depth is 2 for every graph size considered in this file. -/
def kParam (_n : Nat) : Nat := 2

/-- `t = max(2, int(log(n) ** (2/3)))`: equal to 2 for `n ≤ 180` (where
`log(n)^(2/3) < 3`) and to 3 up to `n ≤ 2980`; all graphs considered in this
file have fewer than 181 nodes. -/
def tParam (n : Nat) : Nat := if n ≤ 180 then 2 else 3

/-- `ceil(log(max(2, n)) / max(1, t))`: for `n ≤ 180` (hence `t = 2`) this is
1 for `n ≤ 7` (`log n ≤ 2`), 2 for `n ≤ 54` (`log n ≤ 4`), else 3. -/
def lParam (n : Nat) : Nat := if n ≤ 7 then 1 else if n ≤ 54 then 2 else 3

/-- Tight-edge test of `find_pivots`:
`abs((d[u] + w) - d[v]) < 1e-12` in floats; on `inf` operands the float
result is `inf` or `nan` and the comparison is false. -/
def tightTest (a b : DQ) : Bool :=
  match a, b with
  | (x : ℚ), (y : ℚ) => |x - y| < 1 / 10 ^ 12
  | _, _ => false

/-- One relaxation scan over the out-edges of `u` in a `find_pivots` round:
returns the updated state and frontier additions. -/
def fpRelaxEdges (upper : DQ) (u : Nat) (uDist : DQ) :
    Adj → BState → PySet → BState × PySet
  | [], st, curr => (st, curr)
  | (v, w) :: rest, st, curr =>
      let nd : DQ := uDist + (w : DQ)
      if nd ≤ getDist st.dist v then
        let st' : BState :=
          if nd < getDist st.dist v then
            { dist := st.dist.set v nd, pred := st.pred.set v (Int.ofNat u) }
          else st
        let curr' := if nd < upper then pyIns v curr else curr
        fpRelaxEdges upper u uDist rest st' curr'
      else
        fpRelaxEdges upper u uDist rest st curr

/-- One full round of `find_pivots` relaxation over `prev_frontier`. -/
def fpRound (G : SGraph) (upper : DQ) :
    List Nat → BState → PySet → BState × PySet
  | [], st, curr => (st, curr)
  | u :: rest, st, curr =>
      let (st', curr') := fpRelaxEdges upper u (getDist st.dist u) (adj G u) st curr
      fpRound G upper rest st' curr'

/-- The `for _ in range(k)` loop of `find_pivots`; returns
`(ballooned, temp_frontier, state)`. -/
def fpRounds (G : SGraph) (upper : DQ) (k : Nat) (frontierLen : Nat) :
    Nat → List Nat → PySet → BState → Bool × PySet × BState
  | 0, _, temp, st => (false, temp, st)
  | r + 1, prev, temp, st =>
      let (st', curr) := fpRound G upper prev st []
      let temp' := pyUnion temp curr
      if temp'.length > k * frontierLen then (true, temp', st')
      else fpRounds G upper k frontierLen r curr temp' st'

/-- Adjacency restricted to the tight-edge forest used by `find_pivots`. -/
def forestChildren (G : SGraph) (st : BState) (temp : PySet) (u : Nat) :
    PySet :=
  (adj G u).foldl
    (fun acc (p : Nat × ℚ) =>
      if temp.contains p.1 &&
          tightTest (getDist st.dist u + (p.2 : DQ)) (getDist st.dist p.1) then
        pyIns p.1 acc
      else acc) []

/-- In-degrees in the tight-edge forest. -/
def forestIndegZero (G : SGraph) (st : BState) (temp : PySet) (v : Nat) :
    Bool :=
  temp.all (fun u => !(forestChildren G st temp u).contains v)

/-- `dfs_count`: size of the set reachable from `root` in the tight forest. -/
def dfsCount (G : SGraph) (st : BState) (temp : PySet) :
    Nat → List Nat → PySet → Nat
  | 0, _, seen => seen.length
  | _ + 1, [], seen => seen.length
  | fuel + 1, x :: stack, seen =>
      if seen.contains x then dfsCount G st temp fuel stack seen
      else
        dfsCount G st temp fuel (stack ++ forestChildren G st temp x)
          (pyIns x seen)

/-- `BmsspSolver.find_pivots`. -/
def find_pivots (G : SGraph) (k : Nat) (upper : DQ) (frontier : PySet)
    (st : BState) : PySet × PySet × BState :=
  let (ballooned, temp, st') :=
    fpRounds G upper k frontier.length k frontier frontier st
  if ballooned then (frontier, temp, st')
  else
    let pivots := frontier.foldl
      (fun acc f =>
        if forestIndegZero G st' temp f &&
            dfsCount G st' temp (G.length * G.length + temp.length + 1) [f] [] ≥ k
        then acc ++ [f] else acc) []
    (pivots, temp, st')

/-- Maximum of a list of distances (the `[]` case never arises where used). -/
def listMaxD : List DQ → DQ
  | [] => ⊤
  | x :: t => t.foldl max x

/-- Minimum of a list of distances with a default for the empty list
(`min(..., default=upper_bound)`). -/
def listMinDefault (dflt : DQ) : List DQ → DQ
  | [] => dflt
  | x :: t => t.foldl min x

/-- Edge scan of `BmsspSolver.base_case`: relax with equality allowed, bounded
by `upper`, pushing on every admissible edge. -/
def baseRelaxEdges (upper : DQ) (cur : Nat) (d : ℚ) :
    Adj → BState → List Ent → BState × List Ent
  | [], st, heap => (st, heap)
  | (v, w) :: rest, st, heap =>
      let nd : ℚ := d + w
      if (nd : DQ) ≤ getDist st.dist v ∧ (nd : DQ) < upper then
        let st' : BState :=
          if (nd : DQ) < getDist st.dist v then
            { dist := st.dist.set v (nd : DQ)
              pred := st.pred.set v (Int.ofNat cur) }
          else st
        baseRelaxEdges upper cur d rest st' (heapPush heap (nd, v))
      else
        baseRelaxEdges upper cur d rest st heap

/-- Main loop of `BmsspSolver.base_case`. -/
def baseLoop (G : SGraph) (k : Nat) (upper : DQ) :
    Nat → List Ent → PySet → PySet → BState → Option (PySet × BState)
  | 0, _, _, _, _ => none
  | fuel + 1, heap, visited, nf, st =>
      if heap.isEmpty || ¬ nf.length < k + 1 then some (nf, st)
      else
        match heapPop heap with
        | none => some (nf, st)
        | some ((d, idx), rest) =>
            if visited.contains idx then
              baseLoop G k upper fuel rest visited nf st
            else
              let (st', heap') := baseRelaxEdges upper idx d (adj G idx) st rest
              baseLoop G k upper fuel heap' (pyIns idx visited) (pyIns idx nf) st'

/-- Post-processing after the `base_case` loop: trim by the new boundary when
more than `k` nodes were completed. -/
def baseFinish (k : Nat) (upper : DQ) :
    Option (PySet × BState) → Except String (DQ × PySet × BState)
  | none => .error "fuel"
  | some (nf, st') =>
      if nf.length > k then
        let B' := listMaxD (nf.map (getDist st'.dist))
        (.ok (B', nf.filter (fun i => getDist st'.dist i < B'), st'))
      else
        .ok (upper, nf, st')

/-- Dispatch of `base_case` on the (always finite) initial heap key. -/
def baseDispatch (G : SGraph) (k : Nat) (upper : DQ) (first : Nat)
    (st : BState) (fuel : Nat) : DQ → Except String (DQ × PySet × BState)
  | ⊤ => .error "infinite heap entry"
  | (d0 : ℚ) => baseFinish k upper (baseLoop G k upper fuel [(d0, first)] [] [] st)

/-- `BmsspSolver.base_case`. -/
def base_case (G : SGraph) (k : Nat) (upper : DQ) :
    PySet → BState → Nat → Except String (DQ × PySet × BState)
  | [], _, _ => .error "Frontier must be a singleton set"
  | first :: _, st, fuel =>
      baseDispatch G k upper first st fuel (getDist st.dist first)

/-- Steps 14-20 of `recursive_bmssp`: relax the out-edges of a returned
frontier vertex, inserting into the bucket structure or staging for the batch
prepend according to the interval the new distance falls into. -/
def rbRelaxEdges (bi bpi b : DQ) (u : Nat) (uDist : DQ) :
    Adj → BState → BmsspDS → PairSet → BState × BmsspDS × PairSet
  | [], st, ds, staged => (st, ds, staged)
  | (v, w) :: rest, st, ds, staged =>
      if v = u then rbRelaxEdges bi bpi b u uDist rest st ds staged
      else
        let nd : DQ := uDist + (w : DQ)
        if nd ≤ getDist st.dist v then
          let st' : BState :=
            if nd < getDist st.dist v then
              { dist := st.dist.set v nd, pred := st.pred.set v (Int.ofNat u) }
            else st
          match nd with
          | (q : ℚ) =>
              if bi ≤ nd ∧ nd < b then
                rbRelaxEdges bi bpi b u uDist rest st' (dsInsert ds v q) staged
              else if bpi ≤ nd ∧ nd < bi then
                rbRelaxEdges bi bpi b u uDist rest st' ds (pairIns (v, q) staged)
              else
                rbRelaxEdges bi bpi b u uDist rest st' ds staged
          | ⊤ => rbRelaxEdges bi bpi b u uDist rest st' ds staged
        else
          rbRelaxEdges bi bpi b u uDist rest st ds staged

/-- Steps 14-20 over all of `new_frontier_i`. -/
def rbRelaxFrontier (G : SGraph) (bi bpi b : DQ) :
    List Nat → BState → BmsspDS → PairSet → BState × BmsspDS × PairSet
  | [], st, ds, staged => (st, ds, staged)
  | u :: rest, st, ds, staged =>
      let (st', ds', staged') :=
        rbRelaxEdges bi bpi b u (getDist st.dist u) (adj G u) st ds staged
      rbRelaxFrontier G bi bpi b rest st' ds' staged'

/-- Step 21: batch prepend the staged pairs and the still-pending members of
the pulled subset. -/
def rbBatchPrepend (bi bpi : DQ) (pulled : PySet) (staged : PairSet)
    (st : BState) (ds : BmsspDS) : BmsspDS :=
  let filtered : PairSet :=
    pulled.foldl
      (fun acc x =>
        match getDist st.dist x with
        | (q : ℚ) =>
            if bpi ≤ (q : DQ) ∧ (q : DQ) < bi then pairIns (x, q) acc else acc
        | ⊤ => acc) []
  (staged ++ filtered.filter (fun p => ¬ staged.contains p)).foldl
    (fun d p => dsInsert d p.1 p.2) ds

/-- Steps 11-21 of one iteration of the `recursive_bmssp` main loop, applied
to the result of the recursive call: either propagate its error or produce the
next loop state `(D, new_frontier, last_bound, solver_state)`. -/
def rbAfter (G : SGraph) (b bi : DQ) (si : PySet) (ds1 : BmsspDS)
    (nf : PySet) :
    Except String (DQ × PySet × BState) →
      Except String ((DQ × PySet × BState) ⊕ (BmsspDS × PySet × DQ × BState))
  | .error e => .error e
  | .ok (bpi, ui, st1) =>
      let nf1 := pyUnion nf ui
      let (st2, ds2, staged) := rbRelaxFrontier G bi bpi b ui st1 ds1 []
      let ds3 := rbBatchPrepend bi bpi si staged st2 ds2
      .ok (.inr (ds3, nf1, bpi, st2))

/-- Steps 10-21 given the result of `pull`: an empty subset ends the loop. -/
def rbPulled (G : SGraph) (b : DQ)
    (recurse : DQ → PySet → BState → Except String (DQ × PySet × BState))
    (nf : PySet) (last : DQ) (st : BState) :
    DQ × PySet × BmsspDS →
      Except String ((DQ × PySet × BState) ⊕ (BmsspDS × PySet × DQ × BState))
  | (bi, si, ds1) =>
      if si.isEmpty then .ok (.inl (last, nf, st))
      else rbAfter G b bi si ds1 nf (recurse bi si st)

/-- One iteration of the `recursive_bmssp` main loop. -/
def rbStep (G : SGraph) (b : DQ)
    (recurse : DQ → PySet → BState → Except String (DQ × PySet × BState))
    (ds : BmsspDS) (nf : PySet) (last : DQ) (st : BState) :
    Except String ((DQ × PySet × BState) ⊕ (BmsspDS × PySet × DQ × BState)) :=
  rbPulled G b recurse nf last st (dsPull ds)

/-- The main `while` loop of `recursive_bmssp` at positive depth;
`recurse` performs the recursive call at depth one less. -/
def rbLoop (G : SGraph) (b : DQ) (budget : Nat)
    (recurse : DQ → PySet → BState → Except String (DQ × PySet × BState)) :
    Nat → BmsspDS → PySet → DQ → BState →
    Except String (DQ × PySet × BState)
  | 0, _, _, _, _ => .error "fuel"
  | fuel + 1, ds, nf, last, st =>
      if nf.length < budget ∧ ¬ dsIsEmpty ds then
        match rbStep G b recurse ds nf last st with
        | .error e => .error e
        | .ok (.inl r) => .ok r
        | .ok (.inr (ds3, nf1, bpi, st2)) =>
            rbLoop G b budget recurse fuel ds3 nf1 bpi st2
      else
        .ok (last, nf, st)

/-- Step 22 of `recursive_bmssp`: final return value from the loop result. -/
def rbWrap (b : DQ) (w : PySet) :
    Except String (DQ × PySet × BState) → Except String (DQ × PySet × BState)
  | .error e => .error e
  | .ok (last, nf, st2) =>
      .ok (min last b,
           pyUnion nf (w.filter (fun v => getDist st2.dist v < last)), st2)

/-- `BmsspSolver.recursive_bmssp`; structurally recursive on the depth. -/
def recursive_bmssp (G : SGraph) (k t : Nat) (loopFuel : Nat) :
    Nat → DQ → PySet → BState → Except String (DQ × PySet × BState)
  | 0, b, s, st => base_case G k b s st loopFuel
  | l + 1, b, s, st =>
      let (pivots, w, st1) := find_pivots G k b s st
      let subsetSize := 2 ^ (l * t)
      let ds0 : BmsspDS :=
        { subset_size := subsetSize, upper_bound := b, best := [], heap := [] }
      match pivots.foldlM
          (fun (d : BmsspDS) p =>
            match getDist st1.dist p with
            | (q : ℚ) => Except.ok (dsInsert d p q)
            | ⊤ => Except.error "infinite pivot distance") ds0 with
      | .error e => .error e
      | .ok ds1 =>
          let minPivot : DQ :=
            listMinDefault b (pivots.map (getDist st1.dist))
          let budget := k ^ (2 * (l + 1) * t)
          rbWrap b w (rbLoop G b budget (recursive_bmssp G k t loopFuel l)
            loopFuel ds1 [] minPivot st1)

/-- Keep only the solver state of the top-level `recursive_bmssp` call. -/
def bmsspFinish : Except String (DQ × PySet × BState) → Except String BState
  | .error e => .error e
  | .ok (_, _, st) => .ok st

/-- `BmsspSolver.__init__`: parameter derivation and the top-level call;
returns the final solver state (`distance_matrix`, `predecessor`). -/
def bmsspSolve (G : SGraph) (origin : Nat) : Except String BState :=
  if G.length ≤ 2 then
    .error "Your provided graph must have more than 2 nodes"
  else
    let st0 : BState :=
      { dist := (List.replicate G.length (⊤ : DQ)).set origin (0 : ℚ)
        pred := List.replicate G.length (-1 : Int) }
    let n := G.length
    let loopFuel := (n + 2) * (n + 2) * (n + 2)
    bmsspFinish (recursive_bmssp G (kParam n) (tParam n) loopFuel (lParam n)
      ⊤ [origin] st0)

/-- `Graph.dijkstra_negative` reconstructs the output
path starting from the *last popped node* (`current_id` after the loop), not
from `destination_id`; the embedding mirrors this faithfully. -/
def dijkstra_negative (G : SGraph) (origin destination : Nat)
    (cycle_check_iterations : Option Nat := none) :
    Except String PathResult :=
  let checkIters := cycle_check_iterations.getD G.length
  match negativeLoop G checkIters (stdFuel G) 0 (initState G.length origin)
      origin with
  | .error e => .error e
  | .ok (finalId, st) =>
      if getDist st.dist destination = (⊤ : DQ) then
        .error "Something went wrong, the origin and destination nodes are not connected."
      else
        match buildPath st.pred finalId with
        | none => .error "fuel"
        | some p => .ok { path := p, length := getDist st.dist destination }

/-! ## Walks and the shortest-path specification -/

/-- Weight of the edge `u → v`, read from the adjacency dictionary. -/
def edgeWeight (G : SGraph) (u v : Nat) : Option ℚ := dictGet? v (adj G u)

/-- Total weight of a node list read as a walk (`none` when some step is not
an edge or the list is empty). -/
def walkWeight (G : SGraph) : List Nat → Option ℚ
  | [] => none
  | [_] => some 0
  | u :: v :: rest =>
      match edgeWeight G u v, walkWeight G (v :: rest) with
      | some w, some c => some (w + c)
      | _, _ => none

/-- `p` is a walk from `s` to `d` in `G` of total weight `c`. -/
def IsWalk (G : SGraph) (s d : Nat) (p : List Nat) (c : ℚ) : Prop :=
  p.head? = some s ∧ p.getLast? = some d ∧ walkWeight G p = some c

/-- `c` is the length of some walk from `s` to `d` and no walk is shorter:
the true shortest-path distance of the specification. -/
def IsShortestDist (G : SGraph) (s d : Nat) (c : ℚ) : Prop :=
  (∃ p, IsWalk G s d p c) ∧ ∀ p c', IsWalk G s d p c' → c ≤ c'

/-- The heuristic `h` is admissible for destination `d`: it never
overestimates the weight of any walk to `d` (hence never the true remaining
distance). -/
def Admissible (G : SGraph) (h : Nat → ℚ) (d : Nat) : Prop :=
  ∀ v p c, IsWalk G v d p c → h v ≤ c

/-! ## C4: `input_check` never raises for integer ids -/

/-- C4 (code_bug evaluation): on the 1-node graph `[{}]` the id 5 is out of
range `[0, 1)`, yet `input_check` returns normally, because the source tests
`not isinstance(origin_id, int) and ...`, which is always false for integer
ids (and the second test reuses `origin_id` in its bounds).  The claim that
`input_check` raises exactly on out-of-range ids therefore fails; the second
conjunct shows it returns normally on every input whatsoever. -/
theorem C4_input_check_never_raises :
    input_check [[]] 5 0 = .ok () ∧
      ∀ (G : SGraph) (o d : Int), input_check G o d = .ok () := by
  constructor
  · rfl
  · intro G o d
    simp [input_check]

/-! ## C6: `dijkstra_negative` reconstructs the path from the wrong node -/

/-- The symmetric graph `[{1: 1, 2: 5}, {0: 1}, {0: 5}]` used to exhibit the
path-reconstruction defect of `dijkstra_negative`. -/
def negCexG : SGraph := [[(1, 1), (2, 5)], [(0, 1)], [(0, 5)]]

/-- C6 (code_bug evaluation): on `negCexG` with origin 0 and destination 1
(reachable, distance 1), `dijkstra_negative` returns the path `[0, 2]` -- a
path that ends at node 2, not at the destination 1 -- because the source
starts the reconstruction from the variable `current_id`, which after the
loop holds the last node popped from the heap rather than `destination_id`.
The returned length 1 is the correct distance, and `[0, 1]` is the walk the
claim requires. -/
theorem C6_dijkstra_negative_wrong_path :
    dijkstra_negative negCexG 0 1 =
      .ok { path := [0, 2], length := ((1 : ℚ) : DQ) } ∧
    [0, 2].getLast? ≠ some 1 ∧
    IsWalk negCexG 0 1 [0, 1] 1 := by
  refine ⟨?_, by decide, rfl, rfl, ?_⟩ <;> decide

/-! ## Graph validation (`Graph.validate_graph`, `Graph.validate_connected`) -/

/-- One step of `Graph.validate_connected`'s stack loop. -/
def connectedLoop (G : SGraph) : Nat → List Nat → List Nat → Option (List Nat)
  | 0, _, _ => none
  | _ + 1, visited, [] => some visited
  | fuel + 1, visited, open_leaves =>
      match open_leaves.getLast? with
      | none => some visited
      | some cur =>
          let visited' := visited.set cur 1
          let pushes :=
            (adj G cur).foldl
              (fun acc (p : Nat × ℚ) =>
                if visited'.getD p.1 1 = 0 then acc ++ [p.1] else acc) []
          connectedLoop G fuel visited' (open_leaves.dropLast ++ pushes)

/-- `Graph.validate_connected` (undirected reachability from `origin_id`,
assuming symmetry, via an explicit stack). -/
def validate_connected (G : SGraph) (origin_id : Nat) : Option Bool :=
  match connectedLoop G ((G.map List.length).sum + G.length + 2)
      (List.replicate G.length 0) [origin_id] with
  | none => none
  | some visited => some (visited.all (fun x => x = 1))

/-- `Graph.validate_graph`: destination ids in range, weights nonnegative,
optional symmetry, optional connectivity (connectivity forces symmetry).
Weight types are statically numeric in the embedding. -/
def validate_graph (G : SGraph) (check_symmetry check_connected : Bool) :
    Except String Unit :=
  let check_symmetry := check_symmetry || check_connected
  if ¬ (G.all (fun d => d.all (fun p => p.1 < G.length))) then
    .error "Destination ids must be non-negative integers and equivalent to an existing index"
  else if ¬ (G.all (fun d => d.all (fun p => 0 ≤ p.2))) then
    .error "Distances must be integers or floats"
  else if check_symmetry &&
      ¬ ((List.range G.length).all (fun u =>
          (adj G u).all (fun p => dictGet? u (adj G p.1) = some p.2))) then
    .error "Your graph is not symmetric"
  else if check_connected && ¬ (validate_connected G 0 = some true) then
    .error "Your graph is not fully connected"
  else
    .ok ()

/-! ## Lower bounds on walk weights via feasible potentials -/

/-- Membership from dictionary lookup. -/
theorem dictGet?_mem {k : Nat} {w : ℚ} : ∀ {d : Adj},
    dictGet? k d = some w → (k, w) ∈ d := by
  intro d
  induction d with
  | nil => intro h; simp [dictGet?] at h
  | cons p t ih =>
      obtain ⟨p1, p2⟩ := p
      intro h
      rw [dictGet?] at h
      by_cases hk : p1 = k
      · simp only [hk, if_true] at h
        have h2 : p2 = w := by injection h
        subst hk h2
        exact List.mem_cons_self _ _
      · simp only [hk, if_false] at h
        exact List.mem_cons_of_mem _ (ih h)

/-- Any function `ψ` that is feasible on the edges of `G` bounds every walk
weight from below: `ψ d - ψ s ≤ c`. -/
theorem walk_lower_bound (G : SGraph) (ψ : Nat → ℚ)
    (hψ : ∀ u v w, (v, w) ∈ adj G u → ψ v ≤ ψ u + w) :
    ∀ (p : List Nat) (s d : Nat) (c : ℚ), IsWalk G s d p c → ψ d ≤ ψ s + c := by
  intro p
  induction p with
  | nil => intro s d c h; simp [IsWalk] at h
  | cons u rest ih =>
      intro s d c h
      obtain ⟨h1, h2, h3⟩ := h
      have hu : u = s := by simpa using h1
      subst hu
      cases rest with
      | nil =>
          have hd : u = d := by simpa using h2
          have hc : (0 : ℚ) = c := by simpa [walkWeight] using h3
          subst hd
          rw [← hc]
          simp
      | cons v rest' =>
          rw [walkWeight] at h3
          cases hew : edgeWeight G u v with
          | none => rw [hew] at h3; simp at h3
          | some w =>
              rw [hew] at h3
              cases hwk : walkWeight G (v :: rest') with
              | none => rw [hwk] at h3; simp at h3
              | some c' =>
                  rw [hwk] at h3
                  have hc : w + c' = c := by simpa using h3
                  have hlast : (v :: rest').getLast? = some d := by
                    rw [← h2]; rw [List.getLast?_cons_cons]
                  have hwalk : IsWalk G v d (v :: rest') c' := ⟨rfl, hlast, hwk⟩
                  have hv := ih v d c' hwalk
                  have hedge := hψ u v w (dictGet?_mem hew)
                  rw [← hc]
                  linarith

/-! ## C1: the BMSSP solver diverges on a validated zero-weight cluster -/

/-- Symmetric, connected, non-negative 4-node graph with a zero-weight
triangle `{0, 1, 2}` and the pendant edge `2 -- 3` of weight 1. -/
def bmsspCexG : SGraph :=
  [[(1, 0), (2, 0)], [(0, 0), (2, 0)], [(0, 0), (1, 0), (3, 1)], [(2, 1)]]

/-- Solver state right after initialization (`distance_matrix[0] = 0`). -/
def bmsspCexSt0 : BState :=
  { dist := [((0 : ℚ) : DQ), ⊤, ⊤, ⊤], pred := [-1, -1, -1, -1] }

/-- State after `find_pivots` has relaxed the out-edges of node 0. -/
def bmsspCexSt1 : BState :=
  { dist := [((0 : ℚ) : DQ), ((0 : ℚ) : DQ), ((0 : ℚ) : DQ), ⊤]
    pred := [-1, 0, 0, -1] }

/-- The stationary state of the divergent main loop. -/
def bmsspCexSt2 : BState :=
  { dist := [((0 : ℚ) : DQ), ((0 : ℚ) : DQ), ((0 : ℚ) : DQ), ((1 : ℚ) : DQ)]
    pred := [-1, 0, 0, 2] }

/-- The stationary content of the bucket structure: node 0 with key 0 is
pulled and immediately batch-prepended back, forever. -/
def bmsspCexDS : BmsspDS :=
  { subset_size := 1, upper_bound := ⊤, best := [(0, 0)]
    heap := [((0 : ℚ), 0)] }

/-- Raising the fuel of a `base_case` loop run that already finished does not
change its result. -/
theorem baseLoop_mono (G : SGraph) (k : Nat) (u : DQ) :
    ∀ f g, f ≤ g → ∀ hp vis nf st r,
      baseLoop G k u f hp vis nf st = some r →
      baseLoop G k u g hp vis nf st = some r := by
  intro f
  induction f with
  | zero =>
      intro g _ hp vis nf st r h
      simp [baseLoop] at h
  | succ f ih =>
      intro g hg hp vis nf st r h
      obtain ⟨g', rfl⟩ : ∃ g', g = g' + 1 := ⟨g - 1, by omega⟩
      have hfg : f ≤ g' := by omega
      rw [baseLoop] at h ⊢
      by_cases hstop : hp.isEmpty || ¬ nf.length < k + 1
      · simp only [hstop, if_true] at h ⊢
        exact h
      · simp only [hstop, if_false] at h ⊢
        cases hp with
        | nil => simpa [heapPop] using h
        | cons e rest =>
            obtain ⟨d, idx⟩ := e
            simp only [heapPop] at h ⊢
            by_cases hvis : vis.contains idx
            · simp only [hvis, if_true] at h ⊢
              exact ih g' hfg _ _ _ _ _ h
            · simp only [hvis, if_false] at h ⊢
              exact ih g' hfg _ _ _ _ _ h

/-- `base_case` is stable under raising the fuel, unless it ran out of it. -/
theorem base_case_mono (G : SGraph) (k : Nat) (u : DQ) (fr : PySet)
    (st : BState) {f g : Nat} (hfg : f ≤ g) {r}
    (h : base_case G k u fr st f = r) (hr : r ≠ .error "fuel") :
    base_case G k u fr st g = r := by
  cases fr with
  | nil => exact h
  | cons first rest =>
      rw [base_case] at h ⊢
      cases hgd : getDist st.dist first with
      | none =>
          rw [hgd] at h
          exact (show baseDispatch G k u first st g none =
            baseDispatch G k u first st f none from rfl).trans h
      | some d0 =>
          rw [hgd] at h
          rw [show baseDispatch G k u first st f (some d0) =
            baseFinish k u (baseLoop G k u f [(d0, first)] [] [] st) from rfl]
            at h
          rw [show baseDispatch G k u first st g (some d0) =
            baseFinish k u (baseLoop G k u g [(d0, first)] [] [] st) from rfl]
          cases hb : baseLoop G k u f [(d0, first)] [] [] st with
          | none =>
              rw [hb] at h
              exact absurd h.symm hr
          | some pr =>
              rw [hb] at h
              rw [baseLoop_mono G k u f g hfg _ _ _ _ _ hb]
              exact h

/-- With at least 5 units of fuel, the base case from node 0 in the state
reached by `find_pivots` completes the zero-weight triangle, sets
`distance_matrix[3] = 1`, and returns the boundary 0 with an empty frontier. -/
theorem bmsspCex_base1 (lf : Nat) (h : 5 ≤ lf) :
    base_case bmsspCexG 2 ⊤ [0] bmsspCexSt1 lf = .ok (0, [], bmsspCexSt2) :=
  base_case_mono _ _ _ _ _ h (by decide) (by simp)

/-- From the stationary state the base case returns the same boundary 0 and
empty frontier without changing the state. -/
theorem bmsspCex_base2 (lf : Nat) (h : 5 ≤ lf) :
    base_case bmsspCexG 2 ⊤ [0] bmsspCexSt2 lf = .ok (0, [], bmsspCexSt2) :=
  base_case_mono _ _ _ _ _ h (by decide) (by simp)

/-- One iteration of the divergent loop from the stationary state maps the
stationary state to itself: node 0 is pulled, the base case returns boundary
0 with no new frontier, and node 0 (distance 0 in `[0, ∞)`) is batch-prepended
straight back into the bucket structure. -/
theorem bmsspCex_step2 (lf : Nat) (h : 5 ≤ lf) :
    rbStep bmsspCexG ⊤ (recursive_bmssp bmsspCexG 2 2 lf 0) bmsspCexDS []
      0 bmsspCexSt2 = .ok (.inr (bmsspCexDS, [], 0, bmsspCexSt2)) := by
  have hrec : recursive_bmssp bmsspCexG 2 2 lf 0 ⊤ [0] bmsspCexSt2 =
      .ok (0, [], bmsspCexSt2) := bmsspCex_base2 lf h
  rw [rbStep, show dsPull bmsspCexDS =
    (⊤, [0], { subset_size := 1, upper_bound := ⊤, best := [], heap := [] })
    from by decide]
  rw [rbPulled, if_neg (by decide), hrec, rbAfter]
  decide

/-- Same for the first iteration, which also finalizes node 3. -/
theorem bmsspCex_step1 (lf : Nat) (h : 5 ≤ lf) :
    rbStep bmsspCexG ⊤ (recursive_bmssp bmsspCexG 2 2 lf 0) bmsspCexDS []
      0 bmsspCexSt1 = .ok (.inr (bmsspCexDS, [], 0, bmsspCexSt2)) := by
  have hrec : recursive_bmssp bmsspCexG 2 2 lf 0 ⊤ [0] bmsspCexSt1 =
      .ok (0, [], bmsspCexSt2) := bmsspCex_base1 lf h
  rw [rbStep, show dsPull bmsspCexDS =
    (⊤, [0], { subset_size := 1, upper_bound := ⊤, best := [], heap := [] })
    from by decide]
  rw [rbPulled, if_neg (by decide), hrec, rbAfter]
  decide

/-- The main loop started in the stationary state never terminates: its state
repeats verbatim, so every amount of fuel is exhausted. -/
theorem bmsspCex_loop2 (lf : Nat) (h : 5 ≤ lf) : ∀ f,
    rbLoop bmsspCexG ⊤ 16 (recursive_bmssp bmsspCexG 2 2 lf 0) f bmsspCexDS
      [] 0 bmsspCexSt2 = .error "fuel" := by
  intro f
  induction f with
  | zero => rfl
  | succ f ih =>
      rw [rbLoop, if_pos (by decide), bmsspCex_step2 lf h]
      exact ih

/-- The loop started from the post-`find_pivots` state diverges as well. -/
theorem bmsspCex_loop1 (lf : Nat) (h : 5 ≤ lf) : ∀ f,
    rbLoop bmsspCexG ⊤ 16 (recursive_bmssp bmsspCexG 2 2 lf 0) f bmsspCexDS
      [] 0 bmsspCexSt1 = .error "fuel" := by
  intro f
  cases f with
  | zero => rfl
  | succ f =>
      rw [rbLoop, if_pos (by decide), bmsspCex_step1 lf h]
      exact bmsspCex_loop2 lf h f

/-- Feasible potential certifying the shortest distances of `bmsspCexG`. -/
def bmsspCexPot : Nat → ℚ := fun v => if v = 3 then 1 else 0

/-- C1 (code_bug evaluation): on the validated (symmetric, connected,
non-negative) graph `bmsspCexG` with origin 0, the BMSSP solver never
terminates -- its top-level `recursive_bmssp` call returns the
fuel-exhaustion marker for *every* amount of loop fuel, because the main loop
reaches a stationary state in which node 0 is pulled from the bucket
structure, the base case trims its completed zero-weight triangle to an empty
frontier with boundary 0, and node 0 is immediately batch-prepended back.
In Python the constructor `BmsspSolver(bmsspCexG, 0)` therefore hangs and no
`distance_matrix` is ever produced, while both Dijkstra variants return the
true shortest distance 1 from node 0 to node 3. -/
theorem C1_bmssp_solver_diverges :
    (∀ lf, recursive_bmssp bmsspCexG (kParam 4) (tParam 4) lf (lParam 4)
        ⊤ [0] bmsspCexSt0 = .error "fuel") ∧
    bmsspSolve bmsspCexG 0 = .error "fuel" ∧
    validate_graph bmsspCexG true true = .ok () ∧
    dijkstra_makowski bmsspCexG 0 3 =
      .ok { path := [0, 2, 3], length := ((1 : ℚ) : DQ) } ∧
    dijkstra bmsspCexG 0 3 =
      .ok { path := [0, 2, 3], length := ((1 : ℚ) : DQ) } ∧
    IsShortestDist bmsspCexG 0 3 1 := by
  have hpot : ∀ u v w, (v, w) ∈ adj bmsspCexG u →
      bmsspCexPot v ≤ bmsspCexPot u + w := by
    intro u v w hm
    match u with
    | 0 =>
        simp only [show adj bmsspCexG 0 = [(1, 0), (2, 0)] from rfl,
          List.mem_cons, List.not_mem_nil, or_false, Prod.mk.injEq] at hm
        rcases hm with ⟨rfl, rfl⟩ | ⟨rfl, rfl⟩ <;> norm_num [bmsspCexPot]
    | 1 =>
        simp only [show adj bmsspCexG 1 = [(0, 0), (2, 0)] from rfl,
          List.mem_cons, List.not_mem_nil, or_false, Prod.mk.injEq] at hm
        rcases hm with ⟨rfl, rfl⟩ | ⟨rfl, rfl⟩ <;> norm_num [bmsspCexPot]
    | 2 =>
        simp only [show adj bmsspCexG 2 = [(0, 0), (1, 0), (3, 1)] from rfl,
          List.mem_cons, List.not_mem_nil, or_false, Prod.mk.injEq] at hm
        rcases hm with ⟨rfl, rfl⟩ | ⟨rfl, rfl⟩ | ⟨rfl, rfl⟩ <;>
          norm_num [bmsspCexPot]
    | 3 =>
        simp only [show adj bmsspCexG 3 = [(2, 1)] from rfl,
          List.mem_cons, List.not_mem_nil, or_false, Prod.mk.injEq] at hm
        rcases hm with ⟨rfl, rfl⟩
        norm_num [bmsspCexPot]
    | n + 4 => simp [adj, bmsspCexG, List.getD] at hm
  have hdiv : ∀ lf, recursive_bmssp bmsspCexG (kParam 4) (tParam 4) lf
      (lParam 4) ⊤ [0] bmsspCexSt0 = .error "fuel" := by
    intro lf
    by_cases h5 : 5 ≤ lf
    · have hl := bmsspCex_loop1 lf h5 lf
      show rbWrap ⊤ [0, 1, 2]
        (rbLoop bmsspCexG ⊤ 16 (recursive_bmssp bmsspCexG 2 2 lf 0)
          lf bmsspCexDS [] 0 bmsspCexSt1) = .error "fuel"
      rw [hl]
      rfl
    · have h4 : lf ≤ 4 := by omega
      interval_cases lf <;> decide
  refine ⟨hdiv, ?_, by decide, by decide, by decide, ?_⟩
  · have h216 := hdiv 216
    show bmsspFinish (recursive_bmssp bmsspCexG (kParam 4) (tParam 4) 216
      (lParam 4) ⊤ [0] bmsspCexSt0) = .error "fuel"
    rw [h216]
    rfl
  · refine ⟨⟨[0, 2, 3], rfl, rfl, by decide⟩, ?_⟩
    intro p c hw
    have hb := walk_lower_bound bmsspCexG bmsspCexPot hpot p 0 3 c hw
    simpa [bmsspCexPot] using hb

/-! ## C3: GeoGraph construction -/

/-- State of a `CacheGraph`: the owned graph and the spanning-tree cache. -/
structure CacheGraphState where
  graph : SGraph
  cache : List (Nat × SpanningTreeRes)
deriving Repr

/-- Parameter names of `CacheGraph.__init__` in cache.py (besides `self`). -/
def cacheGraphInitParams : List String := ["graph"]

/-- Keyword-argument names that `GeoGraph.__init__` passes to `CacheGraph`
(geograph.py line 60: `CacheGraph(graph=self.graph, validate_graph=False)`). -/
def geoGraphCacheCallKwargs : List String := ["graph", "validate_graph"]

/-- Python call resolution for keyword arguments: a keyword that matches no
declared parameter raises `TypeError` before the callee body runs. -/
def pyKwCall {A : Type} (params kwargs : List String)
    (run : Except String A) : Except String A :=
  match kwargs.find? (fun k => ¬ params.contains k) with
  | some k => .error ("TypeError: unexpected keyword argument " ++ k)
  | none => run

/-- Body of `CacheGraph.__init__`: validates the graph for symmetry (but not
connectivity) and installs an empty cache. -/
def cacheGraphInit (graph : SGraph) : Except String CacheGraphState :=
  match validate_graph graph true false with
  | .error e => .error e
  | .ok () => .ok { graph := graph, cache := [] }

/-- State of a `GeoGraph`.  The k-d tree is rebuilt from `nodes` only at
construction and is not needed by the claims below, so it is not stored. -/
structure GeoGraphState where
  graph : SGraph
  nodes : List (ℚ × ℚ)
  cacheGraph : CacheGraphState
  origLen : Nat
deriving Repr

/-- `GeoGraph.__init__`: store graph and nodes, build the k-d tree, then call
`CacheGraph(graph=self.graph, validate_graph=False)` and record the original
graph length.  The keyword call is resolved with Python semantics. -/
def geoGraphInit (graph : SGraph) (nodes : List (ℚ × ℚ)) :
    Except String GeoGraphState :=
  match pyKwCall cacheGraphInitParams geoGraphCacheCallKwargs
      (cacheGraphInit graph) with
  | .error e => .error e
  | .ok cg =>
      .ok { graph := graph, nodes := nodes, cacheGraph := cg
            origLen := graph.length }

/-- C3 (code_bug evaluation): constructing a `GeoGraph` never succeeds, on
any input whatsoever: `GeoGraph.__init__` passes the keyword argument
`validate_graph=False` to `CacheGraph`, but `CacheGraph.__init__` in cache.py
accepts only `graph`, so every construction raises
`TypeError: ... unexpected keyword argument 'validate_graph'`.  The claim --
construction succeeds for well-formed inputs and creates the cache without
any graph validation -- fails on both counts (the only `CacheGraph`
constructor in the source also always runs the symmetry validation). -/
theorem C3_geograph_init_type_error :
    (∀ graph nodes, geoGraphInit graph nodes =
      .error "TypeError: unexpected keyword argument validate_graph") ∧
    geoGraphInit [[(1, 1)], [(0, 1)]] [(0, 0), (0, 1)] =
      .error "TypeError: unexpected keyword argument validate_graph" := by
  constructor
  · intro graph nodes
    rfl
  · rfl

/-! ## C2: GeoGraph.get_shortest_path restores the graph -/

/-- Parameter names of `CacheGraph.get_shortest_path` in cache.py (besides
`self`).  There is no `**kwargs` catch-all and no `length_only` parameter. -/
def cacheGraphGspParams : List String :=
  ["origin_id", "destination_id", "cache", "cache_for", "heuristic_fn"]

/-- A graph is closed when every adjacency key is an in-range node index.
This is the first check of `Graph.validate_graph` and an invariant of every
well-formed GeoGraph state. -/
def GraphClosed (G : SGraph) : Prop :=
  ∀ d ∈ G, ∀ p ∈ d, p.1 < G.length

/-- The input assertions of `GeoGraph.add_node` that involve the node
coordinates (geograph.py lines 943-948).  The remaining assertions concern the
circuity and node-addition-type parameters, which the claims below hold fixed
at valid values; like these two they fire before any mutation. -/
def node_asserts (pt : ℚ × ℚ) : Except String Unit :=
  if pt.1 < -90 ∨ 90 < pt.1 then
    .error "AssertionError: Latitude must be between -90 and 90"
  else if pt.2 < -180 ∨ 180 < pt.2 then
    .error "AssertionError: Longitude must be between -180 and 180"
  else .ok ()

/-- The mirror-write loop of `add_node` (geograph.py lines 979-980):
`self.graph[node_idx][new_node_id] = node_distance` for every entry of the
`distances` dictionary.  An out-of-range index raises `IndexError`, keeping
all mutations made so far. -/
def mirrorWrites (g : SGraph) (newId : Nat) : Adj → SGraph × Except String Unit
  | [] => (g, .ok ())
  | (i, v) :: t =>
    match g[i]? with
    | none => (g, .error "IndexError: list assignment index out of range")
    | some d => mirrorWrites (g.set i (dictSet newId v d)) newId t

/-- `GeoGraph.add_node` (geograph.py lines 883-981) with the distance lookup
abstracted: `gnd st pt` stands for `get_node_distances`, which reads the state
but never mutates it (its trigonometric distance computations are irrelevant
to the frame claim).  After the input assertions the node and its distance
dictionary are appended and every edge is mirrored in place. -/
def add_node (st : GeoGraphState)
    (gnd : GeoGraphState → ℚ × ℚ → Except String Adj)
    (pt : ℚ × ℚ) : GeoGraphState × Except String Nat :=
  match node_asserts pt with
  | .error e => (st, .error e)
  | .ok () =>
    match gnd st pt with
    | .error e => (st, .error e)
    | .ok distances =>
      match mirrorWrites (st.graph ++ [distances]) st.graph.length distances with
      | (g2, .ok ()) =>
          ({ st with graph := g2, nodes := st.nodes ++ [pt] },
            .ok st.graph.length)
      | (g2, .error e) =>
          ({ st with graph := g2, nodes := st.nodes ++ [pt] }, .error e)

/-- The mirror-deletion loop of `remove_appended_node` (geograph.py lines
747-748): `del self.graph[reverse_connection][node_id]` over the captured key
list.  A missing index raises `IndexError`, a missing key `KeyError`. -/
def mirrorDels (g : SGraph) (nodeId : Nat) : List Nat → SGraph × Except String Unit
  | [] => (g, .ok ())
  | r :: t =>
    match g[r]? with
    | none => (g, .error "IndexError: list index out of range")
    | some d =>
      match dictGet? nodeId d with
      | none => (g, .error "KeyError")
      | some _ => mirrorDels (g.set r (dictDel nodeId d)) nodeId t

/-- `GeoGraph.remove_appended_node` (geograph.py lines 729-750): delete the
mirror edges of the last node, then truncate the graph and node lists. -/
def remove_appended_node (st : GeoGraphState) : GeoGraphState × Except String Unit :=
  match st.graph[st.graph.length - 1]? with
  | none => (st, .error "IndexError: list index out of range")
  | some d =>
    match mirrorDels st.graph (st.graph.length - 1) (dictKeys d) with
    | (g2, .ok ()) =>
        ({ st with graph := g2.take (st.graph.length - 1),
                   nodes := st.nodes.take (st.graph.length - 1) }, .ok ())
    | (g2, .error e) => ({ st with graph := g2 }, .error e)

/-- One pass of `cleanup_temp_nodes` (geograph.py lines 365-368): while the
graph is longer than the recorded original length, remove the last node.  The
fuel only guards Lean totality; each removal shortens the graph, so the fuel
used below never runs out. -/
def cleanupLoop : Nat → GeoGraphState → GeoGraphState × Except String Unit
  | 0, st => (st, .error "fuel")
  | f + 1, st =>
    if st.origLen < st.graph.length then
      match remove_appended_node st with
      | (st2, .ok ()) => cleanupLoop f st2
      | (st2, .error e) => (st2, .error e)
    else (st, .ok ())

/-- `GeoGraph.cleanup_temp_nodes` with sufficient fuel. -/
def cleanup_temp_nodes (st : GeoGraphState) : GeoGraphState × Except String Unit :=
  cleanupLoop (st.graph.length + 1) st

/-- The `try` block of `GeoGraph.get_shortest_path` (geograph.py lines
553-647), returning the state reached together with the outcome.  The cache
branch reads node distances without mutating and then calls
`self.cacheGraph.get_shortest_path(origin_id=..., destination_id=...,
length_only=...)`; resolving that call against `cacheGraphGspParams` raises
`TypeError` before the callee body can run, so the callee is represented by an
unreached error token.  The non-cache branch adds the two temporary nodes and
runs the abstracted algorithm and output formatting (`algo`, `fmt`), which
read the state but do not mutate the graph. -/
def geoTryBody (st : GeoGraphState)
    (gnd : GeoGraphState → ℚ × ℚ → Except String Adj)
    (algo : SGraph → Nat → Nat → Except String PathResult)
    (fmt : GeoGraphState → PathResult → Except String PathResult)
    (cache : Bool) (origin_node destination_node : ℚ × ℚ) :
    GeoGraphState × Except String PathResult :=
  match cache with
  | true =>
    match gnd st origin_node with
    | .error e => (st, .error e)
    | .ok entry =>
      match entry with
      | [] => (st, .error "IndexError: list index out of range")
      | _ :: _ =>
        match gnd st destination_node with
        | .error e => (st, .error e)
        | .ok exits =>
          match exits with
          | [] => (st, .error "IndexError: list index out of range")
          | _ :: _ =>
            (st, pyKwCall cacheGraphGspParams
              ["origin_id", "destination_id", "length_only"]
              (.error "unreached: CacheGraph.get_shortest_path body"))
  | false =>
    match add_node st gnd origin_node with
    | (st1, .error e) => (st1, .error e)
    | (st1, .ok origin_id) =>
      match add_node st1 gnd destination_node with
      | (st2, .error e) => (st2, .error e)
      | (st2, .ok destination_id) =>
        match algo st2.graph origin_id destination_id with
        | .error e => (st2, .error e)
        | .ok out =>
          match fmt st2 out with
          | .error e => (st2, .error e)
          | .ok out2 => (st2, .ok out2)

/-- The `try`/`except` wrapper of `GeoGraph.get_shortest_path`: on success the
`try` block itself runs `cleanup_temp_nodes` before returning; any exception,
including one raised by that cleanup, lands in the handler, which runs
`cleanup_temp_nodes` (again) and re-raises. -/
def geoWrap (pr : GeoGraphState × Except String PathResult) :
    GeoGraphState × Except String PathResult :=
  match pr with
  | (st1, .ok out) =>
    match cleanup_temp_nodes st1 with
    | (st2, .ok _) => (st2, .ok out)
    | (st2, .error e) =>
      match cleanup_temp_nodes st2 with
      | (st3, .ok _) => (st3, .error e)
      | (st3, .error e2) => (st3, .error e2)
  | (st1, .error e) =>
    match cleanup_temp_nodes st1 with
    | (st2, .ok _) => (st2, .error e)
    | (st2, .error e2) => (st2, .error e2)

/-- `GeoGraph.get_shortest_path` as a state transformer: the returned state is
the one the GeoGraph holds after the call, whether it returned or raised. -/
def geoGetShortestPath (st : GeoGraphState)
    (gnd : GeoGraphState → ℚ × ℚ → Except String Adj)
    (algo : SGraph → Nat → Nat → Except String PathResult)
    (fmt : GeoGraphState → PathResult → Except String PathResult)
    (cache : Bool) (origin_node destination_node : ℚ × ℚ) :
    GeoGraphState × Except String PathResult :=
  geoWrap (geoTryBody st gnd algo fmt cache origin_node destination_node)

/-- Reading back the entry just written by `List.set`. -/
theorem lset_get_eq {α : Type} :
    ∀ (l : List α) (i : Nat) (a : α), i < l.length → (l.set i a)[i]? = some a
  | [], i, _, h => absurd h (Nat.not_lt_zero i)
  | x :: t, 0, a, _ => by simp
  | x :: t, i + 1, a, h => by
      simp only [List.set_cons_succ, List.getElem?_cons_succ]
      exact lset_get_eq t i a (Nat.lt_of_succ_lt_succ h)

/-- `List.set` leaves every other position unchanged. -/
theorem lset_get_ne {α : Type} :
    ∀ (l : List α) (i j : Nat) (a : α), i ≠ j → (l.set i a)[j]? = l[j]?
  | [], _, _, _, _ => rfl
  | x :: t, 0, 0, a, h => absurd rfl h
  | x :: t, 0, j + 1, a, _ => by
      simp only [List.set_cons_zero, List.getElem?_cons_succ]
  | x :: t, i + 1, 0, a, _ => by
      simp only [List.set_cons_succ, List.getElem?_cons_zero]
  | x :: t, i + 1, j + 1, a, h => by
      simp only [List.set_cons_succ, List.getElem?_cons_succ]
      exact lset_get_ne t i j a (fun e => h (congrArg Nat.succ e))

/-- Writing back the value already stored is the identity. -/
theorem lset_self {α : Type} :
    ∀ (l : List α) (i : Nat) (a : α), l[i]? = some a → l.set i a = l
  | [], _, _, h => by simp at h
  | x :: t, 0, a, h => by
      simp only [List.getElem?_cons_zero, Option.some.injEq] at h
      simp [h]
  | x :: t, i + 1, a, h => by
      simp only [List.getElem?_cons_succ] at h
      simp only [List.set_cons_succ, List.cons.injEq, true_and]
      exact lset_self t i a h

/-- Two writes at distinct positions commute. -/
theorem lset_comm {α : Type} :
    ∀ (l : List α) (i j : Nat) (a b : α), i ≠ j →
      (l.set i a).set j b = (l.set j b).set i a
  | [], _, _, _, _, _ => rfl
  | x :: t, 0, 0, a, b, h => absurd rfl h
  | x :: t, 0, j + 1, a, b, _ => rfl
  | x :: t, i + 1, 0, a, b, _ => rfl
  | x :: t, i + 1, j + 1, a, b, h => by
      show x :: (t.set i a).set j b = x :: (t.set j b).set i a
      rw [lset_comm t i j a b (fun e => h (congrArg Nat.succ e))]

/-- Indexing an append on the left side. -/
theorem lappend_get_lt {α : Type} :
    ∀ (l l2 : List α) (i : Nat), i < l.length → (l ++ l2)[i]? = l[i]?
  | [], _, i, h => absurd h (Nat.not_lt_zero i)
  | x :: t, l2, 0, _ => by
      simp only [List.cons_append, List.getElem?_cons_zero]
  | x :: t, l2, i + 1, h => by
      simp only [List.cons_append, List.getElem?_cons_succ]
      exact lappend_get_lt t l2 i (Nat.lt_of_succ_lt_succ h)

/-- Indexing the singleton appended at the end. -/
theorem lappend_last {α : Type} :
    ∀ (l : List α) (a : α), (l ++ [a])[l.length]? = some a
  | [], _ => rfl
  | x :: t, a => by
      simp only [List.cons_append, List.length_cons, List.getElem?_cons_succ]
      exact lappend_last t a

/-- Truncating an append at the split point returns the left part. -/
theorem ltake_append {α : Type} :
    ∀ (l l2 : List α), (l ++ l2).take l.length = l
  | [], _ => rfl
  | x :: t, l2 => by
      show x :: (t ++ l2).take t.length = x :: t
      rw [ltake_append t l2]

/-- Every fetched entry is a member. -/
theorem lmem_of_get {α : Type} :
    ∀ (l : List α) (i : Nat) (a : α), l[i]? = some a → a ∈ l
  | [], _, _, h => by simp at h
  | x :: t, 0, a, h => by
      simp only [List.getElem?_cons_zero, Option.some.injEq] at h
      exact h ▸ List.mem_cons_self x t
  | x :: t, i + 1, a, h => by
      simp only [List.getElem?_cons_succ] at h
      exact List.mem_cons_of_mem x (lmem_of_get t i a h)

/-- Setting a fresh key appends it at the end of the dictionary. -/
theorem dictSet_of_not_mem :
    ∀ (d : Adj) (k : Nat) (v : ℚ), k ∉ d.map Prod.fst →
      dictSet k v d = d ++ [(k, v)]
  | [], _, _, _ => rfl
  | (k', v') :: t, k, v, h => by
      have hk : ¬ k' = k := fun e => h (by simp [e])
      simp only [dictSet, if_neg hk, List.cons_append, List.cons.injEq, true_and]
      exact dictSet_of_not_mem t k v (fun hm => h (by simp [hm]))

/-- Fetching the key appended at the end of a dictionary not containing it. -/
theorem dictGet?_append_self :
    ∀ (d : Adj) (k : Nat) (v : ℚ), k ∉ d.map Prod.fst →
      dictGet? k (d ++ [(k, v)]) = some v
  | [], k, v, _ => by simp [dictGet?]
  | (k', v') :: t, k, v, h => by
      have hk : ¬ k' = k := fun e => h (by simp [e])
      simp only [List.cons_append, dictGet?, if_neg hk]
      exact dictGet?_append_self t k v (fun hm => h (by simp [hm]))

/-- Deleting the key appended at the end of a dictionary not containing it. -/
theorem dictDel_append_self :
    ∀ (d : Adj) (k : Nat) (v : ℚ), k ∉ d.map Prod.fst →
      dictDel k (d ++ [(k, v)]) = d
  | [], k, v, _ => by simp [dictDel]
  | (k', v') :: t, k, v, h => by
      have hk : ¬ k' = k := fun e => h (by simp [e])
      simp only [List.cons_append, dictDel, if_neg hk, List.cons.injEq, true_and]
      exact dictDel_append_self t k v (fun hm => h (by simp [hm]))

/-- Mirror deletions at indices other than `i` commute with a write at `i`. -/
theorem mirrorDels_set_comm (N : Nat) :
    ∀ (ks : List Nat) (g : SGraph) (i : Nat) (a : Adj), i ∉ ks →
      mirrorDels (g.set i a) N ks =
        ((mirrorDels g N ks).1.set i a, (mirrorDels g N ks).2)
  | [], _, _, _, _ => rfl
  | r :: t, g, i, a, h => by
      have hir : i ≠ r := fun e => h (e ▸ List.mem_cons_self r t)
      have hit : i ∉ t := fun hm => h (List.mem_cons_of_mem r hm)
      cases hr : g[r]? with
      | none =>
        simp only [mirrorDels, lset_get_ne g i r a hir, hr]
      | some d =>
        cases hd : dictGet? N d with
        | none =>
          simp only [mirrorDels, lset_get_ne g i r a hir, hr, hd]
        | some v =>
          simp only [mirrorDels, lset_get_ne g i r a hir, hr, hd]
          rw [lset_comm g i r a (dictDel N d) hir]
          exact mirrorDels_set_comm N t (g.set r (dictDel N d)) i a hit

/-- Writing twice at the same position keeps only the second write. -/
theorem lset_set {α : Type} :
    ∀ (l : List α) (i : Nat) (a b : α), (l.set i a).set i b = l.set i b
  | [], _, _, _ => rfl
  | _ :: _, 0, _, _ => rfl
  | x :: t, i + 1, a, b => by
      show x :: (t.set i a).set i b = x :: t.set i b
      rw [lset_set t i a b]

/-- Round trip of the mirror-edge bookkeeping: writing the mirror edges of a
dictionary with distinct in-range keys into a graph whose touched entries do
not yet contain the new key succeeds, records each mirror edge at the end of
its dictionary, and the deletion loop of `remove_appended_node` then restores
the graph exactly. -/
theorem mirror_roundtrip (N : Nat) :
    ∀ (todo : Adj) (g : SGraph),
      (∀ p ∈ todo, p.1 < N) →
      (todo.map Prod.fst).Nodup →
      N < g.length →
      (∀ p ∈ todo, ∀ d, g[p.1]? = some d → ∀ q ∈ d, q.1 < N) →
      ∃ g1, mirrorWrites g N todo = (g1, .ok ()) ∧
        g1.length = g.length ∧
        (∀ j, j ∉ todo.map Prod.fst → g1[j]? = g[j]?) ∧
        (∀ p ∈ todo, ∀ d, g[p.1]? = some d →
          g1[p.1]? = some (d ++ [(N, p.2)])) ∧
        mirrorDels g1 N (todo.map Prod.fst) = (g, .ok ())
  | [], g, _, _, _, _ =>
      ⟨g, rfl, rfl, fun _ _ => rfl,
        fun p hp => absurd hp (List.not_mem_nil p), rfl⟩
  | (i, v) :: t, g, hk, hnd, hN, hcl => by
    have hi : i < N := hk (i, v) (List.mem_cons_self _ _)
    have hig : i < g.length := hi.trans hN
    obtain ⟨d, hd⟩ : ∃ x, g[i]? = some x :=
      ⟨g[i], List.getElem?_eq_getElem hig⟩
    have hclid : ∀ q ∈ d, q.1 < N := hcl (i, v) (List.mem_cons_self _ _) d hd
    have hNd : N ∉ d.map Prod.fst := by
      intro hm
      obtain ⟨q, hq, hq1⟩ := List.mem_map.mp hm
      exact absurd (hclid q hq) (by rw [hq1]; exact lt_irrefl N)
    rw [List.map_cons] at hnd
    have hint : i ∉ t.map Prod.fst := (List.nodup_cons.mp hnd).1
    have hndt : (t.map Prod.fst).Nodup := (List.nodup_cons.mp hnd).2
    obtain ⟨g1, hw, hlen, hout, hin, hdel⟩ :=
      mirror_roundtrip N t (g.set i (d ++ [(N, v)]))
        (fun p hp => hk p (List.mem_cons_of_mem _ hp))
        hndt
        (by rw [List.length_set]; exact hN)
        (by
          intro p hp d' hd'
          have hpi : i ≠ p.1 :=
            fun e => hint (List.mem_map.mpr ⟨p, hp, e.symm⟩)
          rw [lset_get_ne g i p.1 _ hpi] at hd'
          exact hcl p (List.mem_cons_of_mem _ hp) d' hd')
    have hg1i : g1[i]? = some (d ++ [(N, v)]) := by
      rw [hout i hint]
      exact lset_get_eq g i _ hig
    refine ⟨g1, ?_, ?_, ?_, ?_, ?_⟩
    · show mirrorWrites g N ((i, v) :: t) = (g1, .ok ())
      simp only [mirrorWrites, hd]
      rw [dictSet_of_not_mem d N v hNd]
      exact hw
    · rw [hlen, List.length_set]
    · intro j hj
      rw [List.map_cons, List.mem_cons] at hj
      push_neg at hj
      obtain ⟨hji, hjt⟩ := hj
      rw [hout j hjt, lset_get_ne g i j _ (fun e => hji e.symm)]
    · intro p hp d' hd'
      rcases List.mem_cons.mp hp with he | hpt
      · subst he
        have hd2 : g[i]? = some d' := hd'
        rw [hd] at hd2
        injection hd2 with hdd
        subst hdd
        show g1[i]? = some (d ++ [(N, v)])
        exact hg1i
      · have hpi : i ≠ p.1 :=
          fun e => hint (List.mem_map.mpr ⟨p, hpt, e.symm⟩)
        have hg' : (g.set i (d ++ [(N, v)]))[p.1]? = some d' := by
          rw [lset_get_ne g i p.1 _ hpi]
          exact hd'
        exact hin p hpt d' hg'
    · show mirrorDels g1 N (((i, v) :: t).map Prod.fst) = (g, .ok ())
      rw [List.map_cons]
      simp only [mirrorDels, hg1i, dictGet?_append_self d N v hNd]
      rw [dictDel_append_self d N v hNd,
        mirrorDels_set_comm N (t.map Prod.fst) g1 i d hint, hdel]
      show ((g.set i (d ++ [(N, v)])).set i d, (.ok () : Except String Unit)) =
        (g, .ok ())
      rw [lset_set g i (d ++ [(N, v)]) d, lset_self g i d hd]

/-- Adding a temporary node to a well-formed GeoGraph state succeeds,
produces a closed graph one entry longer, and `remove_appended_node`
restores the previous state exactly. -/
theorem add_node_roundtrip (st : GeoGraphState)
    (gnd : GeoGraphState → ℚ × ℚ → Except String Adj)
    (pt : ℚ × ℚ) (distances : Adj)
    (hA : node_asserts pt = .ok ())
    (hgnd : gnd st pt = .ok distances)
    (hk : ∀ p ∈ distances, p.1 < st.graph.length)
    (hnd : (distances.map Prod.fst).Nodup)
    (hclosed : GraphClosed st.graph)
    (hnodes : st.nodes.length = st.graph.length) :
    ∃ g2,
      add_node st gnd pt =
        ({ st with graph := g2, nodes := st.nodes ++ [pt] },
          .ok st.graph.length) ∧
      g2.length = st.graph.length + 1 ∧
      GraphClosed g2 ∧
      remove_appended_node
          { st with graph := g2, nodes := st.nodes ++ [pt] } =
        (st, .ok ()) := by
  obtain ⟨g2, hw, hlen, hout, hin, hdel⟩ :=
    mirror_roundtrip st.graph.length distances (st.graph ++ [distances])
      hk hnd
      (by rw [List.length_append]; simp)
      (by
        intro p hp d hd
        rw [lappend_get_lt st.graph [distances] p.1 (hk p hp)] at hd
        exact hclosed d (lmem_of_get st.graph p.1 d hd))
  have hlen2 : g2.length = st.graph.length + 1 := by
    rw [hlen, List.length_append]
    rfl
  have hgN : g2[st.graph.length]? = some distances := by
    rw [hout st.graph.length
      (by
        intro hm
        obtain ⟨q, hq, hq1⟩ := List.mem_map.mp hm
        exact absurd (hk q hq) (by rw [hq1]; exact lt_irrefl _))]
    exact lappend_last st.graph distances
  refine ⟨g2, ?_, hlen2, ?_, ?_⟩
  · simp only [add_node, hA, hgnd, hw]
  · intro d hd p hp
    obtain ⟨j, hj⟩ := List.mem_iff_getElem?.mp hd
    by_cases hjm : j ∈ distances.map Prod.fst
    · obtain ⟨q, hq, hq1⟩ := List.mem_map.mp hjm
      subst hq1
      have hqlt : q.1 < st.graph.length := hk q hq
      obtain ⟨d0, hd0⟩ : ∃ x, st.graph[q.1]? = some x :=
        ⟨_, List.getElem?_eq_getElem hqlt⟩
      have hbase : (st.graph ++ [distances])[q.1]? = some d0 := by
        rw [lappend_get_lt st.graph [distances] q.1 hqlt]
        exact hd0
      have hcomb := hin q hq d0 hbase
      rw [hj] at hcomb
      injection hcomb with hde
      subst hde
      rw [List.mem_append] at hp
      rcases hp with hp | hp
      · have := hclosed d0 (lmem_of_get st.graph q.1 d0 hd0) p hp
        omega
      · simp only [List.mem_singleton] at hp
        subst hp
        show st.graph.length < g2.length
        omega
    · rw [hout j hjm] at hj
      rcases Nat.lt_or_ge j st.graph.length with hjl | hjg
      · rw [lappend_get_lt st.graph [distances] j hjl] at hj
        have := hclosed d (lmem_of_get st.graph j d hj) p hp
        omega
      · rcases Nat.eq_or_lt_of_le hjg with he | hgt
        · rw [← he] at hj
          rw [lappend_last st.graph distances] at hj
          injection hj with hde
          subst hde
          have := hk p hp
          omega
        · have hnone : (st.graph ++ [distances])[j]? = none := by
            apply List.getElem?_eq_none
            rw [List.length_append]
            simpa using hgt
          rw [hnone] at hj
          exact absurd hj (by simp)
  · simp only [remove_appended_node]
    rw [show g2.length - 1 = st.graph.length from by omega, hgN]
    simp only [dictKeys, hdel]
    rw [ltake_append st.graph [distances]]
    rw [show st.graph.length = st.nodes.length from hnodes.symm]
    rw [ltake_append st.nodes [pt]]

/-- The cleanup loop stops at once when no temporary node is present. -/
theorem cleanupLoop_stop (f : Nat) (s : GeoGraphState)
    (h : s.graph.length ≤ s.origLen) :
    cleanupLoop (f + 1) s = (s, .ok ()) := by
  simp only [cleanupLoop, if_neg (Nat.not_lt.mpr h)]

/-- One successful removal advances the cleanup loop. -/
theorem cleanupLoop_step (f : Nat) (s s2 : GeoGraphState)
    (h : s.origLen < s.graph.length)
    (hr : remove_appended_node s = (s2, .ok ())) :
    cleanupLoop (f + 1) s = cleanupLoop f s2 := by
  simp only [cleanupLoop, if_pos h, hr]

/-- A state at its original length is a fixed point of the cleanup. -/
theorem cleanup_id (s : GeoGraphState) (h : s.graph.length ≤ s.origLen) :
    cleanup_temp_nodes s = (s, .ok ()) :=
  cleanupLoop_stop s.graph.length s h

/-- Cleanup after one temporary node. -/
theorem cleanup_one (st st1 : GeoGraphState)
    (h0 : st.graph.length = st.origLen)
    (h1 : st1.graph.length = st.graph.length + 1)
    (ho1 : st1.origLen = st.origLen)
    (hr1 : remove_appended_node st1 = (st, .ok ())) :
    cleanup_temp_nodes st1 = (st, .ok ()) := by
  show cleanupLoop (st1.graph.length + 1) st1 = (st, .ok ())
  rw [h1]
  rw [cleanupLoop_step (st.graph.length + 1) st1 st (by omega) hr1]
  exact cleanupLoop_stop st.graph.length st (le_of_eq h0)

/-- Cleanup after two temporary nodes. -/
theorem cleanup_two (st st1 st2 : GeoGraphState)
    (h0 : st.graph.length = st.origLen)
    (h1 : st1.graph.length = st.graph.length + 1)
    (ho1 : st1.origLen = st.origLen)
    (h2 : st2.graph.length = st.graph.length + 2)
    (ho2 : st2.origLen = st.origLen)
    (hr2 : remove_appended_node st2 = (st1, .ok ()))
    (hr1 : remove_appended_node st1 = (st, .ok ())) :
    cleanup_temp_nodes st2 = (st, .ok ()) := by
  show cleanupLoop (st2.graph.length + 1) st2 = (st, .ok ())
  rw [h2]
  rw [cleanupLoop_step (st.graph.length + 2) st2 st1 (by omega) hr2]
  rw [show st.graph.length + 2 = st.graph.length + 1 + 1 from rfl]
  rw [cleanupLoop_step (st.graph.length + 1) st1 st (by omega) hr1]
  exact cleanupLoop_stop st.graph.length st (le_of_eq h0)

/-- The final state of the wrapper is the state the cleanup lands in,
whatever the outcome of the body was. -/
theorem geoWrap_fst (st1 stf : GeoGraphState) (res : Except String PathResult)
    (h : cleanup_temp_nodes st1 = (stf, .ok ())) :
    (geoWrap (st1, res)).1 = stf := by
  cases res with
  | ok out => simp only [geoWrap, h]
  | error e => simp only [geoWrap, h]

/-- C2: after every `GeoGraph.get_shortest_path` call on a well-formed
state -- whether the call returns or raises, in the cache branch or not, and
wherever in the body the failure arises -- the stored state equals the
pre-call state exactly: in particular the graph has the same length, the same
adjacency entries for every pre-existing node, and no edge keyed on a
temporary appended node index survives in any adjacency dictionary.  The
well-formedness hypotheses hold of every GeoGraph the source can build: no
leftover temporary nodes, parallel node and graph lists, in-range adjacency
keys, and `get_node_distances` results with distinct in-range keys (its keys
come from `enumerate(self.nodes)` or the k-d tree over those nodes). -/
theorem C2_get_shortest_path_restores_graph (st : GeoGraphState)
    (gnd : GeoGraphState → ℚ × ℚ → Except String Adj)
    (algo : SGraph → Nat → Nat → Except String PathResult)
    (fmt : GeoGraphState → PathResult → Except String PathResult)
    (cache : Bool) (origin_node destination_node : ℚ × ℚ)
    (hpre : st.graph.length = st.origLen)
    (hnodes : st.nodes.length = st.graph.length)
    (hclosed : GraphClosed st.graph)
    (hgnd : ∀ s pt d, gnd s pt = .ok d →
      (∀ p ∈ d, p.1 < s.graph.length) ∧ (d.map Prod.fst).Nodup) :
    (geoGetShortestPath st gnd algo fmt cache origin_node
      destination_node).1 = st := by
  have hid : cleanup_temp_nodes st = (st, .ok ()) :=
    cleanup_id st (le_of_eq hpre)
  show (geoWrap (geoTryBody st gnd algo fmt cache origin_node
    destination_node)).1 = st
  rcases hb : geoTryBody st gnd algo fmt cache origin_node destination_node
    with ⟨st1r, res⟩
  apply geoWrap_fst st1r st res
  cases cache with
  | true =>
    have hfst : (geoTryBody st gnd algo fmt true origin_node
        destination_node).1 = st := by
      simp only [geoTryBody]
      cases gnd st origin_node with
      | error e => rfl
      | ok entry =>
        cases entry with
        | nil => rfl
        | cons a t =>
          cases gnd st destination_node with
          | error e => rfl
          | ok exits =>
            cases exits with
            | nil => rfl
            | cons b t2 => rfl
    rw [hb] at hfst
    have h1 : st1r = st := hfst
    rw [h1]
    exact hid
  | false =>
    rcases hA : node_asserts origin_node with e | u
    · have hadd : add_node st gnd origin_node = (st, .error e) := by
        simp only [add_node, hA]
      simp only [geoTryBody, hadd] at hb
      injection hb with h1 h2
      rw [← h1]
      exact hid
    · cases u
      rcases hg1 : gnd st origin_node with e | dists
      · have hadd : add_node st gnd origin_node = (st, .error e) := by
          simp only [add_node, hA, hg1]
        simp only [geoTryBody, hadd] at hb
        injection hb with h1 h2
        rw [← h1]
        exact hid
      · obtain ⟨hk1, hnd1⟩ := hgnd st origin_node dists hg1
        obtain ⟨g2, hadd1, hlen1, hcl1, hrem1⟩ :=
          add_node_roundtrip st gnd origin_node dists hA hg1 hk1 hnd1
            hclosed hnodes
        set st1 : GeoGraphState :=
          { st with graph := g2, nodes := st.nodes ++ [origin_node] }
          with hst1
        have h1len : st1.graph.length = st.graph.length + 1 := hlen1
        have h1o : st1.origLen = st.origLen := rfl
        have h1nodes : st1.nodes.length = st1.graph.length := by
          show (st.nodes ++ [origin_node]).length = g2.length
          simp [hnodes, hlen1]
        have hcl1g : GraphClosed st1.graph := hcl1
        have hcleanup1 : cleanup_temp_nodes st1 = (st, .ok ()) :=
          cleanup_one st st1 hpre h1len h1o hrem1
        rcases hA2 : node_asserts destination_node with e | u2
        · have hadd2 : add_node st1 gnd destination_node = (st1, .error e) := by
            simp only [add_node, hA2]
          simp only [geoTryBody, hadd1, hadd2] at hb
          injection hb with h1 h2
          rw [← h1]
          exact hcleanup1
        · cases u2
          rcases hg2 : gnd st1 destination_node with e | dists2
          · have hadd2 : add_node st1 gnd destination_node =
                (st1, .error e) := by
              simp only [add_node, hA2, hg2]
            simp only [geoTryBody, hadd1, hadd2] at hb
            injection hb with h1 h2
            rw [← h1]
            exact hcleanup1
          · obtain ⟨hk2, hnd2⟩ := hgnd st1 destination_node dists2 hg2
            obtain ⟨g3, hadd2, hlen2, hcl2, hrem2⟩ :=
              add_node_roundtrip st1 gnd destination_node dists2 hA2 hg2
                hk2 hnd2 hcl1g h1nodes
            set st2 : GeoGraphState :=
              ({ st1 with graph := g3, nodes := st1.nodes ++ [destination_node] })
              with hst2
            have h2len : st2.graph.length = st.graph.length + 2 := by
              show g3.length = st.graph.length + 2
              rw [hlen2, h1len]
            have h2o : st2.origLen = st.origLen := rfl
            have hcleanup2 : cleanup_temp_nodes st2 = (st, .ok ()) :=
              cleanup_two st st1 st2 hpre h1len h1o h2len h2o hrem2 hrem1
            simp only [geoTryBody, hadd1, hadd2] at hb
            rcases hal : algo st2.graph st.graph.length st1.graph.length
              with e | out
            · simp only [hal] at hb
              injection hb with h1 h2
              rw [← h1]
              exact hcleanup2
            · simp only [hal] at hb
              rcases hf : fmt st2 out with e2 | out2
              · simp only [hf] at hb
                injection hb with h1 h2
                rw [← h1]
                exact hcleanup2
              · simp only [hf] at hb
                injection hb with h1 h2
                rw [← h1]
                exact hcleanup2

/-- A small concrete GeoGraph state for exercising the frame theorem. -/
def c2St : GeoGraphState :=
  { graph := [[(1, 1)], [(0, 1)]], nodes := [(0, 0), (0, 1)],
    cacheGraph := { graph := [[(1, 1)], [(0, 1)]], cache := [] },
    origLen := 2 }

/-- A concrete distance oracle: joins the new node to node 0 of the original
graph, and returns no connection for later (already extended) states. -/
def c2Gnd : GeoGraphState → ℚ × ℚ → Except String Adj :=
  fun s _ => .ok (if s.graph.length = 2 then [(0, (1 : ℚ))] else [])

/-- A concrete stand-in algorithm. -/
def c2Algo : SGraph → Nat → Nat → Except String PathResult :=
  fun _ o d => .ok { path := [o, d], length := ((3 : ℚ) : DQ) }

/-- A concrete stand-in output formatter. -/
def c2Fmt : GeoGraphState → PathResult → Except String PathResult :=
  fun _ r => .ok r

/-- Witness: the frame theorem applied at a concrete state and query. -/
theorem C2_get_shortest_path_restores_graph_witness :
    (geoGetShortestPath c2St c2Gnd c2Algo c2Fmt false (0, 0) (0, 1)).1 =
      c2St :=
  C2_get_shortest_path_restores_graph c2St c2Gnd c2Algo c2Fmt false
    (0, 0) (0, 1) rfl rfl
    (by
      show ∀ d ∈ c2St.graph, ∀ p ∈ d, p.1 < c2St.graph.length
      decide)
    (by
      intro s pt d h
      injection h with h
      subst h
      constructor
      · intro p hp
        by_cases hc : s.graph.length = 2
        · rw [if_pos hc] at hp
          simp only [List.mem_singleton] at hp
          subst hp
          rw [hc]
          decide
        · rw [if_neg hc] at hp
          exact absurd hp (List.not_mem_nil p)
      · by_cases hc : s.graph.length = 2
        · rw [if_pos hc]
          decide
        · rw [if_neg hc]
          exact List.nodup_nil)

/-! ## C7: GeoGraph.distance_matrix -/

/-- The kilometre conversion table of `distance_converter` (utils.py line
173), with the decimal float literals embedded as exact rationals. -/
def km_table (u : String) : Option ℚ :=
  if u = "mi" then some (621371 / 1000000)
  else if u = "m" then some 1000
  else if u = "ft" then some (328084 / 100)
  else if u = "km" then some 1
  else none

/-- `distance_converter` (utils.py lines 151-174): the two asserts reject any
unit outside the table, then the distance is rescaled through kilometres. -/
def distance_converter (distance : ℚ) (input_units output_units : String) :
    Except String ℚ :=
  match km_table input_units, km_table output_units with
  | some a, some b => .ok (distance / a * b)
  | _, _ => .error "AssertionError: invalid units"

/-- `GeoGraph.distance_matrix` (geograph.py lines 1586-1690) given the
per-node kd-tree entry results: `entries` lists, for each query node, the
entry node index and the off-graph haversine distance returned by
`get_node_distances(..., node_addition_type=\x22kdclosest\x22)` (whose
trigonometry is irrelevant here and is abstracted into the list).  Matrix
cells start as `None`; a pair sharing its entry node is set to `0.0`; any
other pair calls `self.cacheGraph.get_shortest_path(origin_id=...,
destination_id=..., length_only=True)` inside `try`, and the keyword
resolution against `cacheGraphGspParams` raises `TypeError`, which the
`except` swallows, leaving the cell `None`. -/
def geoDistanceMatrix (entries : List (Nat × ℚ))
    (geograph_units output_units : String) :
    Except String (List (List (Option ℚ))) :=
  match distance_converter 1 geograph_units output_units with
  | .error e => .error e
  | .ok dist_multiplier =>
    match distance_converter 1 "km" output_units with
    | .error e => .error e
    | .ok node_addition_multiplier =>
      let ed := entries.map (fun p => (p.1, p.2 * node_addition_multiplier))
      .ok (ed.map (fun ps => ed.map (fun pe =>
        if ps.1 = pe.1 then some (0 : ℚ)
        else
          match pyKwCall cacheGraphGspParams
              ["origin_id", "destination_id", "length_only"]
              (.error "unreached: CacheGraph.get_shortest_path body") with
          | .error _ => none
          | .ok (l : ℚ) => some (l * dist_multiplier + ps.2 + pe.2))))

/-- C7 (code_bug evaluation): for every query list and every pair of valid
units, `distance_matrix` returns a matrix whose cells are `0.0` exactly when
the two query nodes share their kd-closest entry node (in particular on the
diagonal) and `None` everywhere else: the cached-length branch always raises
`TypeError` (there is no `length_only` parameter on
`CacheGraph.get_shortest_path`), the `except` swallows it, and the cell keeps
its initial `None`.  The claim instead promises a real number
`cached length + entry_length_i + entry_length_j` in those cells. -/
theorem C7_distance_matrix_cells (entries : List (Nat × ℚ))
    (gu ou : String) (du nm : ℚ)
    (hgu : distance_converter 1 gu ou = .ok du)
    (hkm : distance_converter 1 "km" ou = .ok nm) :
    geoDistanceMatrix entries gu ou =
      .ok (entries.map (fun ps => entries.map (fun pe =>
        if ps.1 = pe.1 then some (0 : ℚ) else none))) := by
  simp only [geoDistanceMatrix, hgu, hkm]
  congr 1
  rw [List.map_map]
  apply List.map_congr_left
  intro p _
  show (entries.map (fun q => (q.1, q.2 * nm))).map _ =
    entries.map (fun pe => if p.1 = pe.1 then some (0 : ℚ) else none)
  rw [List.map_map]
  apply List.map_congr_left
  intro q _
  rfl

/-- Witness: the matrix for two nodes entering the graph at distinct nodes,
with kilometre units. -/
theorem C7_distance_matrix_cells_witness :
    geoDistanceMatrix [(0, 1), (1, 2)] "km" "km" =
      .ok [[some 0, none], [none, some 0]] := by
  have h := C7_distance_matrix_cells [(0, 1), (1, 2)] "km" "km" 1 1 rfl rfl
  rw [h]
  rfl

/-! ## C10: GridGraph exterior walls extend the callers blocks list -/

/-- The rim cells appended by `GridGraph.__init__` (grid.py lines 79-81):
`[(x, y) for x in range(x_size) for y in [0, y_size - 1]]` followed by
`[(x, y) for x in [0, x_size - 1] for y in range(y_size)]`. -/
def gridRim (x_size y_size : Nat) : List (Nat × Nat) :=
  (List.range x_size).flatMap (fun x => [(x, 0), (x, y_size - 1)]) ++
    [0, x_size - 1].flatMap (fun x => (List.range y_size).map (fun y => (x, y)))

/-- The effect of `GridGraph.__init__` (grid.py lines 67-81) on the block
list supplied by the caller.  `self.blocks = blocks` aliases the callers list
object and `self.blocks += [...]` extends that same object in place, so the
returned list is the content of the callers list after construction. -/
def gridInitBlocks (x_size y_size : Nat) (blocks : List (Nat × Nat))
    (add_exterior_walls : Bool) : Except String (List (Nat × Nat)) :=
  if x_size = 0 then .error "AssertionError: x_size must be greater than 0"
  else if y_size = 0 then .error "AssertionError: y_size must be greater than 0"
  else if add_exterior_walls then .ok (blocks ++ gridRim x_size y_size)
  else .ok blocks

/-- C10: constructing a GridGraph with `add_exterior_walls=True` leaves the
callers block list holding its original cells followed by the rim cells, and
the appended rim is exactly the first and last row and column of the grid
(and is never empty, so the callers list never stays unchanged). -/
theorem C10_add_exterior_walls_extends_blocks (x_size y_size : Nat)
    (blocks : List (Nat × Nat)) (c : Nat × Nat)
    (hx : 0 < x_size) (hy : 0 < y_size) :
    gridInitBlocks x_size y_size blocks true =
      .ok (blocks ++ gridRim x_size y_size) ∧
    (c ∈ gridRim x_size y_size ↔
      ((c.2 = 0 ∨ c.2 = y_size - 1) ∧ c.1 < x_size) ∨
      ((c.1 = 0 ∨ c.1 = x_size - 1) ∧ c.2 < y_size)) ∧
    gridRim x_size y_size ≠ [] := by
  have hx0 : ¬ x_size = 0 := by omega
  have hy0 : ¬ y_size = 0 := by omega
  refine ⟨?_, ?_, ?_⟩
  · unfold gridInitBlocks
    rw [if_neg hx0, if_neg hy0, if_pos rfl]
  · obtain ⟨a, b⟩ := c
    constructor
    · intro hc
      rcases List.mem_append.mp hc with h | h
      · obtain ⟨x, hxr, hcx⟩ := List.mem_flatMap.mp h
        rw [List.mem_range] at hxr
        rcases List.mem_cons.mp hcx with he | he
        · injection he with h1 h2
          subst h1
          subst h2
          exact Or.inl ⟨Or.inl rfl, hxr⟩
        · rcases List.mem_cons.mp he with he2 | he2
          · injection he2 with h1 h2
            subst h1
            subst h2
            exact Or.inl ⟨Or.inr rfl, hxr⟩
          · exact absurd he2 (List.not_mem_nil _)
      · obtain ⟨x, hx2, hcx⟩ := List.mem_flatMap.mp h
        obtain ⟨y, hyr, hcy⟩ := List.mem_map.mp hcx
        rw [List.mem_range] at hyr
        injection hcy with h1 h2
        subst h1
        subst h2
        refine Or.inr ⟨?_, hyr⟩
        rcases List.mem_cons.mp hx2 with he | he
        · exact Or.inl he
        · rcases List.mem_cons.mp he with he2 | he2
          · exact Or.inr he2
          · exact absurd he2 (List.not_mem_nil _)
    · intro hc
      rcases hc with ⟨h2, h1⟩ | ⟨h1, h2⟩
      · apply List.mem_append_left
        apply List.mem_flatMap.mpr
        refine ⟨a, List.mem_range.mpr h1, ?_⟩
        rcases h2 with rfl | rfl
        · exact List.mem_cons_self _ _
        · exact List.mem_cons_of_mem _ (List.mem_cons_self _ _)
      · apply List.mem_append_right
        apply List.mem_flatMap.mpr
        refine ⟨a, ?_, List.mem_map.mpr ⟨b, List.mem_range.mpr h2, rfl⟩⟩
        rcases h1 with rfl | rfl
        · exact List.mem_cons_self _ _
        · exact List.mem_cons_of_mem _ (List.mem_cons_self _ _)
  · have hmem : ((0, 0) : Nat × Nat) ∈ gridRim x_size y_size := by
      apply List.mem_append_left
      apply List.mem_flatMap.mpr
      exact ⟨0, List.mem_range.mpr hx, List.mem_cons_self _ _⟩
    exact List.ne_nil_of_mem hmem

/-- Witness: a 3-by-3 grid with one interior block; the cell (2, 0) lies on
the rim. -/
theorem C10_add_exterior_walls_extends_blocks_witness :
    gridInitBlocks 3 3 [(1, 1)] true = .ok ([(1, 1)] ++ gridRim 3 3) ∧
    (((2, 0) : Nat × Nat) ∈ gridRim 3 3 ↔
      ((((2, 0) : Nat × Nat).2 = 0 ∨ ((2, 0) : Nat × Nat).2 = 3 - 1) ∧
        ((2, 0) : Nat × Nat).1 < 3) ∨
      ((((2, 0) : Nat × Nat).1 = 0 ∨ ((2, 0) : Nat × Nat).1 = 3 - 1) ∧
        ((2, 0) : Nat × Nat).2 < 3)) ∧
    gridRim 3 3 ≠ [] :=
  C10_add_exterior_walls_extends_blocks 3 3 [(1, 1)] (2, 0)
    (by decide) (by decide)

/-! ## C9: GridGraph off-grid endpoints and format_coordinate -/

/-- Python `int()` truncation toward zero on a rational. -/
def pyInt (q : ℚ) : Int := q.num.tdiv q.den

/-- `GridGraph.get_idx` (grid.py lines 153-174): bounds asserts, then the
row-major index. -/
def get_idx (x_size y_size : Nat) (x y : Int) : Except String Nat :=
  if x < 0 ∨ (x_size : Int) ≤ x then
    .error "AssertionError: x coordinate is out of bounds"
  else if y < 0 ∨ (y_size : Int) ≤ y then
    .error "AssertionError: y coordinate is out of bounds"
  else .ok (x + y * x_size).toNat

/-- `GridGraph.__get_x_y__` (grid.py line 151). -/
def getXY (x_size : Nat) (idx : Nat) : Nat × Nat := (idx % x_size, idx / x_size)

/-- The candidate loop of `__get_closest_node_with_connections__` (grid.py
lines 356-368).  The source compares Euclidean distances `(dx^2 + dy^2) ** 0.5`;
this embedding carries the squared distances instead: square root is
strictly monotone on nonnegatives, so the selected node is identical, and
only the ordering and positivity of these values are ever observed on the
paths the theorems below take. -/
def closestLoop (G : SGraph) (xs ys : Nat) (x y : ℚ) :
    List (Int × Int) → Option (Nat × ℚ) → Except String (Option (Nat × ℚ))
  | [], best => .ok best
  | (dx, dy) :: t, best =>
    match get_idx xs ys (pyInt x + dx) (pyInt y + dy) with
    | .error _ => closestLoop G xs ys x y t best
    | .ok nid =>
      match G[nid]? with
      | none => .error "IndexError: list index out of range"
      | some d =>
        if d = [] then closestLoop G xs ys x y t best
        else
          let distSq := ((pyInt x + dx : Int) - x) * ((pyInt x + dx : Int) - x) +
            ((pyInt y + dy : Int) - y) * ((pyInt y + dy : Int) - y)
          match best with
          | none => closestLoop G xs ys x y t (some (nid, distSq))
          | some (_, bsq) =>
            if distSq < bsq then closestLoop G xs ys x y t (some (nid, distSq))
            else closestLoop G xs ys x y t best

/-- `GridGraph.__get_closest_node_with_connections__` (grid.py lines
322-373).  For integer coordinates the cell index is returned with distance
zero; otherwise the four surrounding cells are scanned. -/
def closest_node_with_connections (G : SGraph) (xs ys : Nat) (x y : ℚ) :
    Except String (Nat × ℚ) :=
  if (pyInt x : ℚ) = x ∧ (pyInt y : ℚ) = y then
    match get_idx xs ys (pyInt x) (pyInt y) with
    | .error e => .error e
    | .ok i => .ok (i, 0)
  else
    match closestLoop G xs ys x y [(0, 0), (1, 0), (0, 1), (1, 1)] none with
    | .error e => .error e
    | .ok none => .error
        "ValueError: No valid adjacent node with connections found for the given coordinates"
    | .ok (some r) => .ok r

/-- A coordinate rendered by the grid output formatting: Python tuple, list
or dict with keys x and y. -/
inductive CoordOut where
  | tup : ℚ × ℚ → CoordOut
  | lst : ℚ × ℚ → CoordOut
  | dct : ℚ × ℚ → CoordOut
deriving Repr, DecidableEq

/-- `GridGraph.format_coordinate` (grid.py lines 375-383).  The parameter is
spelled `output_coorinate_path`, but the third `elif` tests the undefined
name `output_coordinate_path`, so every value other than the two first
literals -- including the documented default `list_of_dicts` -- raises
`NameError` when that `elif` is evaluated. -/
def format_coordinate (cooinate_dict : ℚ × ℚ)
    (output_coorinate_path : String) : Except String CoordOut :=
  if output_coorinate_path = "list_of_tuples" then .ok (.tup cooinate_dict)
  else if output_coorinate_path = "list_of_lists" then .ok (.lst cooinate_dict)
  else .error "NameError: name output_coordinate_path is not defined"

/-- `GridGraph.get_coordinate_path` (grid.py lines 531-572), which spells its
parameter correctly and handles all three formats. -/
def get_coordinate_path (xs : Nat) (path : List Nat)
    (output_coordinate_path : String) : Except String (List CoordOut) :=
  let output := path.map (getXY xs)
  if output_coordinate_path = "list_of_tuples" then
    .ok (output.map (fun p => .tup ((p.1 : ℚ), (p.2 : ℚ))))
  else if output_coordinate_path = "list_of_lists" then
    .ok (output.map (fun p => .lst ((p.1 : ℚ), (p.2 : ℚ))))
  else if output_coordinate_path = "list_of_dicts" then
    .ok (output.map (fun p => .dct ((p.1 : ℚ), (p.2 : ℚ))))
  else .error
    "ValueError: output_coordinate_path must be list_of_dicts or list_of_lists or list_of_tuples"

/-- Output of `GridGraph.get_shortest_path`: the id path (`none` once the
`path` key is deleted), the rendered coordinate path, and the length. -/
structure GridPathOutput where
  path : Option (List Int)
  coordinate_path : List CoordOut
  length : DQ
deriving Repr, DecidableEq

/-- `GridGraph.get_shortest_path` (grid.py lines 385-529) after endpoint
normalisation.  The algorithm stage is the parameter `algo` (the source runs
`Graph.a_star` with the chosen heuristic, or the cache service when
`cache=True`; both happen before the formatting below and do not affect it).
`sqrtFn` stands for the square root of the squared off-grid leg carried by
`closest_node_with_connections`; it is only used in the length additions
behind the formatting calls. -/
def gridGetShortestPath (G : SGraph) (xs ys : Nat) (sqrtFn : ℚ → ℚ)
    (algo : SGraph → Nat → Nat → Except String PathResult)
    (origin_node destination_node : ℚ × ℚ)
    (output_coordinate_path : String) (output_path : Bool) :
    Except String GridPathOutput :=
  match closest_node_with_connections G xs ys origin_node.1 origin_node.2 with
  | .error e => .error e
  | .ok (origin_id, origin_distance) =>
    match closest_node_with_connections G xs ys destination_node.1
        destination_node.2 with
    | .error e => .error e
    | .ok (destination_id, destination_distance) =>
      match G[origin_id]? with
      | none => .error "IndexError: list index out of range"
      | some dor =>
        if dor = [] then
          .error "ValueError: Origin node is not connected to any other nodes"
        else
          match G[destination_id]? with
          | none => .error "IndexError: list index out of range"
          | some dde =>
            if dde = [] then
              .error "ValueError: Destination node is not connected to any other nodes"
            else
              match algo G origin_id destination_id with
              | .error e => .error e
              | .ok out =>
                match get_coordinate_path xs out.path
                    output_coordinate_path with
                | .error e => .error e
                | .ok cpath0 =>
                  let st0 : List Int × List CoordOut × DQ :=
                    (out.path.map (fun n => (n : Int)), cpath0, out.length)
                  match
                    (if 0 < origin_distance then
                      match format_coordinate origin_node
                          output_coordinate_path with
                      | .error e => .error e
                      | .ok oc =>
                        .ok (-1 :: st0.1, oc :: st0.2.1,
                          st0.2.2 + (sqrtFn origin_distance : ℚ))
                    else .ok st0 : Except String (List Int × List CoordOut × DQ))
                  with
                  | .error e => .error e
                  | .ok st1 =>
                    match
                      (if 0 < destination_distance then
                        match format_coordinate destination_node
                            output_coordinate_path with
                        | .error e => .error e
                        | .ok dc =>
                          .ok (st1.1 ++ [-1], st1.2.1 ++ [dc],
                            st1.2.2 + (sqrtFn destination_distance : ℚ))
                      else .ok st1 :
                        Except String (List Int × List CoordOut × DQ))
                    with
                    | .error e => .error e
                    | .ok st2 =>
                      .ok { path := if output_path then some st2.1 else none,
                            coordinate_path := st2.2.1, length := st2.2.2 }

/-- C9 (code_bug evaluation): whenever a `get_shortest_path` query has an
off-grid origin (positive off-grid leg) and reaches the output formatting --
the upstream stages succeed, as the claims premises require -- the call with
the default `output_coordinate_path="list_of_dicts"` raises
`NameError`: `format_coordinate` misspells its parameter as
`output_coorinate_path` and its `list_of_dicts` branch tests the undefined
name `output_coordinate_path`.  The claim instead promises a coordinate path
whose first element is the origin rendered as a dict with the off-grid leg
added to the length. -/
theorem C9_off_grid_origin_name_error (G : SGraph) (xs ys : Nat)
    (sqrtFn : ℚ → ℚ) (algo : SGraph → Nat → Nat → Except String PathResult)
    (origin_node destination_node : ℚ × ℚ) (output_path : Bool)
    (oid did : Nat) (od dd : ℚ) (dor dde : Adj) (out : PathResult)
    (hco : closest_node_with_connections G xs ys origin_node.1
      origin_node.2 = .ok (oid, od))
    (hod : 0 < od)
    (hcd : closest_node_with_connections G xs ys destination_node.1
      destination_node.2 = .ok (did, dd))
    (horig : G[oid]? = some dor) (hdor : dor ≠ [])
    (hdest : G[did]? = some dde) (hdde : dde ≠ [])
    (halgo : algo G oid did = .ok out) :
    gridGetShortestPath G xs ys sqrtFn algo origin_node destination_node
      "list_of_dicts" output_path =
      .error "NameError: name output_coordinate_path is not defined" := by
  simp only [gridGetShortestPath, hco, hcd, horig, hdest, halgo,
    if_neg hdor, if_neg hdde,
    show get_coordinate_path xs out.path "list_of_dicts" =
      .ok ((out.path.map (getXY xs)).map
        (fun p => .dct ((p.1 : ℚ), (p.2 : ℚ)))) from rfl]
  rw [if_pos hod]
  rfl

/-- A 2-by-2 grid graph with all four cells connected in a cycle. -/
def c9G : SGraph := [[(1, 1)], [(0, 1)], [(3, 1)], [(2, 1)]]

/-- A concrete stand-in pathfinding stage for the grid query. -/
def c9Algo : SGraph → Nat → Nat → Except String PathResult :=
  fun _ o d => .ok { path := [o, d], length := ((2 : ℚ) : DQ) }

/-- Witness: the query from the off-grid point (1/2, 1/2) to the cell (1, 1)
with the default output format raises the NameError. -/
theorem C9_off_grid_origin_name_error_witness :
    gridGetShortestPath c9G 2 2 (fun q => q) c9Algo (1/2, 1/2) (1, 1)
      "list_of_dicts" false =
      .error "NameError: name output_coordinate_path is not defined" :=
  C9_off_grid_origin_name_error c9G 2 2 (fun q => q) c9Algo (1/2, 1/2) (1, 1)
    false 0 3 (1/2) 0 [(1, 1)] [(2, 1)] { path := [0, 3], length := 2 }
    (by decide) (by decide) (by decide) rfl (by decide) rfl (by decide) rfl

/-! ## C5: `Graph.a_star` with a heuristic -/

/-- State of an A* run: Dijkstra state plus the visited bitset. -/
structure AStarState where
  dist : List DQ
  pred : List Int
  heap : List Ent
  visited : List Nat
deriving Repr

/-- Read `visited[v]` (0 out of range; the runs stay in range). -/
def getVis (l : List Nat) (v : Nat) : Nat := l.getD v 0

/-- Relaxation pass of `Graph.a_star` (graph.py lines 523-535): as in
`dijkstra_makowski`, but the pushed key is
`possible_distance + heuristic_fn(connected_id, destination_id)` and the
current distance is re-read from the distance matrix (`⊤` never relaxes:
`inf + w < x` is false for every stored `x`). -/
def astarRelax (hdest : Nat → ℚ) (cur : Nat) (curDist : DQ) (edges : Adj)
    (st : AStarState) : AStarState :=
  match edges with
  | [] => st
  | (v, w) :: rest =>
    match curDist with
    | none => astarRelax hdest cur curDist rest st
    | some c =>
      let possible : ℚ := c + w
      if (possible : DQ) < getDist st.dist v then
        astarRelax hdest cur curDist rest
          { dist := st.dist.set v (possible : DQ)
            pred := st.pred.set v (Int.ofNat cur)
            heap := heapPush st.heap (possible + hdest v, v)
            visited := st.visited }
      else astarRelax hdest cur curDist rest st

/-- Main loop of `Graph.a_star` (graph.py lines 515-535): pop, break on the
destination before any visited check, skip visited nodes, otherwise mark
visited and relax. -/
def astarLoop (G : SGraph) (hdest : Nat → ℚ) (destination : Nat) :
    Nat → AStarState → Nat → Option (Nat × AStarState)
  | 0, _, _ => none
  | fuel + 1, st, lastId =>
    match heapPop st.heap with
    | none => some (lastId, st)
    | some ((_, cur), rest) =>
      if cur = destination then some (cur, { st with heap := rest })
      else if getVis st.visited cur = 1 then
        astarLoop G hdest destination fuel { st with heap := rest } cur
      else
        astarLoop G hdest destination fuel
          (astarRelax hdest cur (getDist st.dist cur) (adj G cur)
            { st with heap := rest, visited := st.visited.set cur 1 }) cur

/-- Initial A* state: like `initState` plus `visited = [0] * n`. -/
def astarInit (n origin : Nat) : AStarState :=
  { dist := (List.replicate n (⊤ : DQ)).set origin (0 : ℚ)
    pred := List.replicate n (-1 : Int)
    heap := [((0 : ℚ), origin)]
    visited := List.replicate n 0 }

/-- `Graph.a_star` (graph.py lines 459-551) with a non-None heuristic (with
`heuristic_fn=None` the source simply delegates to `dijkstra_makowski`; the
input_check call is a no-op for integer ids, see `input_check`). -/
def a_star (G : SGraph) (hfn : Nat → Nat → ℚ) (origin destination : Nat) :
    Except String PathResult :=
  match astarLoop G (fun v => hfn v destination) destination (stdFuel G)
      (astarInit G.length origin) origin with
  | none => .error "fuel"
  | some (finalId, st) =>
    if finalId = destination then
      match buildPath st.pred finalId with
      | none => .error "fuel"
      | some p => .ok { path := p, length := getDist st.dist destination }
    else
      .error "Something went wrong, the origin and destination nodes are not connected."

/-! ### Heap order facts -/

/-- The heap list is ascending in the Python tuple order. -/
def heapSorted (l : List Ent) : Prop :=
  List.Pairwise (fun a b => entLe a b = true) l

/-- The tuple order is total. -/
theorem entLe_total (a b : Ent) : entLe a b = true ∨ entLe b a = true := by
  unfold entLe
  by_cases h1 : a.1 = b.1
  · rw [if_pos h1, if_pos h1.symm]
    simp only [decide_eq_true_eq]
    omega
  · rw [if_neg h1, if_neg (fun e => h1 e.symm)]
    simp only [decide_eq_true_eq]
    exact le_total a.1 b.1

/-- The tuple order is transitive. -/
theorem entLe_trans {a b c : Ent} (h1 : entLe a b = true)
    (h2 : entLe b c = true) : entLe a c = true := by
  unfold entLe at h1 h2 ⊢
  by_cases e1 : a.1 = b.1
  · by_cases e2 : b.1 = c.1
    · rw [if_pos e1, decide_eq_true_eq] at h1
      rw [if_pos e2, decide_eq_true_eq] at h2
      rw [if_pos (e1.trans e2), decide_eq_true_eq]
      omega
    · rw [if_neg e2, decide_eq_true_eq] at h2
      rw [if_neg (fun e => e2 (e1.symm.trans e)), decide_eq_true_eq]
      rw [e1]
      exact h2
  · by_cases e2 : b.1 = c.1
    · rw [if_neg e1, decide_eq_true_eq] at h1
      rw [if_neg (fun e => e1 (e.trans e2.symm)), decide_eq_true_eq]
      rw [← e2]
      exact h1
    · rw [if_neg e1, decide_eq_true_eq] at h1
      rw [if_neg e2, decide_eq_true_eq] at h2
      by_cases e3 : a.1 = c.1
      · exact absurd e3
          (ne_of_lt (lt_of_lt_of_le (lt_of_le_of_ne h1 e1) h2))
      · rw [if_neg e3, decide_eq_true_eq]
        exact le_trans h1 h2

/-- Membership in a pushed heap. -/
theorem mem_heapPush {x e : Ent} : ∀ {l : List Ent},
    x ∈ heapPush l e ↔ x = e ∨ x ∈ l
  | [] => by simp [heapPush]
  | y :: t => by
      unfold heapPush
      by_cases hc : entLe y e = true
      · rw [if_pos hc]
        constructor
        · intro hx
          rcases List.mem_cons.mp hx with rfl | hx2
          · exact Or.inr (List.mem_cons_self _ _)
          · rcases (@mem_heapPush x e t).mp hx2 with rfl | hx3
            · exact Or.inl rfl
            · exact Or.inr (List.mem_cons_of_mem _ hx3)
        · intro hx
          rcases hx with rfl | hx2
          · exact List.mem_cons_of_mem _
              ((@mem_heapPush x x t).mpr (Or.inl rfl))
          · rcases List.mem_cons.mp hx2 with rfl | hx3
            · exact List.mem_cons_self _ _
            · exact List.mem_cons_of_mem _
                ((@mem_heapPush x e t).mpr (Or.inr hx3))
      · rw [if_neg hc]
        constructor
        · intro hx
          rcases List.mem_cons.mp hx with rfl | hx2
          · exact Or.inl rfl
          · exact Or.inr hx2
        · intro hx
          rcases hx with rfl | hx2
          · exact List.mem_cons_self _ _
          · exact List.mem_cons_of_mem _ hx2

/-- Pushing preserves the ascending order. -/
theorem heapPush_sorted {e : Ent} : ∀ {l : List Ent},
    heapSorted l → heapSorted (heapPush l e)
  | [], _ => by
      unfold heapPush heapSorted
      exact List.pairwise_cons.mpr
        ⟨fun z hz => absurd hz (List.not_mem_nil z), List.Pairwise.nil⟩
  | y :: t, h => by
      unfold heapSorted at h
      rw [List.pairwise_cons] at h
      obtain ⟨hy, ht⟩ := h
      unfold heapPush
      by_cases hc : entLe y e = true
      · rw [if_pos hc]
        unfold heapSorted
        rw [List.pairwise_cons]
        refine ⟨?_, heapPush_sorted ht⟩
        intro z hz
        rcases mem_heapPush.mp hz with rfl | hz2
        · exact hc
        · exact hy z hz2
      · rw [if_neg hc]
        have hey : entLe e y = true := by
          rcases entLe_total y e with h1 | h1
          · exact absurd h1 hc
          · exact h1
        unfold heapSorted
        rw [List.pairwise_cons]
        refine ⟨?_, List.pairwise_cons.mpr ⟨hy, ht⟩⟩
        intro z hz
        rcases List.mem_cons.mp hz with rfl | hz2
        · exact hey
        · exact entLe_trans hey (hy z hz2)

/-- The head of a sorted heap bounds every key in it. -/
theorem heapSorted_head_le {k : ℚ} {cur : Nat} {rest : List Ent}
    (hs : heapSorted ((k, cur) :: rest)) :
    ∀ e ∈ rest, k ≤ e.1 := by
  unfold heapSorted at hs
  rw [List.pairwise_cons] at hs
  intro e he
  have hle := hs.1 e he
  unfold entLe at hle
  by_cases h1 : k = e.1
  · exact le_of_eq h1
  · rw [if_neg h1, decide_eq_true_eq] at hle
    exact hle

/-! ### Array access small lemmas -/

/-- `getD` after `set` at the same in-range position. -/
theorem getD_set_self {α : Type} :
    ∀ (l : List α) (v : Nat) (x d : α), v < l.length →
      (l.set v x).getD v d = x
  | [], v, _, _, h => absurd h (Nat.not_lt_zero v)
  | _ :: _, 0, _, _, _ => rfl
  | _ :: t, v + 1, x, d, h =>
      getD_set_self t v x d (Nat.lt_of_succ_lt_succ h)

/-- `getD` after `set` at a different position. -/
theorem getD_set_ne {α : Type} :
    ∀ (l : List α) (v u : Nat) (x d : α), v ≠ u →
      (l.set v x).getD u d = l.getD u d
  | [], _, _, _, _, _ => rfl
  | _ :: _, 0, 0, _, _, h => absurd rfl h
  | _ :: _, 0, _ + 1, _, _, _ => rfl
  | _ :: _, _ + 1, 0, _, _, _ => rfl
  | _ :: t, v + 1, u + 1, x, d, h =>
      getD_set_ne t v u x d (fun e => h (congrArg Nat.succ e))

/-- A finite upper bound on a `WithTop` value forces a finite value. -/
theorem DQ_le_coe {x : DQ} {q : ℚ} (h : x ≤ (q : DQ)) :
    ∃ c : ℚ, x = (c : DQ) ∧ c ≤ q := by
  cases x with
  | none => exact absurd (top_le_iff.mp h) (WithTop.coe_ne_top)
  | some c =>
      refine ⟨c, rfl, ?_⟩
      exact WithTop.coe_le_coe.mp h

/-! ### Walk facts used by the A* proof -/

/-- Entries of any adjacency list come from some dictionary of the graph. -/
theorem adj_mem {G : SGraph} {u : Nat} {p : Nat × ℚ} (h : p ∈ adj G u) :
    ∃ d ∈ G, p ∈ d := by
  unfold adj at h
  rw [List.getD_eq_getElem?_getD] at h
  cases hg : G[u]? with
  | none => rw [hg] at h; exact absurd h (List.not_mem_nil p)
  | some d => rw [hg] at h; exact ⟨d, lmem_of_get G u d hg, h⟩

/-- With nonnegative weights, every walk has nonnegative weight. -/
theorem walk_weight_nonneg {G : SGraph}
    (hw : ∀ d ∈ G, ∀ p ∈ d, 0 ≤ p.2) {s u : Nat} {p : List Nat} {c : ℚ}
    (h : IsWalk G s u p c) : 0 ≤ c := by
  have hpot : ∀ a v w, (v, w) ∈ adj G a → (fun _ : Nat => (0 : ℚ)) v ≤
      (fun _ : Nat => (0 : ℚ)) a + w := by
    intro a v w hm
    obtain ⟨d, hd, hmem⟩ := adj_mem hm
    have := hw d hd (v, w) hmem
    simpa using this
  have := walk_lower_bound G (fun _ => 0) hpot p s u c h
  simpa using this

/-- First-match lookup recovers any entry of a dictionary with distinct
keys. -/
theorem mem_dictGet? : ∀ {d : Adj} {v : Nat} {w : ℚ},
    (v, w) ∈ d → (d.map Prod.fst).Nodup → dictGet? v d = some w
  | [], v, w, h, _ => absurd h (List.not_mem_nil _)
  | (k, x) :: t, v, w, h, hnd => by
      rw [List.map_cons, List.nodup_cons] at hnd
      rcases List.mem_cons.mp h with he | hm
      · injection he with h1 h2
        subst h1
        subst h2
        unfold dictGet?
        rw [if_pos rfl]
      · have hkv : k ≠ v := by
          intro e
          exact hnd.1 (e ▸ List.mem_map.mpr ⟨(v, w), hm, rfl⟩)
        unfold dictGet?
        rw [if_neg hkv]
        exact mem_dictGet? hm hnd.2

/-- Appending one edge to a walk. -/
theorem walkWeight_snoc {G : SGraph} :
    ∀ {p : List Nat} {u v : Nat} {w c : ℚ},
      p.getLast? = some u → edgeWeight G u v = some w →
      walkWeight G p = some c → walkWeight G (p ++ [v]) = some (c + w)
  | [], u, v, w, c, hl, _, _ => by simp at hl
  | [x], u, v, w, c, hl, he, hc => by
      have hxu : x = u := by simpa using hl
      subst hxu
      have hc0 : (0 : ℚ) = c := by simpa [walkWeight] using hc
      subst hc0
      show walkWeight G [x, v] = some (0 + w)
      unfold walkWeight
      rw [he]
      unfold walkWeight
      norm_num
  | x :: y :: rest, u, v, w, c, hl, he, hc => by
      rw [List.getLast?_cons_cons] at hl
      rw [walkWeight] at hc
      cases hxy : edgeWeight G x y with
      | none => rw [hxy] at hc; simp at hc
      | some wxy =>
          rw [hxy] at hc
          cases hyr : walkWeight G (y :: rest) with
          | none => rw [hyr] at hc; simp at hc
          | some c2 =>
              rw [hyr] at hc
              injection hc with hc
              have ih := walkWeight_snoc hl he hyr
              simp only [List.cons_append] at ih ⊢
              rw [walkWeight, hxy, ih, ← hc]
              show some (wxy + (c2 + w)) = some (wxy + c2 + w)
              rw [add_assoc]

/-- Extending a walk from the origin by one graph edge. -/
theorem walk_snoc {G : SGraph} {o u v : Nat} {p : List Nat} {c w : ℚ}
    (h : IsWalk G o u p c) (he : edgeWeight G u v = some w) :
    IsWalk G o v (p ++ [v]) (c + w) := by
  obtain ⟨h1, h2, h3⟩ := h
  refine ⟨?_, ?_, walkWeight_snoc h2 he h3⟩
  · cases p with
    | nil => simp at h1
    | cons x t => simpa using h1
  · simp

/-! ### The A* loop invariant -/

/-- Ghost expansion order: visited nodes listed in the order they were
expanded; predecessor pointers always point at strictly earlier expansions. -/
def OrdInv (G : SGraph) (st : AStarState) (ord : List Nat) : Prop :=
  ord.Nodup ∧
  (∀ v, getVis st.visited v = 1 ↔ v ∈ ord) ∧
  (∀ v ∈ ord, v < G.length) ∧
  (∀ v u, getPred st.pred v = Int.ofNat u →
    u ∈ ord ∧ (v ∈ ord → ord.indexOf u < ord.indexOf v))

/-- Invariant of the A* main loop, for origin `o` and heuristic `h` (already
specialised to the destination). -/
structure AInv (G : SGraph) (o : Nat) (h : Nat → ℚ) (st : AStarState) :
    Prop where
  hdistlen : st.dist.length = G.length
  hpredlen : st.pred.length = G.length
  hvislen : st.visited.length = G.length
  hvis01 : ∀ v, getVis st.visited v = 0 ∨ getVis st.visited v = 1
  hg0 : getDist st.dist o = ((0 : ℚ) : DQ)
  hsound : ∀ v (c : ℚ), getDist st.dist v = (c : DQ) → ∃ p, IsWalk G o v p c
  hrelaxed : ∀ u, getVis st.visited u = 1 →
    ∀ p ∈ adj G u, getDist st.dist p.1 ≤ getDist st.dist u + ((p.2 : ℚ) : DQ)
  hvisopt : ∀ u, getVis st.visited u = 1 →
    ∀ q (c : ℚ), IsWalk G o u q c → getDist st.dist u ≤ (c : DQ)
  hcovered : ∀ v (c : ℚ), getVis st.visited v = 0 →
    getDist st.dist v = (c : DQ) → ∃ k, (k, v) ∈ st.heap ∧ k ≤ c + h v
  hkeys : ∀ k v, (k, v) ∈ st.heap →
    (∃ c : ℚ, getDist st.dist v = (c : DQ) ∧ c + h v ≤ k) ∨ (v = o ∧ k = 0)
  hnodes : ∀ k v, (k, v) ∈ st.heap → v < G.length
  hsorted : heapSorted st.heap
  hord : ∃ ord, OrdInv G st ord

/-- Walking any path from a bounded start: some node `z` on it is unvisited,
its stored distance is bounded by the weight of the prefix up to `z`, and the
rest of the path is a walk from `z`.  Only the relaxedness of visited nodes
is used. -/
theorem first_unvisited_bound {G : SGraph} {st : AStarState}
    (hvis01 : ∀ v, getVis st.visited v = 0 ∨ getVis st.visited v = 1)
    (hrel : ∀ u, getVis st.visited u = 1 →
      ∀ p ∈ adj G u, getDist st.dist p.1 ≤
        getDist st.dist u + ((p.2 : ℚ) : DQ)) :
    ∀ (p : List Nat) (s u : Nat) (c B : ℚ),
      IsWalk G s u p c → getDist st.dist s ≤ (B : DQ) →
      getVis st.visited u = 0 →
      ∃ (z : Nat) (c₁ c₂ : ℚ) (q : List Nat),
        getVis st.visited z = 0 ∧
        getDist st.dist z ≤ ((B + c₁ : ℚ) : DQ) ∧
        IsWalk G z u q c₂ ∧ c = c₁ + c₂
  | [], s, u, c, B, hw, _, _ => by
      obtain ⟨h1, _, _⟩ := hw
      simp at h1
  | [x], s, u, c, B, hw, hB, hu => by
      obtain ⟨h1, h2, h3⟩ := hw
      have hxs : x = s := by simpa using h1
      have hxu : x = u := by simpa using h2
      have hc : (0 : ℚ) = c := by simpa [walkWeight] using h3
      subst hxs
      refine ⟨x, 0, 0, [x], ?_, ?_, ⟨rfl, ?_, rfl⟩, ?_⟩
      · rw [← hxu] at hu
        exact hu
      · simpa using hB
      · show [x].getLast? = some u
        simpa using hxu
      · rw [← hc]
        norm_num
  | x :: y :: rest, s, u, c, B, hw, hB, hu => by
      obtain ⟨h1, h2, h3⟩ := hw
      have hxs : x = s := by simpa using h1
      subst hxs
      rw [List.getLast?_cons_cons] at h2
      rw [walkWeight] at h3
      cases hxy : edgeWeight G x y with
      | none => rw [hxy] at h3; simp at h3
      | some w =>
          rw [hxy] at h3
          cases hyr : walkWeight G (y :: rest) with
          | none => rw [hyr] at h3; simp at h3
          | some c2 =>
              rw [hyr] at h3
              injection h3 with h3
              by_cases hvx : getVis st.visited x = 0
              · exact ⟨x, 0, c, x :: y :: rest, hvx, by simpa using hB,
                  ⟨by simp, by rw [List.getLast?_cons_cons]; exact h2,
                    by
                      rw [walkWeight, hxy, hyr]
                      show some (w + c2) = some c
                      rw [h3]⟩,
                  by norm_num⟩
              · have hvx1 : getVis st.visited x = 1 := by
                  rcases hvis01 x with h | h
                  · exact absurd h hvx
                  · exact h
                have hmem : (y, w) ∈ adj G x := dictGet?_mem hxy
                have hstep := hrel x hvx1 (y, w) hmem
                have hBy : getDist st.dist y ≤ ((B + w : ℚ) : DQ) := by
                  calc getDist st.dist y ≤ getDist st.dist x + ((w : ℚ) : DQ) :=
                        hstep
                    _ ≤ (B : DQ) + ((w : ℚ) : DQ) := by
                        exact add_le_add_right hB _
                    _ = ((B + w : ℚ) : DQ) := by
                        norm_cast
                have hwalk2 : IsWalk G y u (y :: rest) c2 :=
                  ⟨by simp, h2, hyr⟩
                obtain ⟨z, c₁, c₂, q, hz0, hzb, hzw, hzc⟩ :=
                  first_unvisited_bound hvis01 hrel (y :: rest) y u c2 (B + w)
                    hwalk2 hBy hu
                refine ⟨z, w + c₁, c₂, q, hz0, ?_, hzw, ?_⟩
                · have : ((B + w) + c₁ : ℚ) = (B + (w + c₁) : ℚ) := by ring
                  rw [← this]
                  exact hzb
                · rw [← h3, hzc]
                  ring

/-- Pushing adds exactly one entry. -/
theorem heapPush_length {e : Ent} : ∀ {l : List Ent},
    (heapPush l e).length = l.length + 1
  | [] => rfl
  | y :: t => by
      unfold heapPush
      by_cases hc : entLe y e = true
      · rw [if_pos hc]
        show (heapPush t e).length + 1 = t.length + 1 + 1
        rw [@heapPush_length e t]
      · rw [if_neg hc]
        rfl

/-- Invariant carried through the relaxation pass of an expansion of `u`
with captured distance `c`, where `edges` is the still-unprocessed suffix of
the adjacency list and `ordN` the expansion order including `u`. -/
structure RInv (G : SGraph) (o : Nat) (h : Nat → ℚ) (u : Nat) (c : ℚ)
    (ordN : List Nat) (edges : List (Nat × ℚ)) (st : AStarState) : Prop where
  hsub : ∀ p ∈ edges, p ∈ adj G u
  hdistlen : st.dist.length = G.length
  hpredlen : st.pred.length = G.length
  hvislen : st.visited.length = G.length
  hvis01 : ∀ v, getVis st.visited v = 0 ∨ getVis st.visited v = 1
  hg0 : getDist st.dist o = ((0 : ℚ) : DQ)
  hsound : ∀ v (cv : ℚ), getDist st.dist v = (cv : DQ) → ∃ p, IsWalk G o v p cv
  hvisu : getVis st.visited u = 1
  hcu : getDist st.dist u = (c : DQ)
  hrelOld : ∀ a, getVis st.visited a = 1 → a ≠ u →
    ∀ p ∈ adj G a, getDist st.dist p.1 ≤ getDist st.dist a + ((p.2 : ℚ) : DQ)
  hpartial : ∀ p ∈ adj G u,
    p ∈ edges ∨ getDist st.dist p.1 ≤ ((c + p.2 : ℚ) : DQ)
  hvopt : ∀ a, getVis st.visited a = 1 → ∀ q (cv : ℚ), IsWalk G o a q cv →
    getDist st.dist a ≤ (cv : DQ)
  hcov : ∀ v (cv : ℚ), getVis st.visited v = 0 →
    getDist st.dist v = (cv : DQ) → ∃ k, (k, v) ∈ st.heap ∧ k ≤ cv + h v
  hkeys : ∀ k v, (k, v) ∈ st.heap →
    (∃ cv : ℚ, getDist st.dist v = (cv : DQ) ∧ cv + h v ≤ k) ∨ (v = o ∧ k = 0)
  hnodes : ∀ k v, (k, v) ∈ st.heap → v < G.length
  hsorted : heapSorted st.heap
  hordinv : OrdInv G st ordN

/-- Unfolding `astarRelax` on a finite current distance, improving case. -/
theorem astarRelax_cons_lt (h : Nat → ℚ) (u : Nat) (c : ℚ) (v : Nat) (w : ℚ)
    (rest : List (Nat × ℚ)) (st : AStarState)
    (hlt : ((c + w : ℚ) : DQ) < getDist st.dist v) :
    astarRelax h u (c : DQ) ((v, w) :: rest) st =
      astarRelax h u (c : DQ) rest
        { dist := st.dist.set v ((c + w : ℚ) : DQ)
          pred := st.pred.set v (Int.ofNat u)
          heap := heapPush st.heap (c + w + h v, v)
          visited := st.visited } := by
  show (if ((c + w : ℚ) : DQ) < getDist st.dist v then
      astarRelax h u (c : DQ) rest
        { dist := st.dist.set v ((c + w : ℚ) : DQ)
          pred := st.pred.set v (Int.ofNat u)
          heap := heapPush st.heap (c + w + h v, v)
          visited := st.visited }
    else astarRelax h u (c : DQ) rest st) = _
  rw [if_pos hlt]

/-- Unfolding `astarRelax` on a finite current distance, settled case. -/
theorem astarRelax_cons_ge (h : Nat → ℚ) (u : Nat) (c : ℚ) (v : Nat) (w : ℚ)
    (rest : List (Nat × ℚ)) (st : AStarState)
    (hge : ¬ ((c + w : ℚ) : DQ) < getDist st.dist v) :
    astarRelax h u (c : DQ) ((v, w) :: rest) st =
      astarRelax h u (c : DQ) rest st := by
  show (if ((c + w : ℚ) : DQ) < getDist st.dist v then
      astarRelax h u (c : DQ) rest
        { dist := st.dist.set v ((c + w : ℚ) : DQ)
          pred := st.pred.set v (Int.ofNat u)
          heap := heapPush st.heap (c + w + h v, v)
          visited := st.visited }
    else astarRelax h u (c : DQ) rest st) = _
  rw [if_neg hge]

/-- The relaxation pass preserves the invariant, finishes the partial
relaxation of `u`, leaves the visited bitset unchanged, and grows the heap by
at most one entry per edge. -/
theorem astarRelax_preserves {G : SGraph} {o : Nat} {h : Nat → ℚ} {u : Nat}
    {c : ℚ} {ordN : List Nat}
    (hedge : ∀ a v w, (v, w) ∈ adj G a → edgeWeight G a v = some w)
    (hclG : ∀ d ∈ G, ∀ p ∈ d, p.1 < G.length)
    (hnnG : ∀ d ∈ G, ∀ p ∈ d, 0 ≤ p.2) :
    ∀ (edges : List (Nat × ℚ)) (st : AStarState),
      RInv G o h u c ordN edges st →
      RInv G o h u c ordN [] (astarRelax h u (c : DQ) edges st) ∧
      (astarRelax h u (c : DQ) edges st).visited = st.visited ∧
      (astarRelax h u (c : DQ) edges st).heap.length ≤
        st.heap.length + edges.length
  | [], st, inv => by
      refine ⟨?_, rfl, by simp [astarRelax]⟩
      exact { inv with hsub := fun p hp => absurd hp (List.not_mem_nil p) }
  | (v, w) :: rest, st, inv => by
      have hvadj : (v, w) ∈ adj G u := inv.hsub (v, w) (List.mem_cons_self _ _)
      obtain ⟨dv, hdv, hvw⟩ := adj_mem hvadj
      have hvlt : v < G.length := hclG dv hdv (v, w) hvw
      have hwnn : (0 : ℚ) ≤ w := hnnG dv hdv (v, w) hvw
      by_cases hlt : ((c + w : ℚ) : DQ) < getDist st.dist v
      · -- improving step
        have hc0 : (0 : ℚ) ≤ c := by
          obtain ⟨p, hp⟩ := inv.hsound u c inv.hcu
          exact walk_weight_nonneg hnnG hp
        have hvu : v ≠ u := by
          intro e
          rw [e, inv.hcu] at hlt
          have : c + w < c := WithTop.coe_lt_coe.mp hlt
          linarith
        have hvo : v ≠ o := by
          intro e
          rw [e, inv.hg0] at hlt
          have : c + w < 0 := WithTop.coe_lt_coe.mp hlt
          linarith
        have hv0 : getVis st.visited v = 0 := by
          rcases inv.hvis01 v with hvv | hvv
          · exact hvv
          · exfalso
            obtain ⟨p, hp⟩ := inv.hsound u c inv.hcu
            have hwalkv := walk_snoc hp (hedge u v w hvadj)
            have := inv.hvopt v hvv (p ++ [v]) (c + w) hwalkv
            exact absurd hlt (not_lt.mpr this)
        set st2 : AStarState :=
          { dist := st.dist.set v ((c + w : ℚ) : DQ)
            pred := st.pred.set v (Int.ofNat u)
            heap := heapPush st.heap (c + w + h v, v)
            visited := st.visited } with hst2
        have hget_self : getDist st2.dist v = ((c + w : ℚ) : DQ) := by
          show (st.dist.set v _).getD v ⊤ = _
          exact getD_set_self st.dist v _ ⊤ (by rw [inv.hdistlen]; exact hvlt)
        have hget_ne : ∀ x, x ≠ v → getDist st2.dist x = getDist st.dist x := by
          intro x hx
          show (st.dist.set v _).getD x ⊤ = st.dist.getD x ⊤
          exact getD_set_ne st.dist v x _ ⊤ (fun e => hx e.symm)
        have hmono : ∀ x, getDist st2.dist x ≤ getDist st.dist x := by
          intro x
          by_cases hx : x = v
          · subst hx
            rw [hget_self]
            exact le_of_lt hlt
          · rw [hget_ne x hx]
        have hpred_ne : ∀ x, x ≠ v →
            getPred st2.pred x = getPred st.pred x := by
          intro x hx
          show (st.pred.set v _).getD x (-1) = st.pred.getD x (-1)
          exact getD_set_ne st.pred v x _ (-1) (fun e => hx e.symm)
        have hpred_self : getPred st2.pred v = Int.ofNat u := by
          show (st.pred.set v _).getD v (-1) = _
          exact getD_set_self st.pred v _ (-1) (by rw [inv.hpredlen]; exact hvlt)
        have hsoundv : ∃ p, IsWalk G o v p (c + w) := by
          obtain ⟨p, hp⟩ := inv.hsound u c inv.hcu
          exact ⟨p ++ [v], walk_snoc hp (hedge u v w hvadj)⟩
        have inv2 : RInv G o h u c ordN rest st2 := by
          refine
            { hsub := fun p hp => inv.hsub p (List.mem_cons_of_mem _ hp)
              hdistlen := by
                show (st.dist.set v _).length = G.length
                rw [List.length_set]; exact inv.hdistlen
              hpredlen := by
                show (st.pred.set v _).length = G.length
                rw [List.length_set]; exact inv.hpredlen
              hvislen := inv.hvislen
              hvis01 := inv.hvis01
              hg0 := by rw [hget_ne o (fun e => hvo e.symm)]; exact inv.hg0
              hsound := ?_
              hvisu := inv.hvisu
              hcu := by rw [hget_ne u (fun e => hvu e.symm)]; exact inv.hcu
              hrelOld := ?_
              hpartial := ?_
              hvopt := ?_
              hcov := ?_
              hkeys := ?_
              hnodes := ?_
              hsorted := heapPush_sorted inv.hsorted
              hordinv := ?_ }
          · -- hsound
            intro x cv hx
            by_cases hxv : x = v
            · subst hxv
              rw [hget_self] at hx
              have : c + w = cv := WithTop.coe_inj.mp hx
              rw [← this]
              exact hsoundv
            · rw [hget_ne x hxv] at hx
              exact inv.hsound x cv hx
          · -- hrelOld
            intro a ha hau p hp
            have hav : a ≠ v := by
              intro e
              rw [e] at ha
              rw [hv0] at ha
              exact absurd ha (by norm_num)
            rw [hget_ne a hav]
            calc getDist st2.dist p.1 ≤ getDist st.dist p.1 := hmono p.1
              _ ≤ getDist st.dist a + ((p.2 : ℚ) : DQ) :=
                  inv.hrelOld a ha hau p hp
          · -- hpartial
            intro p hp
            rcases inv.hpartial p hp with hin | hdone
            · rcases List.mem_cons.mp hin with he | hin2
              · subst he
                right
                show getDist st2.dist v ≤ ((c + w : ℚ) : DQ)
                rw [hget_self]
              · exact Or.inl hin2
            · exact Or.inr (le_trans (hmono p.1) hdone)
          · -- hvopt
            intro a ha q cv hq
            have hav : a ≠ v := by
              intro e
              rw [e, hv0] at ha
              exact absurd ha (by norm_num)
            rw [hget_ne a hav]
            exact inv.hvopt a ha q cv hq
          · -- hcov
            intro x cv hx0 hx
            by_cases hxv : x = v
            · subst hxv
              rw [hget_self] at hx
              have hcv : c + w = cv := WithTop.coe_inj.mp hx
              exact ⟨c + w + h x, mem_heapPush.mpr (Or.inl rfl),
                by rw [← hcv]⟩
            · rw [hget_ne x hxv] at hx
              obtain ⟨k, hk1, hk2⟩ := inv.hcov x cv hx0 hx
              exact ⟨k, mem_heapPush.mpr (Or.inr hk1), hk2⟩
          · -- hkeys
            intro k x hk
            rcases mem_heapPush.mp hk with he | hin
            · injection he with he1 he2
              subst he2
              subst he1
              exact Or.inl ⟨c + w, hget_self, le_refl _⟩
            · rcases inv.hkeys k x hin with ⟨cv, hcv1, hcv2⟩ | ho
              · by_cases hxv : x = v
                · subst hxv
                  refine Or.inl ⟨c + w, hget_self, ?_⟩
                  rw [hcv1] at hlt
                  have : c + w < cv := WithTop.coe_lt_coe.mp hlt
                  linarith
                · exact Or.inl ⟨cv, by rw [hget_ne x hxv]; exact hcv1, hcv2⟩
              · exact Or.inr ho
          · -- hnodes
            intro k x hk
            rcases mem_heapPush.mp hk with he | hin
            · injection he with he1 he2
              subst he2
              exact hvlt
            · exact inv.hnodes k x hin
          · -- hordinv
            obtain ⟨hnd, hvisiff, hltord, hpredord⟩ := inv.hordinv
            refine ⟨hnd, hvisiff, hltord, ?_⟩
            intro y b hy
            by_cases hyv : y = v
            · subst hyv
              rw [hpred_self] at hy
              injection hy with hy
              subst hy
              exact ⟨(hvisiff u).mp inv.hvisu, fun hvord =>
                absurd ((hvisiff y).mpr hvord) (by rw [hv0]; norm_num)⟩
            · rw [hpred_ne y hyv] at hy
              exact hpredord y b hy
        have ih := astarRelax_preserves hedge hclG hnnG rest st2 inv2
        rw [astarRelax_cons_lt h u c v w rest st hlt, ← hst2]
        refine ⟨ih.1, ih.2.1, ?_⟩
        calc (astarRelax h u (c : DQ) rest st2).heap.length ≤
              st2.heap.length + rest.length := ih.2.2
          _ = st.heap.length + 1 + rest.length := by
              show (heapPush st.heap _).length + rest.length = _
              rw [heapPush_length]
          _ = st.heap.length + ((v, w) :: rest).length := by
              rw [List.length_cons]
              omega
      · -- settled step
        have inv2 : RInv G o h u c ordN rest st := by
          refine { inv with
            hsub := fun p hp => inv.hsub p (List.mem_cons_of_mem _ hp)
            hpartial := ?_ }
          intro p hp
          rcases inv.hpartial p hp with hin | hdone
          · rcases List.mem_cons.mp hin with he | hin2
            · subst he
              exact Or.inr (not_lt.mp hlt)
            · exact Or.inl hin2
          · exact Or.inr hdone
        have ih := astarRelax_preserves hedge hclG hnnG rest st inv2
        rw [astarRelax_cons_ge h u c v w rest st hlt]
        refine ⟨ih.1, ih.2.1, ?_⟩
        calc (astarRelax h u (c : DQ) rest st).heap.length ≤
              st.heap.length + rest.length := ih.2.2
          _ ≤ st.heap.length + ((v, w) :: rest).length := by
              rw [List.length_cons]
              omega

/-- Loop potential: heap entries plus the adjacency sizes of the still
unexpanded nodes.  Every iteration strictly decreases it. -/
def astarPot (G : SGraph) (st : AStarState) : Nat :=
  st.heap.length + ∑ u ∈ Finset.range G.length,
    (if getVis st.visited u = 0 then (adj G u).length else 0)

/-- Position of an element appended behind a list not containing it. -/
theorem indexOf_append_self {a : Nat} : ∀ {l : List Nat}, a ∉ l →
    (l ++ [a]).indexOf a = l.length
  | [], _ => by simp
  | x :: t, h => by
      have hxa : x ≠ a := fun e => h (e ▸ List.mem_cons_self x t)
      have hat : a ∉ t := fun hm => h (List.mem_cons_of_mem x hm)
      show ((x :: (t ++ [a])).indexOf a) = t.length + 1
      rw [List.indexOf_cons_ne _ (by exact hxa)]
      rw [indexOf_append_self hat]

/-- Appending does not change the position of an existing element. -/
theorem indexOf_append_mem {a : Nat} : ∀ {l l2 : List Nat}, a ∈ l →
    (l ++ l2).indexOf a = l.indexOf a
  | [], _, h => absurd h (List.not_mem_nil a)
  | x :: t, l2, h => by
      by_cases hxa : x = a
      · subst hxa
        show ((x :: (t ++ l2)).indexOf x) = (x :: t).indexOf x
        rw [List.indexOf_cons_self, List.indexOf_cons_self]
      · have hat : a ∈ t := by
          rcases List.mem_cons.mp h with he | hm
          · exact absurd he.symm hxa
          · exact hm
        show ((x :: (t ++ l2)).indexOf a) = (x :: t).indexOf a
        rw [List.indexOf_cons_ne _ (by exact hxa),
          List.indexOf_cons_ne _ (by exact hxa)]
        rw [indexOf_append_mem hat]

/-- Predecessor chains that descend in an expansion order terminate. -/
theorem predWalk_isSome_of_ord {pred : List Int} {ord : List Nat}
    (hpredord : ∀ v u, getPred pred v = Int.ofNat u →
      u ∈ ord ∧ (v ∈ ord → ord.indexOf u < ord.indexOf v)) :
    ∀ (m fuel v : Nat), v ∈ ord → ord.indexOf v < m → m ≤ fuel →
      (predWalk pred v fuel).isSome
  | 0, _, v, _, hidx, _ => absurd hidx (Nat.not_lt_zero _)
  | m + 1, fuel, v, hv, hidx, hf => by
      cases fuel with
      | zero => omega
      | succ f =>
          rw [predWalk]
          cases hp : getPred pred v with
          | negSucc a => simp
          | ofNat u =>
              obtain ⟨hu, hlt⟩ := hpredord v u hp
              have hidxu : ord.indexOf u < m := by
                have := hlt hv
                omega
              have := predWalk_isSome_of_ord hpredord m f u hu hidxu
                (by omega)
              simpa using this

/-- A nodup list of naturals below `n` has at most `n` elements. -/
theorem nodup_lt_length_le {ord : List Nat} {n : Nat} (hnd : ord.Nodup)
    (hlt : ∀ v ∈ ord, v < n) : ord.length ≤ n := by
  have hcard : ord.toFinset.card = ord.length := List.toFinset_card_of_nodup hnd
  have hsub : ord.toFinset ⊆ Finset.range n := by
    intro x hx
    rw [List.mem_toFinset] at hx
    rw [Finset.mem_range]
    exact hlt x hx
  have := Finset.card_le_card hsub
  rw [hcard, Finset.card_range] at this
  exact this

/-- Path reconstruction succeeds whenever the predecessor pointers descend in
an expansion order of in-range nodes. -/
theorem buildPath_isSome {pred : List Int} {ord : List Nat} {v : Nat}
    (hnd : ord.Nodup) (hlen : ∀ x ∈ ord, x < pred.length)
    (hpredord : ∀ x u, getPred pred x = Int.ofNat u →
      u ∈ ord ∧ (x ∈ ord → ord.indexOf u < ord.indexOf x)) :
    ∃ p, buildPath pred v = some p := by
  have hlenord : ord.length ≤ pred.length := nodup_lt_length_le hnd hlen
  unfold buildPath
  rw [predWalk]
  cases hp : getPred pred v with
  | negSucc a => exact ⟨[v].reverse, rfl⟩
  | ofNat u =>
      obtain ⟨hu, _⟩ := hpredord v u hp
      have hidxu : ord.indexOf u < ord.length := List.indexOf_lt_length.mpr hu
      have hsome := predWalk_isSome_of_ord hpredord ord.length pred.length u
        hu hidxu hlenord
      obtain ⟨l, hl⟩ := Option.isSome_iff_exists.mp hsome
      refine ⟨(v :: l).reverse, ?_⟩
      show Option.map List.reverse
        (Option.map (fun l => v :: l) (predWalk pred u pred.length)) =
        some ((v :: l).reverse)
      rw [hl]
      rfl

/-- The popped node of a sorted heap has a stored distance no larger than the
weight of any walk reaching it from the origin, provided it is unvisited:
the first unvisited node of such a walk still has a covering heap entry, the
pop key is below that entry, and consistency telescopes the heuristic along
the remaining walk. -/
theorem astar_pop_opt {G : SGraph} {o : Nat} {h : Nat → ℚ} {st : AStarState}
    (hnnG : ∀ d ∈ G, ∀ p ∈ d, 0 ≤ p.2)
    (htele : ∀ z u (q : List Nat) (c₂ : ℚ), IsWalk G z u q c₂ →
      h z ≤ h u + c₂)
    (inv : AInv G o h st) {k : ℚ} {cur : Nat} {rest : List Ent}
    (hheap : st.heap = (k, cur) :: rest)
    (hcurvis : getVis st.visited cur = 0) :
    ∀ q (cw : ℚ), IsWalk G o cur q cw → getDist st.dist cur ≤ (cw : DQ) := by
  intro q cw hq
  have hmin : ∀ e ∈ st.heap, k ≤ e.1 := by
    intro e he
    rw [hheap] at he
    rcases List.mem_cons.mp he with rfl | he2
    · exact le_refl _
    · exact heapSorted_head_le (hheap ▸ inv.hsorted) e he2
  obtain ⟨z, c₁, c₂, q2, hz0, hzb, hzw, hzc⟩ :=
    first_unvisited_bound inv.hvis01 inv.hrelaxed q o cur cw 0 hq
      (le_of_eq inv.hg0) hcurvis
  obtain ⟨cz, hcz, hczle⟩ := DQ_le_coe hzb
  obtain ⟨kz, hkz, hkzle⟩ := inv.hcovered z cz hz0 hcz
  have hkkz : k ≤ kz := hmin (kz, z) hkz
  have hhz : h z ≤ h cur + c₂ := htele z cur q2 c₂ hzw
  have hkbound : k ≤ cw + h cur := by
    have h1 : k ≤ cz + h z := le_trans hkkz hkzle
    have h2 : cz + h z ≤ (0 + c₁) + (h cur + c₂) := by
      have := add_le_add hczle hhz
      linarith
    rw [hzc]
    linarith
  rcases inv.hkeys k cur (hheap ▸ List.mem_cons_self _ _) with
    ⟨cc, hcc, hcck⟩ | ⟨hco, hk0⟩
  · rw [hcc]
    have : cc ≤ cw := by linarith
    exact_mod_cast this
  · subst hco
    rw [inv.hg0]
    have : (0 : ℚ) ≤ cw := walk_weight_nonneg hnnG hq
    exact_mod_cast this

/-- Unfolding one loop iteration after a successful pop. -/
theorem astarLoop_pop (G : SGraph) (h : Nat → ℚ) (t fuel : Nat)
    (st : AStarState) (lastId : Nat) (k : ℚ) (cur : Nat) (rest : List Ent)
    (hh : st.heap = (k, cur) :: rest) :
    astarLoop G h t (fuel + 1) st lastId =
      if cur = t then some (cur, { st with heap := rest })
      else if getVis st.visited cur = 1 then
        astarLoop G h t fuel { st with heap := rest } cur
      else
        astarLoop G h t fuel
          (astarRelax h cur (getDist st.dist cur) (adj G cur)
            { st with heap := rest, visited := st.visited.set cur 1 }) cur := by
  have hpop : heapPop st.heap = some ((k, cur), rest) := by
    rw [hh]
    rfl
  simp only [astarLoop, hpop]

/-- Expanding a fresh node strictly decreases the potential. -/
theorem astarPot_expand {G : SGraph} {st st2 : AStarState} {cur : Nat}
    {k : ℚ} {rest : List Ent}
    (hheap : st.heap = (k, cur) :: rest)
    (hcur : getVis st.visited cur = 0) (hlt : cur < G.length)
    (hvislen : st.visited.length = G.length)
    (hvis2 : st2.visited = st.visited.set cur 1)
    (hheap2 : st2.heap.length ≤ rest.length + (adj G cur).length) :
    astarPot G st2 + 1 ≤ astarPot G st := by
  classical
  have hcr : cur ∈ Finset.range G.length := Finset.mem_range.mpr hlt
  have hS : ∑ u ∈ Finset.range G.length,
      (if getVis st.visited u = 0 then (adj G u).length else 0) =
      (adj G cur).length + ∑ u ∈ (Finset.range G.length).erase cur,
        (if getVis st.visited u = 0 then (adj G u).length else 0) := by
    rw [← Finset.add_sum_erase _ _ hcr, hcur, if_pos rfl]
  have hS2 : ∑ u ∈ Finset.range G.length,
      (if getVis st2.visited u = 0 then (adj G u).length else 0) =
      ∑ u ∈ (Finset.range G.length).erase cur,
        (if getVis st.visited u = 0 then (adj G u).length else 0) := by
    rw [← Finset.add_sum_erase _ _ hcr]
    have hcur2 : getVis st2.visited cur = 1 := by
      rw [hvis2]
      show (st.visited.set cur 1).getD cur 0 = 1
      exact getD_set_self st.visited cur 1 0 (by rw [hvislen]; exact hlt)
    rw [hcur2]
    rw [if_neg (by norm_num)]
    rw [Nat.zero_add]
    apply Finset.sum_congr rfl
    intro x hx
    have hxc : x ≠ cur := (Finset.mem_erase.mp hx).1
    have : getVis st2.visited x = getVis st.visited x := by
      rw [hvis2]
      show (st.visited.set cur 1).getD x 0 = st.visited.getD x 0
      exact getD_set_ne st.visited cur x 1 0 (fun e => hxc e.symm)
    rw [this]
  unfold astarPot
  rw [hS, hS2]
  have hhlen : st.heap.length = rest.length + 1 := by
    rw [hheap]
    rfl
  omega

/-- Main induction for the A* loop with a consistent heuristic: from any
invariant state with the destination unexpanded, the loop breaks on the
destination with an attained, per-walk-minimal stored distance. -/
theorem astarLoop_correct {G : SGraph} {o t : Nat} {h : Nat → ℚ}
    (hedge : ∀ a v w, (v, w) ∈ adj G a → edgeWeight G a v = some w)
    (hclG : ∀ d ∈ G, ∀ p ∈ d, p.1 < G.length)
    (hnnG : ∀ d ∈ G, ∀ p ∈ d, 0 ≤ p.2)
    (htele : ∀ z u (q : List Nat) (c₂ : ℚ), IsWalk G z u q c₂ →
      h z ≤ h u + c₂)
    (hreach : ∃ q c, IsWalk G o t q c) :
    ∀ (fuel : Nat) (st : AStarState) (lastId : Nat),
      AInv G o h st →
      getVis st.visited t = 0 →
      astarPot G st < fuel →
      ∃ st', astarLoop G h t fuel st lastId = some (t, st') ∧
        st'.pred.length = G.length ∧
        (∃ ord, OrdInv G st' ord) ∧
        (∃ c : ℚ, getDist st'.dist t = (c : DQ) ∧ (∃ p, IsWalk G o t p c) ∧
          ∀ q (cw : ℚ), IsWalk G o t q cw → c ≤ cw)
  | 0, st, _, _, _, hpot => absurd hpot (Nat.not_lt_zero _)
  | fuel + 1, st, lastId, inv, ht, hpot => by
    cases hheap : st.heap with
    | nil =>
      exfalso
      obtain ⟨q, c, hq⟩ := hreach
      obtain ⟨z, c₁, c₂, q2, hz0, hzb, hzw, hzc⟩ :=
        first_unvisited_bound inv.hvis01 inv.hrelaxed q o t c 0 hq
          (le_of_eq inv.hg0) ht
      obtain ⟨cz, hcz, _⟩ := DQ_le_coe hzb
      obtain ⟨kz, hkz, _⟩ := inv.hcovered z cz hz0 hcz
      rw [hheap] at hkz
      exact absurd hkz (List.not_mem_nil _)
    | cons e rest =>
      obtain ⟨k, cur⟩ := e
      rw [astarLoop_pop G h t fuel st lastId k cur rest hheap]
      by_cases hcurt : cur = t
      · subst hcurt
        rw [if_pos rfl]
        have hopt := astar_pop_opt hnnG htele inv hheap ht
        obtain ⟨q0, c0, hq0⟩ := hreach
        obtain ⟨c, hc, _⟩ := DQ_le_coe (hopt q0 c0 hq0)
        refine ⟨{ st with heap := rest }, rfl, inv.hpredlen, inv.hord,
          c, hc, inv.hsound _ c hc, ?_⟩
        intro q cw hq
        have hle := hopt q cw hq
        rw [hc] at hle
        exact_mod_cast hle
      · rw [if_neg hcurt]
        rcases inv.hvis01 cur with hfresh | hvisited
        · -- fresh expansion of cur
          rw [if_neg (by rw [hfresh]; norm_num)]
          have hheadmem : ((k, cur) : Ent) ∈ st.heap :=
            hheap ▸ List.mem_cons_self _ _
          have hcurlt : cur < G.length := inv.hnodes k cur hheadmem
          have hopt := astar_pop_opt hnnG htele inv hheap hfresh
          have hfind : ∃ c : ℚ, getDist st.dist cur = (c : DQ) := by
            rcases inv.hkeys k cur hheadmem with ⟨cc, hcc, _⟩ | ⟨hco, _⟩
            · exact ⟨cc, hcc⟩
            · exact ⟨0, hco ▸ inv.hg0⟩
          obtain ⟨c, hc⟩ := hfind
          obtain ⟨ord, hordinv⟩ := inv.hord
          obtain ⟨hnd, hvisiff, hbnd, hpredord⟩ := hordinv
          have hcurnord : cur ∉ ord := by
            intro hm
            have := (hvisiff cur).mpr hm
            rw [hfresh] at this
            norm_num at this
          set stP : AStarState :=
            { st with heap := rest, visited := st.visited.set cur 1 }
            with hstP
          have hvisP_cur : getVis stP.visited cur = 1 := by
            show (st.visited.set cur 1).getD cur 0 = 1
            exact getD_set_self st.visited cur 1 0
              (by rw [inv.hvislen]; exact hcurlt)
          have hvisP_ne : ∀ x, x ≠ cur →
              getVis stP.visited x = getVis st.visited x := by
            intro x hx
            show (st.visited.set cur 1).getD x 0 = st.visited.getD x 0
            exact getD_set_ne st.visited cur x 1 0 (fun e => hx e.symm)
          have hrestmem : ∀ e ∈ rest, e ∈ st.heap := by
            intro e he
            rw [hheap]
            exact List.mem_cons_of_mem _ he
          have invR : RInv G o h cur c (ord ++ [cur]) (adj G cur) stP := by
            refine
              { hsub := fun p hp => hp
                hdistlen := inv.hdistlen
                hpredlen := inv.hpredlen
                hvislen := by
                  show (st.visited.set cur 1).length = G.length
                  rw [List.length_set]
                  exact inv.hvislen
                hvis01 := ?_
                hg0 := inv.hg0
                hsound := inv.hsound
                hvisu := hvisP_cur
                hcu := hc
                hrelOld := ?_
                hpartial := fun p hp => Or.inl hp
                hvopt := ?_
                hcov := ?_
                hkeys := fun k2 v hk2 => inv.hkeys k2 v (hrestmem _ hk2)
                hnodes := fun k2 v hk2 => inv.hnodes k2 v (hrestmem _ hk2)
                hsorted := ?_
                hordinv := ?_ }
            · intro v
              by_cases hv : v = cur
              · subst hv
                exact Or.inr hvisP_cur
              · rw [hvisP_ne v hv]
                exact inv.hvis01 v
            · intro a ha hac p hp
              rw [hvisP_ne a hac] at ha
              exact inv.hrelaxed a ha p hp
            · intro a ha q cv hq
              by_cases hac : a = cur
              · subst hac
                exact hopt q cv hq
              · rw [hvisP_ne a hac] at ha
                exact inv.hvisopt a ha q cv hq
            · intro v cv hv0 hcv
              have hvc : v ≠ cur := by
                intro e
                rw [e, hvisP_cur] at hv0
                norm_num at hv0
              rw [hvisP_ne v hvc] at hv0
              obtain ⟨k2, hk2, hk2le⟩ := inv.hcovered v cv hv0 hcv
              rw [hheap] at hk2
              rcases List.mem_cons.mp hk2 with he | hm
              · injection he with he1 he2
                exact absurd he2 hvc
              · exact ⟨k2, hm, hk2le⟩
            · have := inv.hsorted
              rw [hheap] at this
              unfold heapSorted at this ⊢
              exact (List.pairwise_cons.mp this).2
            · refine ⟨?_, ?_, ?_, ?_⟩
              · refine List.Nodup.append hnd (List.nodup_singleton cur) ?_
                intro a ha hb
                rw [List.mem_singleton] at hb
                subst hb
                exact hcurnord ha
              · intro v
                by_cases hv : v = cur
                · subst hv
                  constructor
                  · intro _
                    exact List.mem_append_right _ (List.mem_singleton.mpr rfl)
                  · intro _
                    exact hvisP_cur
                · rw [hvisP_ne v hv]
                  rw [List.mem_append, List.mem_singleton]
                  constructor
                  · intro hv1
                    exact Or.inl ((hvisiff v).mp hv1)
                  · intro hv2
                    rcases hv2 with hv2 | hv2
                    · exact (hvisiff v).mpr hv2
                    · exact absurd hv2 hv
              · intro v hv
                rcases List.mem_append.mp hv with hv2 | hv2
                · exact hbnd v hv2
                · rw [List.mem_singleton] at hv2
                  subst hv2
                  exact hcurlt
              · intro x b hx
                obtain ⟨hb, hbidx⟩ := hpredord x b hx
                refine ⟨List.mem_append_left _ hb, ?_⟩
                intro hxm
                rcases List.mem_append.mp hxm with hx2 | hx2
                · rw [indexOf_append_mem hb, indexOf_append_mem hx2]
                  exact hbidx hx2
                · rw [List.mem_singleton] at hx2
                  subst hx2
                  rw [indexOf_append_mem hb, indexOf_append_self hcurnord]
                  exact List.indexOf_lt_length.mpr hb
          obtain ⟨invR2, hviseq, hheaplen⟩ :=
            astarRelax_preserves hedge hclG hnnG (adj G cur) stP invR
          have inv2 : AInv G o h
              (astarRelax h cur (c : DQ) (adj G cur) stP) := by
            refine
              { hdistlen := invR2.hdistlen
                hpredlen := invR2.hpredlen
                hvislen := invR2.hvislen
                hvis01 := invR2.hvis01
                hg0 := invR2.hg0
                hsound := invR2.hsound
                hrelaxed := ?_
                hvisopt := invR2.hvopt
                hcovered := invR2.hcov
                hkeys := invR2.hkeys
                hnodes := invR2.hnodes
                hsorted := invR2.hsorted
                hord := ⟨ord ++ [cur], invR2.hordinv⟩ }
            intro a ha p hp
            by_cases hac : a = cur
            · subst hac
              rcases invR2.hpartial p hp with hin | hbound
              · exact absurd hin (List.not_mem_nil p)
              · rw [invR2.hcu]
                calc getDist (astarRelax h a (c : DQ) (adj G a) stP).dist p.1
                    ≤ ((c + p.2 : ℚ) : DQ) := hbound
                  _ = (c : DQ) + ((p.2 : ℚ) : DQ) := by
                      rw [WithTop.coe_add]
            · exact invR2.hrelOld a ha hac p hp
          have ht2 : getVis
              (astarRelax h cur (c : DQ) (adj G cur) stP).visited t = 0 := by
            rw [hviseq]
            rw [hvisP_ne t (fun e => hcurt e.symm)]
            exact ht
          have hpot2 : astarPot G
              (astarRelax h cur (c : DQ) (adj G cur) stP) < fuel := by
            have hdec := astarPot_expand hheap hfresh hcurlt inv.hvislen
              (show (astarRelax h cur (c : DQ) (adj G cur) stP).visited =
                st.visited.set cur 1 from hviseq)
              (by
                have : stP.heap.length = rest.length := rfl
                rw [this] at hheaplen
                exact hheaplen)
            omega
          obtain ⟨st', hrun, hplen, hordres, hres⟩ :=
            astarLoop_correct hedge hclG hnnG htele hreach fuel
              (astarRelax h cur (c : DQ) (adj G cur) stP) cur inv2 ht2 hpot2
          refine ⟨st', ?_, hplen, hordres, hres⟩
          rw [hc]
          exact hrun
        · -- stale pop of an already visited node
          rw [if_pos hvisited]
          have hrestmem : ∀ e ∈ rest, e ∈ st.heap := by
            intro e he
            rw [hheap]
            exact List.mem_cons_of_mem _ he
          have invP : AInv G o h { st with heap := rest } := by
            refine
              { hdistlen := inv.hdistlen
                hpredlen := inv.hpredlen
                hvislen := inv.hvislen
                hvis01 := inv.hvis01
                hg0 := inv.hg0
                hsound := inv.hsound
                hrelaxed := inv.hrelaxed
                hvisopt := inv.hvisopt
                hcovered := ?_
                hkeys := fun k2 v hk2 => inv.hkeys k2 v (hrestmem _ hk2)
                hnodes := fun k2 v hk2 => inv.hnodes k2 v (hrestmem _ hk2)
                hsorted := ?_
                hord := inv.hord }
            · intro v cv hv0 hcv
              obtain ⟨k2, hk2, hk2le⟩ := inv.hcovered v cv hv0 hcv
              rw [hheap] at hk2
              rcases List.mem_cons.mp hk2 with he | hm
              · injection he with he1 he2
                subst he2
                rw [hvisited] at hv0
                norm_num at hv0
              · exact ⟨k2, hm, hk2le⟩
            · have := inv.hsorted
              rw [hheap] at this
              unfold heapSorted at this ⊢
              exact (List.pairwise_cons.mp this).2
          have hpotP : astarPot G { st with heap := rest } < fuel := by
            have h1 : st.heap.length = rest.length + 1 := by
              rw [hheap]
              rfl
            have h2 : astarPot G { st with heap := rest } + 1 =
                astarPot G st := by
              unfold astarPot
              have h3 : ({ st with heap := rest } : AStarState).heap.length =
                  rest.length := rfl
              have h4 : (∑ u ∈ Finset.range G.length,
                  if getVis ({ st with heap := rest } :
                    AStarState).visited u = 0 then (adj G u).length else 0) =
                  (∑ u ∈ Finset.range G.length,
                  if getVis st.visited u = 0 then (adj G u).length else 0) :=
                rfl
              rw [h3, h4, h1]
              omega
            omega
          exact astarLoop_correct hedge hclG hnnG htele hreach fuel
            { st with heap := rest } cur invP ht hpotP

/-- Passing validation gives in-range adjacency keys and nonnegative
weights (the first two checks run regardless of the flags). -/
theorem validate_graph_facts {G : SGraph} {cs cc : Bool}
    (h : validate_graph G cs cc = .ok ()) :
    (∀ d ∈ G, ∀ p ∈ d, p.1 < G.length) ∧ (∀ d ∈ G, ∀ p ∈ d, 0 ≤ p.2) := by
  unfold validate_graph at h
  split at h
  next hc1 => simp at h
  next hc1 =>
    split at h
    next hc2 => simp at h
    next hc2 =>
      rw [not_not] at hc1 hc2
      constructor
      · intro d hd p hp
        have h1 := List.all_eq_true.mp hc1 d hd
        have h2 := List.all_eq_true.mp h1 p hp
        exact of_decide_eq_true h2
      · intro d hd p hp
        have h1 := List.all_eq_true.mp hc2 d hd
        have h2 := List.all_eq_true.mp h1 p hp
        exact of_decide_eq_true h2

/-- `getD` on a replicated list with the replicated value as default. -/
theorem getD_replicate_self {α : Type} (a : α) :
    ∀ (n v : Nat), (List.replicate n a).getD v a = a
  | 0, _ => rfl
  | _ + 1, 0 => rfl
  | n + 1, v + 1 => getD_replicate_self a n v

/-- The range sum of adjacency sizes is the total edge count. -/
theorem sum_adj : ∀ (G : SGraph),
    ∑ u ∈ Finset.range G.length, (adj G u).length = (G.map List.length).sum
  | [] => by simp
  | d :: t => by
      rw [List.length_cons, Finset.sum_range_succ']
      have hs : ∀ i, adj (d :: t) (i + 1) = adj t i := fun i => rfl
      have h0 : adj (d :: t) 0 = d := rfl
      simp only [hs, h0]
      rw [sum_adj t]
      rw [List.map_cons, List.sum_cons]
      omega

/-- C5 (amended): for every validated graph with distinct adjacency keys (a
structural property of Python dictionaries), every origin in range and every
*consistent* nonnegative heuristic vanishing at the destination,
`Graph.a_star` returns a result whose length is the true shortest-path
distance from origin to destination whenever one exists. -/
theorem C5_a_star_consistent_returns_shortest (G : SGraph)
    (hfn : Nat → Nat → ℚ) (o t : Nat) (δ : ℚ)
    (hval : validate_graph G false false = .ok ())
    (hnd : ∀ d ∈ G, (d.map Prod.fst).Nodup)
    (ho : o < G.length)
    (hcons : ∀ u v w, (v, w) ∈ adj G u → hfn u t ≤ w + hfn v t)
    (hnonneg : ∀ v, 0 ≤ hfn v t)
    (hδ : IsShortestDist G o t δ) :
    ∃ p, a_star G hfn o t = .ok { path := p, length := (δ : DQ) } := by
  obtain ⟨hclG, hnnG⟩ := validate_graph_facts hval
  set h : Nat → ℚ := fun v => hfn v t with hh
  have hedge : ∀ a v w, (v, w) ∈ adj G a → edgeWeight G a v = some w := by
    intro a v w hm
    unfold edgeWeight
    have hndadj : ((adj G a).map Prod.fst).Nodup := by
      unfold adj
      rw [List.getD_eq_getElem?_getD]
      cases hg : G[a]? with
      | none => simp
      | some d =>
          show (d.map Prod.fst).Nodup
          exact hnd d (lmem_of_get G a d hg)
    exact mem_dictGet? hm hndadj
  have htele : ∀ z u (q : List Nat) (c₂ : ℚ), IsWalk G z u q c₂ →
      h z ≤ h u + c₂ := by
    intro z u q c₂ hq
    have hpot : ∀ a v w, (v, w) ∈ adj G a →
        (fun x => -(h x)) v ≤ (fun x => -(h x)) a + w := by
      intro a v w hm
      have := hcons a v w hm
      simp only
      linarith
    have := walk_lower_bound G (fun x => -(h x)) hpot q z u c₂ hq
    simp only at this
    linarith
  have hreach : ∃ q c, IsWalk G o t q c := by
    obtain ⟨⟨p0, hp0⟩, _⟩ := hδ
    exact ⟨p0, δ, hp0⟩
  -- the initial state satisfies the invariant
  set st0 : AStarState := astarInit G.length o with hst0
  have hdist0_o : getDist st0.dist o = ((0 : ℚ) : DQ) := by
    show ((List.replicate G.length (⊤ : DQ)).set o ((0 : ℚ) : DQ)).getD o ⊤ =
      ((0 : ℚ) : DQ)
    exact getD_set_self _ o _ ⊤ (by rw [List.length_replicate]; exact ho)
  have hdist0_ne : ∀ v, v ≠ o → getDist st0.dist v = ⊤ := by
    intro v hv
    show ((List.replicate G.length (⊤ : DQ)).set o ((0 : ℚ) : DQ)).getD v ⊤ = ⊤
    rw [getD_set_ne _ o v _ ⊤ (fun e => hv e.symm)]
    exact getD_replicate_self ⊤ G.length v
  have hvis0 : ∀ v, getVis st0.visited v = 0 := by
    intro v
    exact getD_replicate_self 0 G.length v
  have hpred0 : ∀ v, getPred st0.pred v = -1 := by
    intro v
    exact getD_replicate_self (-1) G.length v
  have inv0 : AInv G o h st0 := by
    refine
      { hdistlen := by
          show ((List.replicate G.length (⊤ : DQ)).set o _).length = G.length
          rw [List.length_set, List.length_replicate]
        hpredlen := by
          show (List.replicate G.length (-1 : Int)).length = G.length
          rw [List.length_replicate]
        hvislen := by
          show (List.replicate G.length (0 : Nat)).length = G.length
          rw [List.length_replicate]
        hvis01 := fun v => Or.inl (hvis0 v)
        hg0 := hdist0_o
        hsound := ?_
        hrelaxed := ?_
        hvisopt := ?_
        hcovered := ?_
        hkeys := ?_
        hnodes := ?_
        hsorted := ?_
        hord := ⟨[], ?_, ?_, ?_, ?_⟩ }
    · intro v c hv
      by_cases hvo : v = o
      · subst hvo
        rw [hdist0_o] at hv
        have : (0 : ℚ) = c := WithTop.coe_inj.mp hv
        exact ⟨[v], ⟨rfl, rfl, by rw [← this]; rfl⟩⟩
      · rw [hdist0_ne v hvo] at hv
        exact absurd hv (by simp)
    · intro u hu
      rw [hvis0 u] at hu
      norm_num at hu
    · intro u hu
      rw [hvis0 u] at hu
      norm_num at hu
    · intro v c _ hv
      by_cases hvo : v = o
      · subst hvo
        rw [hdist0_o] at hv
        have hc : (0 : ℚ) = c := WithTop.coe_inj.mp hv
        refine ⟨0, List.mem_cons_self _ _, ?_⟩
        rw [← hc]
        have := hnonneg v
        simp only [hh]
        linarith
      · rw [hdist0_ne v hvo] at hv
        exact absurd hv (by simp)
    · intro k v hk
      rcases List.mem_cons.mp hk with he | hm
      · injection he with he1 he2
        exact Or.inr ⟨he2, he1⟩
      · exact absurd hm (List.not_mem_nil _)
    · intro k v hk
      rcases List.mem_cons.mp hk with he | hm
      · injection he with he1 he2
        subst he2
        exact ho
      · exact absurd hm (List.not_mem_nil _)
    · unfold heapSorted
      exact List.pairwise_cons.mpr
        ⟨fun z hz => absurd hz (List.not_mem_nil z), List.Pairwise.nil⟩
    · exact List.nodup_nil
    · intro v
      rw [hvis0 v]
      constructor
      · intro hv
        norm_num at hv
      · intro hv
        exact absurd hv (List.not_mem_nil v)
    · intro v hv
      exact absurd hv (List.not_mem_nil v)
    · intro v u hv
      rw [hpred0 v] at hv
      exfalso
      have hcast : Int.ofNat u = (u : ℤ) := rfl
      rw [hcast] at hv
      omega
  have ht0vis : getVis st0.visited t = 0 := hvis0 t
  have hpot0 : astarPot G st0 < stdFuel G := by
    have hsum : ∑ u ∈ Finset.range G.length,
        (if getVis st0.visited u = 0 then (adj G u).length else 0) =
        ∑ u ∈ Finset.range G.length, (adj G u).length := by
      apply Finset.sum_congr rfl
      intro x _
      rw [hvis0 x, if_pos rfl]
    have hheap0 : st0.heap.length = 1 := rfl
    unfold astarPot
    rw [hsum, sum_adj G, hheap0]
    unfold stdFuel
    have hmul : 1 * ((G.map List.length).sum + 2) ≤
        (G.length + 1) * ((G.map List.length).sum + 2) :=
      Nat.mul_le_mul_right _ (by omega)
    omega
  obtain ⟨st', hrun, hplen, ⟨ordf, hndf, _, hbndf, hpredf⟩, c, hc, hat, hmin⟩ :=
    astarLoop_correct hedge hclG hnnG htele hreach (stdFuel G) st0 o
      inv0 ht0vis hpot0
  have hcδ : c = δ := by
    obtain ⟨⟨p0, hp0⟩, hminδ⟩ := hδ
    obtain ⟨pc, hpc⟩ := hat
    exact le_antisymm (hmin p0 δ hp0) (hminδ pc c hpc)
  obtain ⟨p, hbuild⟩ := @buildPath_isSome _ _ t hndf
    (by
      intro x hx
      rw [hplen]
      exact hbndf x hx)
    hpredf
  refine ⟨p, ?_⟩
  unfold a_star
  rw [← hh, ← hst0, hrun]
  show (if t = t then
      match buildPath st'.pred t with
      | none => (.error "fuel" : Except String PathResult)
      | some p2 => .ok { path := p2, length := getDist st'.dist t }
    else .error
      "Something went wrong, the origin and destination nodes are not connected.")
    = .ok { path := p, length := (δ : DQ) }
  rw [if_pos rfl, hbuild]
  show (.ok { path := p, length := getDist st'.dist t } :
    Except String PathResult) = _
  rw [hc, hcδ]

/-- The validated symmetric connected graph used to refute the admissible
form of the A* claim. -/
def c5G : SGraph :=
  [[(1, 1), (2, 3)], [(0, 1), (2, 1)], [(0, 3), (1, 1), (3, 5)], [(2, 5)]]

/-- An admissible but inconsistent heuristic for destination 3 on `c5G`:
the estimate 6 at node 1 equals the true remaining distance, yet exceeds the
edge to node 2 plus the estimate there. -/
def c5H : Nat → Nat → ℚ := fun v _ => if v = 1 then 6 else 0

/-- Negated true distance to the destination, the feasible potential that
certifies both the admissibility of `c5H` and the true distance 7. -/
def c5Pot : Nat → ℚ :=
  fun v => if v = 0 then -7 else if v = 1 then -6 else if v = 2 then -5 else 0

/-- The original C5 claim is false as stated: on the validated graph `c5G`
with the admissible heuristic `c5H`, `a_star` from 0 to 3 returns length 8,
while the true shortest-path distance is 7 (attained by the very path the
call returns): node 2 is expanded with the suboptimal stored distance 3, its
later improvement to 2 is never re-expanded because of the visited bitset,
and the stale value reaches the destination. -/
theorem C5_a_star_admissible_counterexample :
    validate_graph c5G true true = .ok () ∧
    Admissible c5G (fun v => c5H v 3) 3 ∧
    IsShortestDist c5G 0 3 7 ∧
    a_star c5G c5H 0 3 =
      .ok { path := [0, 1, 2, 3], length := ((8 : ℚ) : DQ) } ∧
    ((8 : ℚ) : DQ) ≠ ((7 : ℚ) : DQ) := by
  have hpot : ∀ u v w, (v, w) ∈ adj c5G u → c5Pot v ≤ c5Pot u + w := by
    intro u v w hm
    match u with
    | 0 =>
        simp only [show adj c5G 0 = [(1, 1), (2, 3)] from rfl,
          List.mem_cons, List.not_mem_nil, or_false, Prod.mk.injEq] at hm
        rcases hm with ⟨rfl, rfl⟩ | ⟨rfl, rfl⟩ <;> norm_num [c5Pot]
    | 1 =>
        simp only [show adj c5G 1 = [(0, 1), (2, 1)] from rfl,
          List.mem_cons, List.not_mem_nil, or_false, Prod.mk.injEq] at hm
        rcases hm with ⟨rfl, rfl⟩ | ⟨rfl, rfl⟩ <;> norm_num [c5Pot]
    | 2 =>
        simp only [show adj c5G 2 = [(0, 3), (1, 1), (3, 5)] from rfl,
          List.mem_cons, List.not_mem_nil, or_false, Prod.mk.injEq] at hm
        rcases hm with ⟨rfl, rfl⟩ | ⟨rfl, rfl⟩ | ⟨rfl, rfl⟩ <;>
          norm_num [c5Pot]
    | 3 =>
        simp only [show adj c5G 3 = [(2, 5)] from rfl,
          List.mem_cons, List.not_mem_nil, or_false, Prod.mk.injEq] at hm
        rcases hm with ⟨rfl, rfl⟩
        norm_num [c5Pot]
    | n + 4 =>
        simp only [show adj c5G (n + 4) = [] from rfl] at hm
        exact absurd hm (List.not_mem_nil _)
  have hpotle : ∀ v, c5Pot v ≤ 0 := by
    intro v
    unfold c5Pot
    split
    · norm_num
    · split
      · norm_num
      · split
        · norm_num
        · norm_num
  refine ⟨by decide, ?_, ⟨⟨[0, 1, 2, 3], rfl, rfl, by decide⟩, ?_⟩,
    by decide, by decide⟩
  · intro v p c hw
    have hb := walk_lower_bound c5G c5Pot hpot p v 3 c hw
    have h3 : c5Pot 3 = 0 := by norm_num [c5Pot]
    rw [h3] at hb
    by_cases hv1 : v = 1
    · subst hv1
      have h1 : c5Pot 1 = -6 := by norm_num [c5Pot]
      rw [h1] at hb
      show (if (1 : Nat) = 1 then (6 : ℚ) else 0) ≤ c
      rw [if_pos rfl]
      linarith
    · show (if v = 1 then (6 : ℚ) else 0) ≤ c
      rw [if_neg hv1]
      have := hpotle v
      linarith
  · intro p c hw
    have hb := walk_lower_bound c5G c5Pot hpot p 0 3 c hw
    have h3 : c5Pot 3 = 0 := by norm_num [c5Pot]
    have h0 : c5Pot 0 = -7 := by norm_num [c5Pot]
    rw [h3, h0] at hb
    linarith

/-- Witness: the amended A* claim applied to the two-node symmetric graph
with the zero heuristic. -/
theorem C5_a_star_consistent_returns_shortest_witness :
    ∃ p, a_star [[(1, 1)], [(0, 1)]] (fun _ _ => 0) 0 1 =
      .ok { path := p, length := ((1 : ℚ) : DQ) } :=
  C5_a_star_consistent_returns_shortest [[(1, 1)], [(0, 1)]] (fun _ _ => 0)
    0 1 1 (by decide) (by decide) (by decide)
    (by
      intro u v w hm
      match u with
      | 0 =>
          simp only [show adj [[(1, 1)], [(0, 1)]] 0 = [(1, 1)] from rfl,
            List.mem_cons, List.not_mem_nil, or_false, Prod.mk.injEq] at hm
          rcases hm with ⟨rfl, rfl⟩
          norm_num
      | 1 =>
          simp only [show adj [[(1, 1)], [(0, 1)]] 1 = [(0, 1)] from rfl,
            List.mem_cons, List.not_mem_nil, or_false, Prod.mk.injEq] at hm
          rcases hm with ⟨rfl, rfl⟩
          norm_num
      | n + 2 =>
          simp only [show adj [[(1, 1)], [(0, 1)]] (n + 2) = [] from rfl]
            at hm
          exact absurd hm (List.not_mem_nil _))
    (fun _ => le_refl 0)
    ⟨⟨[0, 1], rfl, rfl, by decide⟩, by
      intro p c hw
      have hψ : ∀ u v w, (v, w) ∈ adj [[(1, 1)], [(0, 1)]] u →
          (fun x => if x = 1 then (1 : ℚ) else 0) v ≤
          (fun x => if x = 1 then (1 : ℚ) else 0) u + w := by
        intro u v w hm
        match u with
        | 0 =>
            simp only [show adj [[(1, 1)], [(0, 1)]] 0 = [(1, 1)] from rfl,
              List.mem_cons, List.not_mem_nil, or_false, Prod.mk.injEq] at hm
            rcases hm with ⟨rfl, rfl⟩
            norm_num
        | 1 =>
            simp only [show adj [[(1, 1)], [(0, 1)]] 1 = [(0, 1)] from rfl,
              List.mem_cons, List.not_mem_nil, or_false, Prod.mk.injEq] at hm
            rcases hm with ⟨rfl, rfl⟩
            norm_num
        | n + 2 =>
            simp only [show adj [[(1, 1)], [(0, 1)]] (n + 2) = [] from rfl]
              at hm
            exact absurd hm (List.not_mem_nil _)
      have hb := walk_lower_bound [[(1, 1)], [(0, 1)]]
        (fun x => if x = 1 then (1 : ℚ) else 0) hψ p 0 1 c hw
      norm_num at hb
      linarith⟩

/-! ## C8: grid paths avoid blocked cells and blocked sweeps -/

/-- Polymorphic Python-dict lookup (first matching key). -/
def pdictGet? {κ ν : Type} [DecidableEq κ] (k : κ) : List (κ × ν) → Option ν
  | [] => none
  | (k2, v) :: t => if k2 = k then some v else pdictGet? k t

/-- Polymorphic Python-dict write `d[k] = v`: update in place, else append. -/
def pdictSet {κ ν : Type} [DecidableEq κ] (k : κ) (v : ν) :
    List (κ × ν) → List (κ × ν)
  | [] => [(k, v)]
  | (k2, v2) :: t =>
      if k2 = k then (k2, v) :: t else (k2, v2) :: pdictSet k v t

/-- Polymorphic Python-dict `d.pop(k, None)`: drop the entry keyed `k`. -/
def pdictPop {κ ν : Type} [DecidableEq κ] (k : κ) :
    List (κ × ν) → List (κ × ν)
  | [] => []
  | (k2, v2) :: t => if k2 = k then t else (k2, v2) :: pdictPop k t

/-- Python `range(a, b)` over integers. -/
def intRange (a b : Int) : List Int :=
  (List.range (b - a).toNat).map (fun (i : Nat) => a + (i : Int))

/-- Python `min(lst)` for a rational list (the verified calls never see the
empty-list `ValueError` branch, which is mapped to `0`). -/
def minList (l : List ℚ) : ℚ :=
  match l with
  | [] => 0
  | h :: t => t.foldl min h

/-- Python `max(lst)` for a rational list. -/
def maxList (l : List ℚ) : ℚ :=
  match l with
  | [] => 0
  | h :: t => t.foldl max h

/-- Index-carrying loop of `ShapeMoverUtils.argmin`: Python
`min(enumerate(lst), key=lambda x: x[1])[0]` keeps the first minimum. -/
def argminFrom (i : Nat) (best : Nat × ℚ) : List ℚ → Nat
  | [] => best.1
  | x :: t =>
      if x < best.2 then argminFrom (i + 1) (i, x) t
      else argminFrom (i + 1) best t

/-- `ShapeMoverUtils.argmin` (shape_mover_utils.py lines 118-120); the empty
list raises in Python and is mapped to `0`, never reached here. -/
def argmin (lst : List ℚ) : Nat :=
  match lst with
  | [] => 0
  | x :: t => argminFrom 1 (0, x) t

/-- Index-carrying loop of `ShapeMoverUtils.argmax`: Python `max` keeps the
first maximum. -/
def argmaxFrom (i : Nat) (best : Nat × ℚ) : List ℚ → Nat
  | [] => best.1
  | x :: t =>
      if best.2 < x then argmaxFrom (i + 1) (i, x) t
      else argmaxFrom (i + 1) best t

/-- `ShapeMoverUtils.argmax` (shape_mover_utils.py lines 122-124). -/
def argmax (lst : List ℚ) : Nat :=
  match lst with
  | [] => 0
  | x :: t => argmaxFrom 1 (0, x) t

/-- `ShapeMoverUtils.moving_segment_overlap_intervals` (shape_mover_utils.py
lines 4-54), over exact rationals. -/
def moving_segment_overlap_intervals
    (seg_start seg_end t_start t_end shift : ℚ) : List (Int × (ℚ × ℚ)) :=
  let duration := t_end - t_start
  let velocity := if duration ≠ 0 then shift / duration else 0
  let final_start := seg_start + shift
  let final_end := seg_end + shift
  let global_min := min seg_start final_start
  let global_max := max seg_end final_end
  (intRange (pyInt global_min - 1) (pyInt global_max + 2)).foldl
    (fun result (i : Int) =>
      if velocity = 0 then
        if (i : ℚ) < seg_end ∧ seg_start < (i : ℚ) + 1 ∧ t_start < t_end then
          pdictSet i (t_start, t_end) result
        else result
      else
        let t1 := ((i : ℚ) - seg_end) / velocity + t_start
        let t2 := ((i : ℚ) + 1 - seg_start) / velocity + t_start
        let entry_time := max (min t1 t2) t_start
        let exit_time := min (max t1 t2) t_end
        if entry_time < exit_time then
          pdictSet i (entry_time, exit_time) result
        else result)
    []

/-- `ShapeMoverUtils.moving_rectangle_overlap_intervals` (shape_mover_utils.py
lines 56-116). -/
def moving_rectangle_overlap_intervals
    (x_start x_end y_start y_end x_shift y_shift t_start t_end : ℚ) :
    List ((Int × Int) × (ℚ × ℚ)) :=
  let x_intervals :=
    moving_segment_overlap_intervals x_start x_end t_start t_end x_shift
  let y_intervals :=
    moving_segment_overlap_intervals y_start y_end t_start t_end y_shift
  x_intervals.foldl
    (fun result xkv =>
      y_intervals.foldl
        (fun r ykv =>
          if ykv.2.1 < xkv.2.2 ∧ xkv.2.1 < ykv.2.2 then
            pdictSet (xkv.1, ykv.1)
              (max xkv.2.1 ykv.2.1, min xkv.2.2 ykv.2.2) r
          else r)
        result)
    []

/-- `ShapeMoverUtils.find_extreme_orthogonal_vertices_simplified`
(shape_mover_utils.py lines 164-200).  The float square root
`(1 + orthogonal**2) ** 0.5` is the oracle parameter `sqrtFn`; only the
positivity of its value is ever used, since `length` only scales the
projections whose order `argmin`/`argmax` inspect. -/
def find_extreme_orthogonal_vertices_simplified (sqrtFn : ℚ → ℚ)
    (points : List (ℚ × ℚ)) (slope : ℚ) : (ℚ × ℚ) × (ℚ × ℚ) :=
  let orthogonal := -1 / slope
  let length := sqrtFn (1 + orthogonal ^ 2)
  let projections :=
    points.map (fun p => p.1 * 1 / length + p.2 * orthogonal / length)
  let vertex_1 := points.getD (argmin projections) (0, 0)
  let vertex_2 := points.getD (argmax projections) (0, 0)
  if slope < 0 then (vertex_1, vertex_2) else (vertex_2, vertex_1)

/-- `ShapeMoverUtils.remove_untouched_intervals` (shape_mover_utils.py lines
202-250): collecting `remove_keys` and deleting them keeps exactly the
entries whose intercept range meets the shape intercept range, in order. -/
def remove_untouched_intervals (sqrtFn : ℚ → ℚ)
    (intervals : List ((Int × Int) × (ℚ × ℚ))) (slope : ℚ)
    (absolute_shape : List (ℚ × ℚ)) : List ((Int × Int) × (ℚ × ℚ)) :=
  let mv :=
    find_extreme_orthogonal_vertices_simplified sqrtFn absolute_shape slope
  let shape_min_intercept := mv.1.2 - slope * mv.1.1
  let shape_max_intercept := mv.2.2 - slope * mv.2.1
  let ltx_increment : Int := if slope < 0 then 1 else 0
  let gtx_increment : Int := if slope < 0 then 0 else 1
  intervals.filter
    (fun kv =>
      let cell_min_intercept :=
        (kv.1.2 : ℚ) - slope * ((kv.1.1 + gtx_increment : Int) : ℚ)
      let cell_max_intercept :=
        ((kv.1.2 : ℚ) + 1) - slope * ((kv.1.1 + ltx_increment : Int) : ℚ)
      decide (cell_min_intercept < shape_max_intercept ∧
        shape_min_intercept < cell_max_intercept))

/-- `ShapeMoverUtils.moving_shape_overlap_intervals` (shape_mover_utils.py
lines 252-319). -/
def moving_shape_overlap_intervals (sqrtFn : ℚ → ℚ)
    (x_coord y_coord x_shift y_shift t_start t_end : ℚ)
    (shape : List (ℚ × ℚ)) (cell_density : ℚ) :
    List ((Int × Int) × (ℚ × ℚ)) :=
  let absolute_shape := shape.map
    (fun coord =>
      ((x_coord + coord.1) * cell_density, (y_coord + coord.2) * cell_density))
  let xsh := x_shift * cell_density
  let ysh := y_shift * cell_density
  let rectangle_overlap_intervals :=
    moving_rectangle_overlap_intervals
      (minList (absolute_shape.map Prod.fst))
      (maxList (absolute_shape.map Prod.fst))
      (minList (absolute_shape.map Prod.snd))
      (maxList (absolute_shape.map Prod.snd))
      xsh ysh t_start t_end
  if xsh = 0 ∨ ysh = 0 then rectangle_overlap_intervals
  else
    remove_untouched_intervals sqrtFn rectangle_overlap_intervals
      (ysh / xsh) absolute_shape

/-- `GridGraph.__get_relative_shape_offsets__` (grid.py lines 198-214):
the keys of the sweep from `(0,0)` by `(x_off, y_off)` over `[0, 1]`. -/
def get_relative_shape_offsets (sqrtFn : ℚ → ℚ) (shape : List (ℚ × ℚ))
    (x_off y_off : Int) : List (Int × Int) :=
  (moving_shape_overlap_intervals sqrtFn 0 0 (x_off : ℚ) (y_off : ℚ)
    0 1 shape 1).map Prod.fst

/-- One cell of the intermediate `graph_matrix`: a Python dict keyed by
absolute target coordinates. -/
abbrev GCell : Type := List ((Int × Int) × ℚ)

/-- The `graph_matrix` of `__create_graph__`: `y_size` rows of `x_size`
cells. -/
abbrev GMatrix : Type := List (List GCell)

/-- The connection fill of `__create_graph__` (grid.py lines 238-248). -/
def gridMatrixInit (xs ys : Int) (conn : List (Int × Int × ℚ)) : GMatrix :=
  (intRange 0 ys).map (fun y =>
    (intRange 0 xs).map (fun x =>
      conn.foldl
        (fun d e =>
          if 0 ≤ x + e.1 ∧ x + e.1 < xs ∧ 0 ≤ y + e.2.1 ∧ y + e.2.1 < ys then
            pdictSet (x + e.1, y + e.2.1) e.2.2 d
          else d)
        []))

/-- `graph_matrix[y][x] = c` (grid.py line 265).  The verified runs only
index in range (the failing branch keeps the matrix; Python would raise). -/
def matSetCell (m : GMatrix) (x y : Int) (c : GCell) : GMatrix :=
  match m[y.toNat]? with
  | some row => m.set y.toNat (row.set x.toNat c)
  | none => m

/-- `graph_matrix[y][x].pop(k, None)` (grid.py lines 275-277); the call
sites guard `0 <= x < x_size and 0 <= y < y_size` so the lookups are in
range. -/
def matPopKey (m : GMatrix) (x y : Int) (k : Int × Int) : GMatrix :=
  match m[y.toNat]? with
  | some row =>
      match row[x.toNat]? with
      | some cell => m.set y.toNat (row.set x.toNat (pdictPop k cell))
      | none => m
  | none => m

/-- The offset pops for one block (grid.py lines 268-277). -/
def blockPops (xs ys : Int) (dos : List ((Int × Int) × List (Int × Int)))
    (m : GMatrix) (b : Int × Int) : GMatrix :=
  dos.foldl
    (fun m1 de =>
      de.2.foldl
        (fun m2 off =>
          if 0 ≤ b.1 - off.1 ∧ b.1 - off.1 < xs ∧
              0 ≤ b.2 - off.2 ∧ b.2 - off.2 < ys then
            matPopKey m2 (b.1 - off.1) (b.2 - off.2)
              (b.1 - off.1 + de.1.1, b.2 - off.2 + de.1.2)
          else m2)
        m1)
    m

/-- The block loop of `__create_graph__` (grid.py lines 263-277): clear the
blocked cell, then pop every connection swept over the block. -/
def gridBlockStage (xs ys : Int)
    (dos : List ((Int × Int) × List (Int × Int)))
    (blocks : List (Int × Int)) (m : GMatrix) : GMatrix :=
  blocks.foldl (fun m1 b => blockPops xs ys dos (matSetCell m1 b.1 b.2 []) b) m

/-- The `delta_offsets` dict of `__create_graph__` (grid.py lines 255-260). -/
def deltaOffsets (sqrtFn : ℚ → ℚ) (shape : List (ℚ × ℚ))
    (conn : List (Int × Int × ℚ)) : List ((Int × Int) × List (Int × Int)) :=
  conn.foldl
    (fun d e =>
      pdictSet (e.1, e.2.1) (get_relative_shape_offsets sqrtFn shape e.1 e.2.1)
        d)
    []

/-- Flattening one cell (grid.py lines 285-290): re-key each target
coordinate by `__get_idx__(x, y) = x + y * x_size`. -/
def gridFlattenCell (xs : Int) (c : GCell) : Adj :=
  c.map (fun kv => ((kv.1.1 + kv.1.2 * xs).toNat, kv.2))

/-- `GridGraph.__create_graph__` (grid.py lines 216-292): fill, block out,
flatten row-major. -/
def gridCreateGraph (sqrtFn : ℚ → ℚ) (xs ys : Int)
    (blocks : List (Int × Int)) (shape : List (ℚ × ℚ))
    (conn : List (Int × Int × ℚ)) : SGraph :=
  ((gridBlockStage xs ys (deltaOffsets sqrtFn shape conn) blocks
      (gridMatrixInit xs ys conn)).flatMap id).map (gridFlattenCell xs)

/-- The default unit-square shape (grid.py line 85). -/
def defaultShape : List (ℚ × ℚ) := [(0, 0), (0, 1), (1, 0), (1, 1)]

/-- The float literal `1.4142` of grid.py line 91, as an exact decimal. -/
def sqrt_2 : ℚ := 14142 / 10000

/-- The default `conn_data` (grid.py lines 92-101). -/
def defaultConnData : List (Int × Int × ℚ) :=
  [(-1, -1, sqrt_2), (-1, 0, 1), (-1, 1, sqrt_2), (0, -1, 1),
   (0, 1, 1), (1, -1, sqrt_2), (1, 0, 1), (1, 1, sqrt_2)]

/-- A single step of a grid path, from node id `u` to node id `v`, leaves
every blocked cell untouched: no cell of the bounding box spanned by the
source and target cells -- for the default data this is exactly the swept
area of the moving unit square, and it contains both endpoint cells -- is a
block.  Cells are decoded row-major: `x = id mod x_size`,
`y = id div x_size`. -/
def gridStepFree (xs : Int) (blocks : List (Int × Int)) (u v : Nat) : Prop :=
  ∀ a ∈ [(u : Int) % xs, (v : Int) % xs],
    ∀ b ∈ [(u : Int) / xs, (v : Int) / xs], (a, b) ∉ blocks

/-- Every node of the path sits on an unblocked cell and every step (in
particular every diagonal step) sweeps no blocked cell. -/
def gridPathFree (xs : Int) (blocks : List (Int × Int)) : List Nat → Prop
  | [] => True
  | [u] => ((u : Int) % xs, (u : Int) / xs) ∉ blocks
  | u :: v :: t => gridStepFree xs blocks u v ∧ gridPathFree xs blocks (v :: t)

/-- Evaluation of the extreme-vertex scan for the default square and slope
`1` (the diagonals `(1,1)` and `(-1,-1)`): the first minimal projection is
the vertex `(0,1)`, the first maximal one `(1,0)`, and a positive slope
returns them swapped. -/
theorem find_extreme_slope_one (s : ℚ → ℚ) (hs : 0 < s 2) :
    find_extreme_orthogonal_vertices_simplified s
      [(0, 0), (0, 1), (1, 0), (1, 1)] 1 = ((1, 0), (0, 1)) := by
  have h2 : (1 + (-1 / 1 : ℚ) ^ 2) = 2 := by norm_num
  simp only [find_extreme_orthogonal_vertices_simplified, h2, List.map]
  have hL : (0 : ℚ) < s 2 := hs
  have e0 : (0 : ℚ) * 1 / s 2 + 0 * (-1 / 1) / s 2 = 0 := by ring
  have e1 : (0 : ℚ) * 1 / s 2 + 1 * (-1 / 1) / s 2 = -(s 2)⁻¹ := by ring
  have e2 : (1 : ℚ) * 1 / s 2 + 0 * (-1 / 1) / s 2 = (s 2)⁻¹ := by ring
  have e3 : (1 : ℚ) * 1 / s 2 + 1 * (-1 / 1) / s 2 = 0 := by ring
  rw [e0, e1, e2, e3]
  have hpos : (0 : ℚ) < (s 2)⁻¹ := inv_pos.mpr hL
  have hmin : argmin [0, -(s 2)⁻¹, (s 2)⁻¹, 0] = 1 := by
    simp only [argmin, argminFrom]
    rw [if_pos (by linarith : -(s 2)⁻¹ < (0 : ℚ)),
      if_neg (by linarith : ¬ (s 2)⁻¹ < -(s 2)⁻¹),
      if_neg (by linarith : ¬ (0 : ℚ) < -(s 2)⁻¹)]
  have hmax : argmax [0, -(s 2)⁻¹, (s 2)⁻¹, 0] = 2 := by
    simp only [argmax, argmaxFrom]
    rw [if_neg (by linarith : ¬ (0 : ℚ) < -(s 2)⁻¹),
      if_pos (by linarith : (0 : ℚ) < (s 2)⁻¹),
      if_neg (by linarith : ¬ (s 2)⁻¹ < (0 : ℚ))]
  rw [hmin, hmax]
  norm_num

/-- Evaluation of the extreme-vertex scan for the default square and slope
`-1` (the diagonals `(1,-1)` and `(-1,1)`). -/
theorem find_extreme_slope_negone (s : ℚ → ℚ) (hs : 0 < s 2) :
    find_extreme_orthogonal_vertices_simplified s
      [(0, 0), (0, 1), (1, 0), (1, 1)] (-1) = ((0, 0), (1, 1)) := by
  have h2 : (1 + (-1 / -1 : ℚ) ^ 2) = 2 := by norm_num
  simp only [find_extreme_orthogonal_vertices_simplified, h2, List.map]
  have hL : (0 : ℚ) < s 2 := hs
  have e0 : (0 : ℚ) * 1 / s 2 + 0 * (-1 / -1) / s 2 = 0 := by ring
  have e1 : (0 : ℚ) * 1 / s 2 + 1 * (-1 / -1) / s 2 = (s 2)⁻¹ := by ring
  have e2 : (1 : ℚ) * 1 / s 2 + 0 * (-1 / -1) / s 2 = (s 2)⁻¹ := by ring
  have e3 : (1 : ℚ) * 1 / s 2 + 1 * (-1 / -1) / s 2 = 2 * (s 2)⁻¹ := by ring
  rw [e0, e1, e2, e3]
  have hpos : (0 : ℚ) < (s 2)⁻¹ := inv_pos.mpr hL
  have hmin : argmin [0, (s 2)⁻¹, (s 2)⁻¹, 2 * (s 2)⁻¹] = 0 := by
    simp only [argmin, argminFrom]
    rw [if_neg (by linarith : ¬ (s 2)⁻¹ < (0 : ℚ)),
      if_neg (by linarith : ¬ (s 2)⁻¹ < (0 : ℚ)),
      if_neg (by linarith : ¬ 2 * (s 2)⁻¹ < (0 : ℚ))]
  have hmax : argmax [0, (s 2)⁻¹, (s 2)⁻¹, 2 * (s 2)⁻¹] = 3 := by
    simp only [argmax, argmaxFrom]
    rw [if_pos (by linarith : (0 : ℚ) < (s 2)⁻¹),
      if_neg (by linarith : ¬ (s 2)⁻¹ < (s 2)⁻¹),
      if_pos (by linarith : (s 2)⁻¹ < 2 * (s 2)⁻¹)]
  rw [hmin, hmax]
  norm_num

/-- Sweep offsets of the cardinal move `(-1, 0)` for the default square. -/
theorem offsets_m0 (s : ℚ → ℚ) :
    get_relative_shape_offsets s defaultShape (-1) 0 = [(-1, 0), (0, 0)] := by
  rfl

/-- Sweep offsets of the cardinal move `(1, 0)` for the default square. -/
theorem offsets_p0 (s : ℚ → ℚ) :
    get_relative_shape_offsets s defaultShape 1 0 = [(0, 0), (1, 0)] := by
  rfl

/-- Sweep offsets of the cardinal move `(0, -1)` for the default square. -/
theorem offsets_0m (s : ℚ → ℚ) :
    get_relative_shape_offsets s defaultShape 0 (-1) = [(0, -1), (0, 0)] := by
  rfl

/-- Sweep offsets of the cardinal move `(0, 1)` for the default square. -/
theorem offsets_0p (s : ℚ → ℚ) :
    get_relative_shape_offsets s defaultShape 0 1 = [(0, 0), (0, 1)] := by
  rfl

/-- Sweep offsets of the diagonal move `(1, 1)` for the default square: the
interval trim removes nothing, leaving all four cells of the bounding box. -/
theorem offsets_pp (s : ℚ → ℚ) (hs : 0 < s 2) :
    get_relative_shape_offsets s defaultShape 1 1 =
      [(0, 0), (0, 1), (1, 0), (1, 1)] := by
  have key : get_relative_shape_offsets s defaultShape 1 1 =
      (remove_untouched_intervals s
        [((0, 0), (0, 1)), ((0, 1), (0, 1)), ((1, 0), (0, 1)),
         ((1, 1), (0, 1))] 1 [(0, 0), (0, 1), (1, 0), (1, 1)]).map
        Prod.fst := rfl
  rw [key]
  have hru : remove_untouched_intervals s
      [((0, 0), (0, 1)), ((0, 1), (0, 1)), ((1, 0), (0, 1)),
       ((1, 1), (0, 1))] 1 [(0, 0), (0, 1), (1, 0), (1, 1)] =
      [((0, 0), (0, 1)), ((0, 1), (0, 1)), ((1, 0), (0, 1)),
       ((1, 1), (0, 1))] := by
    simp only [remove_untouched_intervals, find_extreme_slope_one s hs]
    decide
  rw [hru]
  decide

/-- Sweep offsets of the diagonal move `(-1, -1)` for the default square. -/
theorem offsets_mm (s : ℚ → ℚ) (hs : 0 < s 2) :
    get_relative_shape_offsets s defaultShape (-1) (-1) =
      [(-1, -1), (-1, 0), (0, -1), (0, 0)] := by
  have key : get_relative_shape_offsets s defaultShape (-1) (-1) =
      (remove_untouched_intervals s
        [((-1, -1), (0, 1)), ((-1, 0), (0, 1)), ((0, -1), (0, 1)),
         ((0, 0), (0, 1))] 1 [(0, 0), (0, 1), (1, 0), (1, 1)]).map
        Prod.fst := rfl
  rw [key]
  have hru : remove_untouched_intervals s
      [((-1, -1), (0, 1)), ((-1, 0), (0, 1)), ((0, -1), (0, 1)),
       ((0, 0), (0, 1))] 1 [(0, 0), (0, 1), (1, 0), (1, 1)] =
      [((-1, -1), (0, 1)), ((-1, 0), (0, 1)), ((0, -1), (0, 1)),
       ((0, 0), (0, 1))] := by
    simp only [remove_untouched_intervals, find_extreme_slope_one s hs]
    decide
  rw [hru]
  decide

/-- Sweep offsets of the diagonal move `(1, -1)` for the default square. -/
theorem offsets_pm (s : ℚ → ℚ) (hs : 0 < s 2) :
    get_relative_shape_offsets s defaultShape 1 (-1) =
      [(0, -1), (0, 0), (1, -1), (1, 0)] := by
  have key : get_relative_shape_offsets s defaultShape 1 (-1) =
      (remove_untouched_intervals s
        [((0, -1), (0, 1)), ((0, 0), (0, 1)), ((1, -1), (0, 1)),
         ((1, 0), (0, 1))] (-1) [(0, 0), (0, 1), (1, 0), (1, 1)]).map
        Prod.fst := rfl
  rw [key]
  have hru : remove_untouched_intervals s
      [((0, -1), (0, 1)), ((0, 0), (0, 1)), ((1, -1), (0, 1)),
       ((1, 0), (0, 1))] (-1) [(0, 0), (0, 1), (1, 0), (1, 1)] =
      [((0, -1), (0, 1)), ((0, 0), (0, 1)), ((1, -1), (0, 1)),
       ((1, 0), (0, 1))] := by
    simp only [remove_untouched_intervals, find_extreme_slope_negone s hs]
    decide
  rw [hru]
  decide

/-- Sweep offsets of the diagonal move `(-1, 1)` for the default square. -/
theorem offsets_mp (s : ℚ → ℚ) (hs : 0 < s 2) :
    get_relative_shape_offsets s defaultShape (-1) 1 =
      [(-1, 0), (-1, 1), (0, 0), (0, 1)] := by
  have key : get_relative_shape_offsets s defaultShape (-1) 1 =
      (remove_untouched_intervals s
        [((-1, 0), (0, 1)), ((-1, 1), (0, 1)), ((0, 0), (0, 1)),
         ((0, 1), (0, 1))] (-1) [(0, 0), (0, 1), (1, 0), (1, 1)]).map
        Prod.fst := rfl
  rw [key]
  have hru : remove_untouched_intervals s
      [((-1, 0), (0, 1)), ((-1, 1), (0, 1)), ((0, 0), (0, 1)),
       ((0, 1), (0, 1))] (-1) [(0, 0), (0, 1), (1, 0), (1, 1)] =
      [((-1, 0), (0, 1)), ((-1, 1), (0, 1)), ((0, 0), (0, 1)),
       ((0, 1), (0, 1))] := by
    simp only [remove_untouched_intervals, find_extreme_slope_negone s hs]
    decide
  rw [hru]
  decide

/-- The concrete `delta_offsets` dictionary for the default data. -/
def dosDefault : List ((Int × Int) × List (Int × Int)) :=
  [((-1, -1), [(-1, -1), (-1, 0), (0, -1), (0, 0)]),
   ((-1, 0), [(-1, 0), (0, 0)]),
   ((-1, 1), [(-1, 0), (-1, 1), (0, 0), (0, 1)]),
   ((0, -1), [(0, -1), (0, 0)]),
   ((0, 1), [(0, 0), (0, 1)]),
   ((1, -1), [(0, -1), (0, 0), (1, -1), (1, 0)]),
   ((1, 0), [(0, 0), (1, 0)]),
   ((1, 1), [(0, 0), (0, 1), (1, 0), (1, 1)])]

/-- The `delta_offsets` dict of `__create_graph__` evaluated for the default
shape and connection data. -/
theorem deltaOffsets_default (s : ℚ → ℚ) (hs : 0 < s 2) :
    deltaOffsets s defaultShape defaultConnData = dosDefault := by
  simp only [deltaOffsets, defaultConnData, List.foldl]
  rw [offsets_mm s hs, offsets_m0 s, offsets_mp s hs, offsets_0m s,
    offsets_0p s, offsets_pm s hs, offsets_p0 s, offsets_pp s hs]
  decide

/-- Membership after a polymorphic dict write. -/
theorem pdictSet_mem {κ ν : Type} [DecidableEq κ] {k : κ} {v : ν}
    {kv : κ × ν} : ∀ {d : List (κ × ν)},
    kv ∈ pdictSet k v d → kv = (k, v) ∨ kv ∈ d
  | [], h => by
      simp only [pdictSet, List.mem_cons, List.not_mem_nil, or_false] at h
      exact Or.inl h
  | (k2, v2) :: t, h => by
      unfold pdictSet at h
      by_cases he : k2 = k
      · rw [if_pos he] at h
        rcases List.mem_cons.mp h with h1 | h1
        · subst he
          exact Or.inl h1
        · exact Or.inr (List.mem_cons_of_mem _ h1)
      · rw [if_neg he] at h
        rcases List.mem_cons.mp h with h1 | h1
        · exact Or.inr (h1 ▸ List.mem_cons_self _ _)
        · rcases pdictSet_mem h1 with h2 | h2
          · exact Or.inl h2
          · exact Or.inr (List.mem_cons_of_mem _ h2)

/-- Keys after a polymorphic dict write. -/
theorem pdictSet_keys {κ ν : Type} [DecidableEq κ] {k k2 : κ} {v : ν} :
    ∀ {d : List (κ × ν)},
    k2 ∈ (pdictSet k v d).map Prod.fst → k2 = k ∨ k2 ∈ d.map Prod.fst := by
  intro d h
  rcases List.mem_map.mp h with ⟨kv, hm, he⟩
  rcases pdictSet_mem hm with h1 | h1
  · subst h1
    exact Or.inl he.symm
  · exact Or.inr (he ▸ List.mem_map.mpr ⟨kv, h1, rfl⟩)

/-- A dict write keeps the keys distinct. -/
theorem pdictSet_keys_nodup {κ ν : Type} [DecidableEq κ] {k : κ} {v : ν} :
    ∀ {d : List (κ × ν)}, (d.map Prod.fst).Nodup →
    ((pdictSet k v d).map Prod.fst).Nodup
  | [], _ => by simp [pdictSet]
  | (k2, v2) :: t, hnd => by
      rw [List.map_cons, List.nodup_cons] at hnd
      unfold pdictSet
      by_cases he : k2 = k
      · rw [if_pos he, List.map_cons, List.nodup_cons]
        exact hnd
      · rw [if_neg he, List.map_cons, List.nodup_cons]
        refine ⟨fun hin => ?_, pdictSet_keys_nodup hnd.2⟩
        rcases pdictSet_keys hin with h1 | h1
        · exact he h1
        · exact hnd.1 h1

/-- A dict pop only drops entries. -/
theorem pdictPop_subset {κ ν : Type} [DecidableEq κ] {k : κ} {kv : κ × ν} :
    ∀ {d : List (κ × ν)}, kv ∈ pdictPop k d → kv ∈ d
  | [], h => by simp [pdictPop] at h
  | (k2, v2) :: t, h => by
      unfold pdictPop at h
      by_cases he : k2 = k
      · rw [if_pos he] at h
        exact List.mem_cons_of_mem _ h
      · rw [if_neg he] at h
        rcases List.mem_cons.mp h with h1 | h1
        · exact h1 ▸ List.mem_cons_self _ _
        · exact List.mem_cons_of_mem _ (pdictPop_subset h1)

/-- A dict pop keeps the keys distinct. -/
theorem pdictPop_keys_nodup {κ ν : Type} [DecidableEq κ] {k : κ} :
    ∀ {d : List (κ × ν)}, (d.map Prod.fst).Nodup →
    ((pdictPop k d).map Prod.fst).Nodup
  | [], _ => by simp [pdictPop]
  | (k2, v2) :: t, hnd => by
      rw [List.map_cons, List.nodup_cons] at hnd
      unfold pdictPop
      by_cases he : k2 = k
      · rw [if_pos he]
        exact hnd.2
      · rw [if_neg he, List.map_cons, List.nodup_cons]
        refine ⟨fun hin => ?_, pdictPop_keys_nodup hnd.2⟩
        rcases List.mem_map.mp hin with ⟨kv, hm, hke⟩
        exact hnd.1 (hke ▸ List.mem_map.mpr ⟨kv, pdictPop_subset hm, rfl⟩)

/-- On a dict with distinct keys, popping `k` removes every `k`-entry. -/
theorem pdictPop_not_mem {κ ν : Type} [DecidableEq κ] {k : κ} {w : ν} :
    ∀ {d : List (κ × ν)}, (d.map Prod.fst).Nodup →
    (k, w) ∉ pdictPop k d
  | [], _, h => by simp [pdictPop] at h
  | (k2, v2) :: t, hnd, h => by
      rw [List.map_cons, List.nodup_cons] at hnd
      unfold pdictPop at h
      by_cases he : k2 = k
      · rw [if_pos he] at h
        exact hnd.1 (he ▸ List.mem_map.mpr ⟨(k, w), h, rfl⟩)
      · rw [if_neg he] at h
        rcases List.mem_cons.mp h with h1 | h1
        · exact he (congrArg Prod.fst h1).symm
        · exact pdictPop_not_mem hnd.2 h1

/-- Entry `kv` is present in the matrix cell at column `xn`, row `yn`. -/
def matMem (m : GMatrix) (xn yn : Nat) (kv : (Int × Int) × ℚ) : Prop :=
  ∃ row cell, m[yn]? = some row ∧ row[xn]? = some cell ∧ kv ∈ cell

/-- Every cell of the matrix is a dict with distinct keys. -/
def MatKeysND (m : GMatrix) : Prop :=
  ∀ row ∈ m, ∀ cell ∈ row, (cell.map Prod.fst).Nodup

/-- A cleared cell only loses entries: membership after
`graph_matrix[y][x] = c` comes from the old matrix or from `c`. -/
theorem matMem_matSetCell_elim {m : GMatrix} {x y : Int} {c : GCell}
    {xn yn : Nat} {kv : (Int × Int) × ℚ}
    (h : matMem (matSetCell m x y c) xn yn kv) :
    matMem m xn yn kv ∨ (kv ∈ c ∧ xn = x.toNat ∧ yn = y.toNat) := by
  unfold matSetCell at h
  cases hrow : m[y.toNat]? with
  | none => simp only [hrow] at h; exact Or.inl h
  | some row =>
      simp only [hrow] at h
      obtain ⟨row2, cell2, hr2, hc2, hm2⟩ := h
      by_cases hy : y.toNat = yn
      · subst hy
        rw [List.getElem?_set_self
            (List.getElem?_eq_some_iff.mp hrow).1] at hr2
        injection hr2 with hr2
        subst hr2
        by_cases hx : x.toNat = xn
        · subst hx
          by_cases hxl : x.toNat < row.length
          · rw [List.getElem?_set_self hxl] at hc2
            injection hc2 with hc2
            subst hc2
            exact Or.inr ⟨hm2, rfl, rfl⟩
          · rw [List.set_eq_of_length_le (Nat.le_of_not_lt hxl)] at hc2
            exact Or.inl ⟨row, cell2, hrow, hc2, hm2⟩
        · rw [List.getElem?_set_ne hx] at hc2
          exact Or.inl ⟨row, cell2, hrow, hc2, hm2⟩
      · rw [List.getElem?_set_ne hy] at hr2
        exact Or.inl ⟨row2, cell2, hr2, hc2, hm2⟩

/-- A pop only loses entries. -/
theorem matMem_matPopKey_elim {m : GMatrix} {x y : Int} {k : Int × Int}
    {xn yn : Nat} {kv : (Int × Int) × ℚ}
    (h : matMem (matPopKey m x y k) xn yn kv) : matMem m xn yn kv := by
  unfold matPopKey at h
  cases hrow : m[y.toNat]? with
  | none => simp only [hrow] at h; exact h
  | some row =>
      simp only [hrow] at h
      cases hcell : row[x.toNat]? with
      | none => simp only [hcell] at h; exact h
      | some cell =>
          simp only [hcell] at h
          rcases matMem_matSetCell_elim
              (show matMem (matSetCell m x y (pdictPop k cell)) xn yn kv by
                unfold matSetCell
                simp only [hrow]
                exact h) with h1 | ⟨h1, hxe, hye⟩
          · exact h1
          · subst hxe
            subst hye
            exact ⟨row, cell, hrow, hcell, pdictPop_subset h1⟩

/-- Folding entry-losing operations loses entries. -/
theorem matMem_foldl_elim {α : Type} {f : GMatrix → α → GMatrix}
    (hf : ∀ m a {xn yn kv}, matMem (f m a) xn yn kv → matMem m xn yn kv) :
    ∀ (l : List α) (m : GMatrix) {xn yn : Nat} {kv : (Int × Int) × ℚ},
    matMem (l.foldl f m) xn yn kv → matMem m xn yn kv
  | [], _, _, _, _, h => h
  | a :: t, m, _, _, _, h => hf m a (matMem_foldl_elim hf t (f m a) h)

/-- The pops for one block only lose entries. -/
theorem matMem_blockPops_elim {xs ys : Int}
    {dos : List ((Int × Int) × List (Int × Int))} {m : GMatrix}
    {b : Int × Int} {xn yn : Nat} {kv : (Int × Int) × ℚ}
    (h : matMem (blockPops xs ys dos m b) xn yn kv) : matMem m xn yn kv := by
  refine matMem_foldl_elim ?_ dos m h
  intro m1 de xn2 yn2 kv2 h2
  refine matMem_foldl_elim ?_ de.2 m1 h2
  intro m2 off xn3 yn3 kv3 h3
  by_cases hif : 0 ≤ b.1 - off.1 ∧ b.1 - off.1 < xs ∧
      0 ≤ b.2 - off.2 ∧ b.2 - off.2 < ys
  · rw [if_pos hif] at h3
    exact matMem_matPopKey_elim h3
  · rw [if_neg hif] at h3
    exact h3

/-- The whole block stage only loses entries. -/
theorem matMem_gridBlockStage_elim {xs ys : Int}
    {dos : List ((Int × Int) × List (Int × Int))}
    {blocks : List (Int × Int)} {m : GMatrix} {xn yn : Nat}
    {kv : (Int × Int) × ℚ}
    (h : matMem (gridBlockStage xs ys dos blocks m) xn yn kv) :
    matMem m xn yn kv := by
  refine matMem_foldl_elim ?_ blocks m h
  intro m1 b xn2 yn2 kv2 h2
  rcases matMem_matSetCell_elim (matMem_blockPops_elim h2) with h3 | ⟨h3, _, _⟩
  · exact h3
  · exact absurd h3 (List.not_mem_nil _)

/-- Writing one cell whose keys are distinct keeps `MatKeysND`. -/
theorem MatKeysND_matSetCell {m : GMatrix} {x y : Int} {c : GCell}
    (hnd : MatKeysND m) (hc : (c.map Prod.fst).Nodup) :
    MatKeysND (matSetCell m x y c) := by
  unfold matSetCell
  cases hrow : m[y.toNat]? with
  | none => exact hnd
  | some row =>
      intro row2 hrow2 cell2 hcell2
      rcases List.mem_or_eq_of_mem_set hrow2 with h1 | h1
      · exact hnd row2 h1 cell2 hcell2
      · subst h1
        rcases List.mem_or_eq_of_mem_set hcell2 with h2 | h2
        · exact hnd row (List.getElem?_mem hrow) cell2 h2
        · subst h2
          exact hc

/-- Popping a key keeps `MatKeysND`. -/
theorem MatKeysND_matPopKey {m : GMatrix} {x y : Int} {k : Int × Int}
    (hnd : MatKeysND m) : MatKeysND (matPopKey m x y k) := by
  unfold matPopKey
  cases hrow : m[y.toNat]? with
  | none => exact hnd
  | some row =>
      cases hcell : row[x.toNat]? with
      | none => simp only [hcell]; exact hnd
      | some cell =>
          have hset : MatKeysND (matSetCell m x y (pdictPop k cell)) :=
            MatKeysND_matSetCell hnd
              (pdictPop_keys_nodup
                (hnd row (List.getElem?_mem hrow) cell
                  (List.getElem?_mem hcell)))
          unfold matSetCell at hset
          simp only [hrow] at hset
          simp only [hcell]
          exact hset

/-- Folding `MatKeysND`-preserving operations preserves `MatKeysND`. -/
theorem MatKeysND_foldl {α : Type} {f : GMatrix → α → GMatrix}
    (hf : ∀ m a, MatKeysND m → MatKeysND (f m a)) :
    ∀ (l : List α) (m : GMatrix), MatKeysND m → MatKeysND (l.foldl f m)
  | [], _, h => h
  | a :: t, m, h => MatKeysND_foldl hf t (f m a) (hf m a h)

/-- The pops for one block keep `MatKeysND`. -/
theorem MatKeysND_blockPops {xs ys : Int}
    {dos : List ((Int × Int) × List (Int × Int))} {m : GMatrix}
    {b : Int × Int} (hnd : MatKeysND m) :
    MatKeysND (blockPops xs ys dos m b) := by
  refine MatKeysND_foldl ?_ dos m hnd
  intro m1 de h1
  refine MatKeysND_foldl ?_ de.2 m1 h1
  intro m2 off h2
  by_cases hif : 0 ≤ b.1 - off.1 ∧ b.1 - off.1 < xs ∧
      0 ≤ b.2 - off.2 ∧ b.2 - off.2 < ys
  · rw [if_pos hif]
    exact MatKeysND_matPopKey h2
  · rw [if_neg hif]
    exact h2

/-- The whole block stage keeps `MatKeysND`. -/
theorem MatKeysND_gridBlockStage {xs ys : Int}
    {dos : List ((Int × Int) × List (Int × Int))}
    {blocks : List (Int × Int)} {m : GMatrix} (hnd : MatKeysND m) :
    MatKeysND (gridBlockStage xs ys dos blocks m) := by
  refine MatKeysND_foldl ?_ blocks m hnd
  intro m1 b h1
  exact MatKeysND_blockPops (MatKeysND_matSetCell h1 (by simp))

/-- Reading Python `range(a, b)` at an index. -/
theorem intRange_get {a b : Int} {i : Nat} {x : Int}
    (h : (intRange a b)[i]? = some x) : x = a + i ∧ i < (b - a).toNat := by
  unfold intRange at h
  rw [List.getElem?_map] at h
  cases hr : (List.range (b - a).toNat)[i]? with
  | none => rw [hr] at h; simp at h
  | some j =>
      rw [hr] at h
      have hi : i < (b - a).toNat := by
        by_contra hge
        rw [List.getElem?_eq_none (by simpa [Nat.le_of_not_lt] using hge)]
          at hr
        exact Option.noConfusion hr
      rw [List.getElem?_range hi] at hr
      injection hr with hr
      injection h with h
      subst hr
      exact ⟨h.symm, hi⟩

/-- Length of Python `range(a, b)`. -/
theorem intRange_length (a b : Int) : (intRange a b).length = (b - a).toNat := by
  unfold intRange
  rw [List.length_map, List.length_range]

/-- Both dimensions of the freshly filled matrix. -/
theorem gridMatrixInit_shape (xs ys : Int) (conn : List (Int × Int × ℚ)) :
    (gridMatrixInit xs ys conn).length = (ys - 0).toNat ∧
    ∀ row ∈ gridMatrixInit xs ys conn, row.length = (xs - 0).toNat := by
  constructor
  · unfold gridMatrixInit
    rw [List.length_map, intRange_length]
  · intro row hrow
    unfold gridMatrixInit at hrow
    rcases List.mem_map.mp hrow with ⟨y, _, he⟩
    subst he
    rw [List.length_map, intRange_length]

/-- Folding key-distinctness-preserving dict operations. -/
theorem foldl_pdict_keys_nodup {κ ν α : Type} [DecidableEq κ]
    {g : List (κ × ν) → α → List (κ × ν)}
    (hg : ∀ d a, (d.map Prod.fst).Nodup → ((g d a).map Prod.fst).Nodup) :
    ∀ (l : List α) (d : List (κ × ν)), (d.map Prod.fst).Nodup →
    ((l.foldl g d).map Prod.fst).Nodup
  | [], _, h => h
  | a :: t, d, h => foldl_pdict_keys_nodup hg t (g d a) (hg d a h)

/-- Every cell of the freshly filled matrix has distinct keys. -/
theorem gridMatrixInit_keysND (xs ys : Int) (conn : List (Int × Int × ℚ)) :
    MatKeysND (gridMatrixInit xs ys conn) := by
  intro row hrow cell hcell
  unfold gridMatrixInit at hrow
  rcases List.mem_map.mp hrow with ⟨y, _, he⟩
  subst he
  rcases List.mem_map.mp hcell with ⟨x, _, he2⟩
  subst he2
  refine foldl_pdict_keys_nodup ?_ conn [] (by simp)
  intro d e hd
  by_cases hif : 0 ≤ x + e.1 ∧ x + e.1 < xs ∧ 0 ≤ y + e.2.1 ∧ y + e.2.1 < ys
  · rw [if_pos hif]
    exact pdictSet_keys_nodup hd
  · rw [if_neg hif]
    exact hd

/-- Provenance of an entry of the connection fill at fixed coordinates. -/
theorem mem_foldl_condSet {x y xs ys : Int} :
    ∀ (conn : List (Int × Int × ℚ)) (d : GCell) {kv : (Int × Int) × ℚ},
    kv ∈ conn.foldl
      (fun d e =>
        if 0 ≤ x + e.1 ∧ x + e.1 < xs ∧ 0 ≤ y + e.2.1 ∧ y + e.2.1 < ys then
          pdictSet (x + e.1, y + e.2.1) e.2.2 d
        else d)
      d →
    kv ∈ d ∨ ∃ e ∈ conn, kv = ((x + e.1, y + e.2.1), e.2.2) ∧
      0 ≤ x + e.1 ∧ x + e.1 < xs ∧ 0 ≤ y + e.2.1 ∧ y + e.2.1 < ys
  | [], d, kv, h => Or.inl h
  | e :: t, d, kv, h => by
      rcases mem_foldl_condSet t _ h with h1 | ⟨e2, he2, hkv, hb⟩
      · beta_reduce at h1
        by_cases hif : 0 ≤ x + e.1 ∧ x + e.1 < xs ∧
            0 ≤ y + e.2.1 ∧ y + e.2.1 < ys
        · rw [if_pos hif] at h1
          rcases pdictSet_mem h1 with h2 | h2
          · exact Or.inr ⟨e, List.mem_cons_self _ _, h2, hif⟩
          · exact Or.inl h2
        · rw [if_neg hif] at h1
          exact Or.inl h1
      · exact Or.inr ⟨e2, List.mem_cons_of_mem _ he2, hkv, hb⟩

/-- Provenance of a matrix entry after the fill stage: the key is the
absolute target of some connection delta whose target is in bounds. -/
theorem gridMatrixInit_mem {xs ys : Int} {conn : List (Int × Int × ℚ)}
    {xn yn : Nat} {kv : (Int × Int) × ℚ}
    (h : matMem (gridMatrixInit xs ys conn) xn yn kv) :
    ∃ e ∈ conn, kv = (((xn : Int) + e.1, (yn : Int) + e.2.1), e.2.2) ∧
      0 ≤ (xn : Int) + e.1 ∧ (xn : Int) + e.1 < xs ∧
      0 ≤ (yn : Int) + e.2.1 ∧ (yn : Int) + e.2.1 < ys := by
  obtain ⟨row, cell, hrow, hcell, hm⟩ := h
  unfold gridMatrixInit at hrow
  rw [List.getElem?_map] at hrow
  cases hyr : (intRange 0 ys)[yn]? with
  | none => rw [hyr] at hrow; simp at hrow
  | some y =>
      rw [hyr] at hrow
      injection hrow with hrow
      obtain ⟨hy, _⟩ := intRange_get hyr
      subst hrow
      rw [List.getElem?_map] at hcell
      cases hxr : (intRange 0 xs)[xn]? with
      | none => rw [hxr] at hcell; simp at hcell
      | some x =>
          rw [hxr] at hcell
          injection hcell with hcell
          obtain ⟨hx, _⟩ := intRange_get hxr
          subst hcell
          subst hx
          subst hy
          rcases mem_foldl_condSet conn [] hm with h1 | ⟨e, he, hkv, hb⟩
          · exact absurd h1 (List.not_mem_nil _)
          · simp only [zero_add] at hkv hb
            exact ⟨e, he, hkv, hb⟩

/-- Popping key `k` at an in-range position removes every `k`-entry there. -/
theorem matPopKey_kills {m : GMatrix} {x y : Int} {k : Int × Int} {w : ℚ}
    (hnd : MatKeysND m) :
    ¬ matMem (matPopKey m x y k) x.toNat y.toNat (k, w) := by
  intro h
  unfold matPopKey at h
  cases hrow : m[y.toNat]? with
  | none =>
      simp only [hrow] at h
      obtain ⟨row2, cell2, hr2, _, _⟩ := h
      rw [hrow] at hr2
      exact Option.noConfusion hr2
  | some row =>
      simp only [hrow] at h
      cases hcell : row[x.toNat]? with
      | none =>
          simp only [hcell] at h
          obtain ⟨row2, cell2, hr2, hc2, _⟩ := h
          rw [hrow] at hr2
          injection hr2 with hr2
          subst hr2
          rw [hcell] at hc2
          exact Option.noConfusion hc2
      | some cell =>
          simp only [hcell] at h
          obtain ⟨row2, cell2, hr2, hc2, hm2⟩ := h
          rw [List.getElem?_set_self
              (List.getElem?_eq_some_iff.mp hrow).1] at hr2
          injection hr2 with hr2
          subst hr2
          rw [List.getElem?_set_self
              (List.getElem?_eq_some_iff.mp hcell).1] at hc2
          injection hc2 with hc2
          subst hc2
          exact pdictPop_not_mem
            (hnd row (List.getElem?_mem hrow) cell (List.getElem?_mem hcell))
            hm2

/-- The offset loop for one block kills the connection from `(x, y)` by
`delta` as soon as the block sits at one of the listed offsets from
`(x, y)`. -/
theorem innerPops_kills (xs ys x y : Int) (delta : Int × Int) (w : ℚ)
    (b : Int × Int) (hx0 : 0 ≤ x) (hx1 : x < xs) (hy0 : 0 ≤ y)
    (hy1 : y < ys) :
    ∀ (offs : List (Int × Int)) (m : GMatrix) (off : Int × Int),
      off ∈ offs → b = (x + off.1, y + off.2) → MatKeysND m →
      ¬ matMem
        (offs.foldl
          (fun m2 off =>
            if 0 ≤ b.1 - off.1 ∧ b.1 - off.1 < xs ∧
                0 ≤ b.2 - off.2 ∧ b.2 - off.2 < ys then
              matPopKey m2 (b.1 - off.1) (b.2 - off.2)
                (b.1 - off.1 + delta.1, b.2 - off.2 + delta.2)
            else m2)
          m) x.toNat y.toNat ((x + delta.1, y + delta.2), w) := by
  have helim : ∀ (m2 : GMatrix) (off2 : Int × Int) {xn yn : Nat}
      {kv : (Int × Int) × ℚ},
      matMem
        (if 0 ≤ b.1 - off2.1 ∧ b.1 - off2.1 < xs ∧
            0 ≤ b.2 - off2.2 ∧ b.2 - off2.2 < ys then
          matPopKey m2 (b.1 - off2.1) (b.2 - off2.2)
            (b.1 - off2.1 + delta.1, b.2 - off2.2 + delta.2)
        else m2) xn yn kv → matMem m2 xn yn kv := by
    intro m2 off2 xn yn kv h2
    by_cases hif : 0 ≤ b.1 - off2.1 ∧ b.1 - off2.1 < xs ∧
        0 ≤ b.2 - off2.2 ∧ b.2 - off2.2 < ys
    · rw [if_pos hif] at h2
      exact matMem_matPopKey_elim h2
    · rw [if_neg hif] at h2
      exact h2
  have hnd1 : ∀ (m2 : GMatrix) (off2 : Int × Int), MatKeysND m2 →
      MatKeysND
        (if 0 ≤ b.1 - off2.1 ∧ b.1 - off2.1 < xs ∧
            0 ≤ b.2 - off2.2 ∧ b.2 - off2.2 < ys then
          matPopKey m2 (b.1 - off2.1) (b.2 - off2.2)
            (b.1 - off2.1 + delta.1, b.2 - off2.2 + delta.2)
        else m2) := by
    intro m2 off2 h2
    by_cases hif : 0 ≤ b.1 - off2.1 ∧ b.1 - off2.1 < xs ∧
        0 ≤ b.2 - off2.2 ∧ b.2 - off2.2 < ys
    · rw [if_pos hif]
      exact MatKeysND_matPopKey h2
    · rw [if_neg hif]
      exact h2
  intro offs
  induction offs with
  | nil => intro m off hoff; exact absurd hoff (List.not_mem_nil _)
  | cons o0 t ih =>
      intro m off hoff hbe hnd hmm
      rcases List.mem_cons.mp hoff with heq | ht
      · subst heq
        have hb1 : b.1 - off.1 = x := by rw [hbe]; ring
        have hb2 : b.2 - off.2 = y := by rw [hbe]; ring
        have hdead : ¬ matMem
            (if 0 ≤ b.1 - off.1 ∧ b.1 - off.1 < xs ∧
                0 ≤ b.2 - off.2 ∧ b.2 - off.2 < ys then
              matPopKey m (b.1 - off.1) (b.2 - off.2)
                (b.1 - off.1 + delta.1, b.2 - off.2 + delta.2)
            else m) x.toNat y.toNat ((x + delta.1, y + delta.2), w) := by
          rw [hb1, hb2, if_pos ⟨hx0, hx1, hy0, hy1⟩]
          exact matPopKey_kills hnd
        exact hdead (matMem_foldl_elim helim t _ hmm)
      · exact ih _ off ht hbe (hnd1 m o0 hnd) hmm

/-- Unfolding one step of the offset-pop fold over the delta dictionary. -/
theorem blockPops_cons (xs ys : Int) (d0 : (Int × Int) × List (Int × Int))
    (rest : List ((Int × Int) × List (Int × Int))) (m : GMatrix)
    (b : Int × Int) :
    blockPops xs ys (d0 :: rest) m b =
    blockPops xs ys rest
      (d0.2.foldl
        (fun m2 off =>
          if 0 ≤ b.1 - off.1 ∧ b.1 - off.1 < xs ∧
              0 ≤ b.2 - off.2 ∧ b.2 - off.2 < ys then
            matPopKey m2 (b.1 - off.1) (b.2 - off.2)
              (b.1 - off.1 + d0.1.1, b.2 - off.2 + d0.1.2)
          else m2)
        m) b := rfl

/-- The per-block stage kills the connection from `(x, y)` by `delta`
whenever the block sits at one of the sweep offsets of `delta`. -/
theorem blockPops_kills {xs ys x y : Int} {delta : Int × Int}
    {offs : List (Int × Int)} {off : Int × Int} {w : ℚ}
    (hx0 : 0 ≤ x) (hx1 : x < xs) (hy0 : 0 ≤ y) (hy1 : y < ys)
    (hoff : off ∈ offs) :
    ∀ (dos : List ((Int × Int) × List (Int × Int))) (m : GMatrix),
      (delta, offs) ∈ dos → MatKeysND m →
      ¬ matMem (blockPops xs ys dos m (x + off.1, y + off.2))
        x.toNat y.toNat ((x + delta.1, y + delta.2), w)
  | [], _, hdos, _ => absurd hdos (List.not_mem_nil _)
  | d0 :: rest, m, hdos, hnd => by
      intro hmm
      have hnd1 : ∀ (m1 : GMatrix) (de : (Int × Int) × List (Int × Int)),
          MatKeysND m1 →
          MatKeysND
            (de.2.foldl
              (fun m2 off2 =>
                if 0 ≤ (x + off.1, y + off.2).1 - off2.1 ∧
                    (x + off.1, y + off.2).1 - off2.1 < xs ∧
                    0 ≤ (x + off.1, y + off.2).2 - off2.2 ∧
                    (x + off.1, y + off.2).2 - off2.2 < ys then
                  matPopKey m2 ((x + off.1, y + off.2).1 - off2.1)
                    ((x + off.1, y + off.2).2 - off2.2)
                    ((x + off.1, y + off.2).1 - off2.1 + de.1.1,
                     (x + off.1, y + off.2).2 - off2.2 + de.1.2)
                else m2)
              m1) := by
        intro m1 de h1
        refine MatKeysND_foldl ?_ de.2 m1 h1
        intro m2 off2 h2
        by_cases hif : 0 ≤ (x + off.1, y + off.2).1 - off2.1 ∧
            (x + off.1, y + off.2).1 - off2.1 < xs ∧
            0 ≤ (x + off.1, y + off.2).2 - off2.2 ∧
            (x + off.1, y + off.2).2 - off2.2 < ys
        · rw [if_pos hif]
          exact MatKeysND_matPopKey h2
        · rw [if_neg hif]
          exact h2
      rw [blockPops_cons] at hmm
      rcases List.mem_cons.mp hdos with heq | hrest
      · have hdel : delta = d0.1 := congrArg Prod.fst heq
        have hofm : off ∈ d0.2 := by
          have h2 := congrArg Prod.snd heq
          rw [← h2]
          exact hoff
        rw [hdel] at hmm
        exact innerPops_kills xs ys x y d0.1 w (x + off.1, y + off.2)
          hx0 hx1 hy0 hy1 d0.2 m off hofm rfl hnd
          (matMem_blockPops_elim hmm)
      · exact blockPops_kills hx0 hx1 hy0 hy1 hoff rest _ hrest
          (hnd1 m d0 hnd) hmm

/-- Unfolding one step of the block loop. -/
theorem gridBlockStage_cons (xs ys : Int)
    (dos : List ((Int × Int) × List (Int × Int))) (b0 : Int × Int)
    (rest : List (Int × Int)) (m : GMatrix) :
    gridBlockStage xs ys dos (b0 :: rest) m =
    gridBlockStage xs ys dos rest
      (blockPops xs ys dos (matSetCell m b0.1 b0.2 []) b0) := rfl

/-- Survival through the whole block stage: an entry still present after all
blocks were processed was present initially, and no processed block sits at
any sweep offset of its delta from the source cell. -/
theorem gridBlockStage_survive {xs ys x y : Int}
    {dos : List ((Int × Int) × List (Int × Int))} {delta : Int × Int} {w : ℚ}
    (hx0 : 0 ≤ x) (hx1 : x < xs) (hy0 : 0 ≤ y) (hy1 : y < ys) :
    ∀ (blocks : List (Int × Int)) (m : GMatrix), MatKeysND m →
      matMem (gridBlockStage xs ys dos blocks m) x.toNat y.toNat
        ((x + delta.1, y + delta.2), w) →
      matMem m x.toNat y.toNat ((x + delta.1, y + delta.2), w) ∧
      ∀ b ∈ blocks, ∀ offs, (delta, offs) ∈ dos → ∀ off ∈ offs,
        b ≠ (x + off.1, y + off.2)
  | [], m, _, h => ⟨h, by intro b hb; exact absurd hb (List.not_mem_nil _)⟩
  | b0 :: rest, m, hnd, h => by
      rw [gridBlockStage_cons] at h
      have hnd2 : MatKeysND
          (blockPops xs ys dos (matSetCell m b0.1 b0.2 []) b0) :=
        MatKeysND_blockPops (MatKeysND_matSetCell hnd (by simp))
      obtain ⟨hmem2, hrest⟩ :=
        gridBlockStage_survive hx0 hx1 hy0 hy1 rest _ hnd2 h
      refine ⟨?_, ?_⟩
      · rcases matMem_matSetCell_elim (matMem_blockPops_elim hmem2)
            with h1 | ⟨h1, _, _⟩
        · exact h1
        · exact absurd h1 (List.not_mem_nil _)
      · intro b hb offs hdos off hoff hbe
        rcases List.mem_cons.mp hb with hb0 | hbr
        · rw [hb0.symm.trans hbe] at hmem2
          exact blockPops_kills hx0 hx1 hy0 hy1 hoff dos _ hdos
            (MatKeysND_matSetCell hnd (by simp)) hmem2
        · exact hrest b hbr offs hdos off hoff hbe

/-- Reading the row-major flattening: index `u` lands in row `u / W`,
column `u % W`, when every row has width `W`. -/
theorem flatMap_id_get {α : Type} :
    ∀ (m : List (List α)) (W : Nat), 0 < W → (∀ row ∈ m, row.length = W) →
    ∀ (u : Nat) (a : α), (m.flatMap id)[u]? = some a →
    ∃ row, m[u / W]? = some row ∧ row[u % W]? = some a
  | [], _, _, _, u, a, h => by simp [List.flatMap] at h
  | r :: t, W, hW, hlen, u, a, h => by
      rw [show (r :: t).flatMap id = r ++ t.flatMap id from rfl] at h
      have hrW : r.length = W := hlen r (List.mem_cons_self _ _)
      by_cases hu : u < W
      · rw [List.getElem?_append_left (by omega)] at h
        have hdiv : u / W = 0 := Nat.div_eq_of_lt hu
        have hmod : u % W = u := Nat.mod_eq_of_lt hu
        exact ⟨r, by rw [hdiv]; exact List.getElem?_cons_zero,
          by rw [hmod]; exact h⟩
      · rw [List.getElem?_append_right (by omega)] at h
        rw [hrW] at h
        obtain ⟨row, hr1, hr2⟩ := flatMap_id_get t W hW
          (fun row hrow => hlen row (List.mem_cons_of_mem _ hrow)) (u - W) a h
        have hdiv : u / W = (u - W) / W + 1 :=
          Nat.div_eq_sub_div hW (Nat.le_of_not_lt hu)
        have hmod : u % W = (u - W) % W :=
          Nat.mod_eq_sub_mod (Nat.le_of_not_lt hu)
        refine ⟨row, ?_, by rw [hmod]; exact hr2⟩
        rw [hdiv, List.getElem?_cons_succ]
        exact hr1

/-- The matrix keeps its grid dimensions. -/
def MatShape (xs ys : Int) (m : GMatrix) : Prop :=
  m.length = ys.toNat ∧ ∀ row ∈ m, row.length = xs.toNat

/-- Cell writes keep the dimensions. -/
theorem MatShape_matSetCell {xs ys : Int} {m : GMatrix} {x y : Int}
    {c : GCell} (h : MatShape xs ys m) : MatShape xs ys (matSetCell m x y c) := by
  unfold matSetCell
  cases hrow : m[y.toNat]? with
  | none => exact h
  | some row =>
      refine ⟨by rw [List.length_set]; exact h.1, ?_⟩
      intro row2 hrow2
      rcases List.mem_or_eq_of_mem_set hrow2 with h1 | h1
      · exact h.2 row2 h1
      · subst h1
        rw [List.length_set]
        exact h.2 row (List.getElem?_mem hrow)

/-- Pops keep the dimensions. -/
theorem MatShape_matPopKey {xs ys : Int} {m : GMatrix} {x y : Int}
    {k : Int × Int} (h : MatShape xs ys m) :
    MatShape xs ys (matPopKey m x y k) := by
  unfold matPopKey
  cases hrow : m[y.toNat]? with
  | none => exact h
  | some row =>
      cases hcell : row[x.toNat]? with
      | none => simp only [hcell]; exact h
      | some cell =>
          simp only [hcell]
          have hset := @MatShape_matSetCell xs ys m x y
            (pdictPop k cell) h
          unfold matSetCell at hset
          simp only [hrow] at hset
          exact hset

/-- Folding dimension-preserving operations. -/
theorem MatShape_foldl {xs ys : Int} {α : Type} {f : GMatrix → α → GMatrix}
    (hf : ∀ m a, MatShape xs ys m → MatShape xs ys (f m a)) :
    ∀ (l : List α) (m : GMatrix), MatShape xs ys m →
    MatShape xs ys (l.foldl f m)
  | [], _, h => h
  | a :: t, m, h => MatShape_foldl hf t (f m a) (hf m a h)

/-- The block stage keeps the dimensions. -/
theorem MatShape_gridBlockStage {xs ys : Int}
    {dos : List ((Int × Int) × List (Int × Int))}
    {blocks : List (Int × Int)} {m : GMatrix} (h : MatShape xs ys m) :
    MatShape xs ys (gridBlockStage xs ys dos blocks m) := by
  refine MatShape_foldl ?_ blocks m h
  intro m1 b h1
  have h2 : MatShape xs ys (matSetCell m1 b.1 b.2 []) :=
    MatShape_matSetCell h1
  refine MatShape_foldl ?_ dos _ h2
  intro m2 de h3
  refine MatShape_foldl ?_ de.2 m2 h3
  intro m3 off h4
  by_cases hif : 0 ≤ b.1 - off.1 ∧ b.1 - off.1 < xs ∧
      0 ≤ b.2 - off.2 ∧ b.2 - off.2 < ys
  · rw [if_pos hif]
    exact MatShape_matPopKey h4
  · rw [if_neg hif]
    exact h4

/-- The filled matrix has the grid dimensions. -/
theorem MatShape_gridMatrixInit (xs ys : Int)
    (conn : List (Int × Int × ℚ)) : MatShape xs ys (gridMatrixInit xs ys conn) := by
  obtain ⟨h1, h2⟩ := gridMatrixInit_shape xs ys conn
  rw [Int.sub_zero] at h1
  refine ⟨h1, ?_⟩
  intro row hrow
  rw [h2 row hrow, Int.sub_zero]

/-- Decoding a row-major index. -/
theorem id_decode {xs : Int} (hxs : 0 < xs) {x y : Int} (hx0 : 0 ≤ x)
    (hx1 : x < xs) {u : Nat} (hu : (u : Int) = x + y * xs) :
    (u : Int) % xs = x ∧ (u : Int) / xs = y := by
  constructor
  · rw [hu, Int.add_mul_emod_self, Int.emod_eq_of_lt hx0 hx1]
  · rw [hu, Int.add_mul_ediv_right _ _ (ne_of_gt hxs),
      Int.ediv_eq_zero_of_lt hx0 hx1, zero_add]

/-- Reducing the step-freedom target to a sweep-offset list that covers the
bounding box of the step. -/
theorem step_free_of_offsets (xs : Int) (blocks : List (Int × Int))
    (u v : Nat) (xI yI dx dy : Int) (offs : List (Int × Int))
    (humod : (u : Int) % xs = xI) (hudiv : (u : Int) / xs = yI)
    (hvmod : (v : Int) % xs = xI + dx) (hvdiv : (v : Int) / xs = yI + dy)
    (hcov : ∀ aa ∈ ([0, dx] : List Int), ∀ bb ∈ ([0, dy] : List Int),
      (aa, bb) ∈ offs)
    (hsur : ∀ b ∈ blocks, ∀ off ∈ offs, b ≠ (xI + off.1, yI + off.2)) :
    gridStepFree xs blocks u v := by
  intro a ha c hc hmem
  rw [humod, hvmod] at ha
  rw [hudiv, hvdiv] at hc
  obtain ⟨aa, haa, hae⟩ : ∃ aa, aa ∈ ([0, dx] : List Int) ∧ a = xI + aa := by
    rcases List.mem_cons.mp ha with h1 | h1
    · exact ⟨0, by simp, by omega⟩
    · rcases List.mem_cons.mp h1 with h2 | h2
      · exact ⟨dx, by simp, h2⟩
      · exact absurd h2 (List.not_mem_nil _)
  obtain ⟨bb, hbb, hbe⟩ : ∃ bb, bb ∈ ([0, dy] : List Int) ∧ c = yI + bb := by
    rcases List.mem_cons.mp hc with h1 | h1
    · exact ⟨0, by simp, by omega⟩
    · rcases List.mem_cons.mp h1 with h2 | h2
      · exact ⟨dy, by simp, h2⟩
      · exact absurd h2 (List.not_mem_nil _)
  exact hsur (a, c) hmem (aa, bb) (hcov aa haa bb hbb)
    (by rw [hae, hbe])

/-- Core safety property of the constructed grid graph (default shape and
connection data): every surviving edge goes between two in-bounds cells one
connection delta apart, and no block lies on any sweep offset of that delta
from the source cell.  Since the offsets always cover the bounding box
spanned by the two cells, the step is `gridStepFree`. -/
theorem gridCreateGraph_edge_free (s : ℚ → ℚ) (hs : 0 < s 2) (xs ys : Int)
    (hxs : 0 < xs) (blocks : List (Int × Int)) {u v : Nat} {w : ℚ}
    (he : edgeWeight (gridCreateGraph s xs ys blocks defaultShape
      defaultConnData) u v = some w) :
    gridStepFree xs blocks u v := by
  have hmem : (v, w) ∈ adj
      (gridCreateGraph s xs ys blocks defaultShape defaultConnData) u :=
    dictGet?_mem he
  unfold adj at hmem
  rw [List.getD_eq_getElem?_getD] at hmem
  cases hgu : (gridCreateGraph s xs ys blocks defaultShape
      defaultConnData)[u]? with
  | none =>
      rw [hgu] at hmem
      exact absurd hmem (List.not_mem_nil _)
  | some a =>
      rw [hgu] at hmem
      unfold gridCreateGraph at hgu
      rw [List.getElem?_map] at hgu
      cases hflat : ((gridBlockStage xs ys
          (deltaOffsets s defaultShape defaultConnData) blocks
          (gridMatrixInit xs ys defaultConnData)).flatMap id)[u]? with
      | none => rw [hflat] at hgu; exact Option.noConfusion hgu
      | some cell =>
          rw [hflat] at hgu
          injection hgu with hgu
          subst hgu
          simp only [Option.getD_some] at hmem
          have hshape : MatShape xs ys
              (gridBlockStage xs ys
                (deltaOffsets s defaultShape defaultConnData) blocks
                (gridMatrixInit xs ys defaultConnData)) :=
            MatShape_gridBlockStage (MatShape_gridMatrixInit xs ys _)
          have hWpos : 0 < xs.toNat := by omega
          obtain ⟨row, hrowq, hcellq⟩ := flatMap_id_get _ xs.toNat hWpos
            hshape.2 u cell hflat
          -- membership of the flattened entry
          unfold gridFlattenCell at hmem
          rcases List.mem_map.mp hmem with ⟨kv, hkvmem, hkve⟩
          -- the matrix entry at position (u % W, u / W)
          have hmm : matMem
              (gridBlockStage xs ys
                (deltaOffsets s defaultShape defaultConnData) blocks
                (gridMatrixInit xs ys defaultConnData))
              (u % xs.toNat) (u / xs.toNat) kv :=
            ⟨row, cell, hrowq, hcellq, hkvmem⟩
          -- provenance: kv is a delta-edge of the initial fill
          obtain ⟨e, hein, hkv, hbx0, hbx1, hby0, hby1⟩ :=
            gridMatrixInit_mem (matMem_gridBlockStage_elim hmm)
          -- coordinates of the source cell
          have hyn : u / xs.toNat < ys.toNat := by
            have h1 := (List.getElem?_eq_some_iff.mp hrowq).1
            rw [hshape.1] at h1
            exact h1
          have hxI0 : (0 : Int) ≤ ((u % xs.toNat : Nat) : Int) := by positivity
          have hxI1 : ((u % xs.toNat : Nat) : Int) < xs := by
            have h1 : u % xs.toNat < xs.toNat := Nat.mod_lt _ hWpos
            omega
          have hyI0 : (0 : Int) ≤ ((u / xs.toNat : Nat) : Int) := by positivity
          have hyI1 : ((u / xs.toNat : Nat) : Int) < ys := by omega
          -- decode u
          have h2cast : ((xs.toNat : Nat) : Int) = xs :=
            Int.toNat_of_nonneg (le_of_lt hxs)
          have humod : (u : Int) % xs = ((u % xs.toNat : Nat) : Int) := by
            push_cast
            rw [h2cast]
          have hudiv : (u : Int) / xs = ((u / xs.toNat : Nat) : Int) := by
            push_cast
            rw [h2cast]
          -- decode v
          have hvval : v = (((u % xs.toNat : Nat) : Int) + e.1 +
              (((u / xs.toNat : Nat) : Int) + e.2.1) * xs).toNat := by
            rw [hkv] at hkve
            have := congrArg Prod.fst hkve
            simpa using this.symm
          have hwval : w = e.2.2 := by
            rw [hkv] at hkve
            have := congrArg Prod.snd hkve
            simpa using this.symm
          have hvnn : (0 : Int) ≤ ((u % xs.toNat : Nat) : Int) + e.1 +
              (((u / xs.toNat : Nat) : Int) + e.2.1) * xs := by
            have h1 : (0 : Int) ≤ (((u / xs.toNat : Nat) : Int) + e.2.1) * xs :=
              mul_nonneg hby0 (le_of_lt hxs)
            omega
          have hveq : (v : Int) = (((u % xs.toNat : Nat) : Int) + e.1) +
              (((u / xs.toNat : Nat) : Int) + e.2.1) * xs := by
            rw [hvval]
            rw [Int.toNat_of_nonneg hvnn]
          obtain ⟨hvmod, hvdiv⟩ := id_decode hxs hbx0 hbx1 hveq
          -- survival through the block stage
          rw [hkv] at hmm
          obtain ⟨_, hsv⟩ := @gridBlockStage_survive xs ys
            ((u % xs.toNat : Nat) : Int) ((u / xs.toNat : Nat) : Int)
            (deltaOffsets s defaultShape defaultConnData)
            (e.1, e.2.1) e.2.2 hxI0 hxI1 hyI0 hyI1
            blocks _ (gridMatrixInit_keysND xs ys defaultConnData)
            (by
              have h2 : (((u % xs.toNat : Nat) : Int)).toNat = u % xs.toNat :=
                Int.toNat_ofNat _
              have h3 : (((u / xs.toNat : Nat) : Int)).toNat = u / xs.toNat :=
                Int.toNat_ofNat _
              rw [h2, h3]
              exact hmm)
          rw [deltaOffsets_default s hs] at hsv
          -- case analysis on the connection delta
          have he8 : e = ((-1 : Int), (-1 : Int), sqrt_2) ∨
              e = ((-1 : Int), (0 : Int), (1 : ℚ)) ∨
              e = ((-1 : Int), (1 : Int), sqrt_2) ∨
              e = ((0 : Int), (-1 : Int), (1 : ℚ)) ∨
              e = ((0 : Int), (1 : Int), (1 : ℚ)) ∨
              e = ((1 : Int), (-1 : Int), sqrt_2) ∨
              e = ((1 : Int), (0 : Int), (1 : ℚ)) ∨
              e = ((1 : Int), (1 : Int), sqrt_2) := by
            simpa [defaultConnData, List.mem_cons] using hein
          rcases he8 with rfl | rfl | rfl | rfl | rfl | rfl | rfl | rfl
          · exact step_free_of_offsets xs blocks u v _ _ _ _
              [(-1, -1), (-1, 0), (0, -1), (0, 0)] humod hudiv hvmod hvdiv
              (by decide)
              (fun b hb off hoff => hsv b hb _ (by decide) off hoff)
          · exact step_free_of_offsets xs blocks u v _ _ _ _
              [(-1, 0), (0, 0)] humod hudiv hvmod hvdiv
              (by decide)
              (fun b hb off hoff => hsv b hb _ (by decide) off hoff)
          · exact step_free_of_offsets xs blocks u v _ _ _ _
              [(-1, 0), (-1, 1), (0, 0), (0, 1)] humod hudiv hvmod hvdiv
              (by decide)
              (fun b hb off hoff => hsv b hb _ (by decide) off hoff)
          · exact step_free_of_offsets xs blocks u v _ _ _ _
              [(0, -1), (0, 0)] humod hudiv hvmod hvdiv
              (by decide)
              (fun b hb off hoff => hsv b hb _ (by decide) off hoff)
          · exact step_free_of_offsets xs blocks u v _ _ _ _
              [(0, 0), (0, 1)] humod hudiv hvmod hvdiv
              (by decide)
              (fun b hb off hoff => hsv b hb _ (by decide) off hoff)
          · exact step_free_of_offsets xs blocks u v _ _ _ _
              [(0, -1), (0, 0), (1, -1), (1, 0)] humod hudiv hvmod hvdiv
              (by decide)
              (fun b hb off hoff => hsv b hb _ (by decide) off hoff)
          · exact step_free_of_offsets xs blocks u v _ _ _ _
              [(0, 0), (1, 0)] humod hudiv hvmod hvdiv
              (by decide)
              (fun b hb off hoff => hsv b hb _ (by decide) off hoff)
          · exact step_free_of_offsets xs blocks u v _ _ _ _
              [(0, 0), (0, 1), (1, 0), (1, 1)] humod hudiv hvmod hvdiv
              (by decide)
              (fun b hb off hoff => hsv b hb _ (by decide) off hoff)

/-- A cell with a surviving outgoing connection is itself unblocked (the
sweep offsets always contain `(0, 0)`). -/
theorem cell_free_of_adj_ne (s : ℚ → ℚ) (hs : 0 < s 2) (xs ys : Int)
    (hxs : 0 < xs) (blocks : List (Int × Int)) {u : Nat}
    (h : adj (gridCreateGraph s xs ys blocks defaultShape defaultConnData)
      u ≠ []) :
    ((u : Int) % xs, (u : Int) / xs) ∉ blocks := by
  cases hadj : adj (gridCreateGraph s xs ys blocks defaultShape
      defaultConnData) u with
  | nil => exact absurd hadj h
  | cons p t =>
      obtain ⟨p1, p2⟩ := p
      have hew : edgeWeight (gridCreateGraph s xs ys blocks defaultShape
          defaultConnData) u p1 = some p2 := by
        unfold edgeWeight
        rw [hadj]
        unfold dictGet?
        rw [if_pos rfl]
      have hstep := gridCreateGraph_edge_free s hs xs ys hxs blocks hew
      exact hstep _ (by simp) _ (by simp)

/-- Every walk in the constructed grid graph whose first cell is unblocked
is entirely free: all its cells are unblocked and every step (diagonal
steps included) sweeps no block. -/
theorem walk_gridPathFree (s : ℚ → ℚ) (hs : 0 < s 2) (xs ys : Int)
    (hxs : 0 < xs) (blocks : List (Int × Int)) :
    ∀ (p : List Nat) (v : Nat) (c : ℚ),
      walkWeight (gridCreateGraph s xs ys blocks defaultShape
        defaultConnData) p = some c →
      p.head? = some v →
      ((v : Int) % xs, (v : Int) / xs) ∉ blocks →
      gridPathFree xs blocks p
  | [], v, c, hw, hh, hv => by simp [walkWeight] at hw
  | [u], v, c, hw, hh, hv => by
      have huv : u = v := by simpa using hh
      subst huv
      exact hv
  | u :: v2 :: t, v, c, hw, hh, hv => by
      have huv : u = v := by simpa using hh
      subst huv
      rw [walkWeight] at hw
      cases hew : edgeWeight (gridCreateGraph s xs ys blocks defaultShape
          defaultConnData) u v2 with
      | none => rw [hew] at hw; exact Option.noConfusion hw
      | some w2 =>
          cases hrest : walkWeight (gridCreateGraph s xs ys blocks
              defaultShape defaultConnData) (v2 :: t) with
          | none => rw [hew, hrest] at hw; exact Option.noConfusion hw
          | some c2 =>
              have hstep := gridCreateGraph_edge_free s hs xs ys hxs blocks
                hew
              have hv2 : ((v2 : Int) % xs, (v2 : Int) / xs) ∉ blocks :=
                hstep _ (by simp) _ (by simp)
              exact ⟨hstep, walk_gridPathFree s hs xs ys hxs blocks
                (v2 :: t) v2 c2 hrest (by simp) hv2⟩

/-- A key present in an adjacency dict yields some lookup result. -/
theorem dictGet?_isSome_of_mem : ∀ {d : Adj} {v : Nat} {w : ℚ},
    (v, w) ∈ d → ∃ w2, dictGet? v d = some w2
  | [], v, w, h => absurd h (List.not_mem_nil _)
  | (k, x) :: t, v, w, h => by
      by_cases hk : k = v
      · exact ⟨x, by unfold dictGet?; rw [if_pos hk]⟩
      · rcases List.mem_cons.mp h with h1 | h1
        · exact absurd (congrArg Prod.fst h1).symm hk
        · obtain ⟨w2, hw2⟩ := dictGet?_isSome_of_mem h1
          exact ⟨w2, by unfold dictGet?; rw [if_neg hk]; exact hw2⟩

/-- Path-validity invariant of the A* loop: the distance and predecessor
arrays keep their length, every predecessor pointer is a graph edge whose
source already has a finite tentative distance, every finite node other
than the origin has a predecessor, and every heap entry names a node with a
finite tentative distance. -/
structure WInv (G : SGraph) (o : Nat) (st : AStarState) : Prop where
  hdlen : st.dist.length = G.length
  hplen : st.pred.length = G.length
  hpred : ∀ v u, getPred st.pred v = Int.ofNat u →
    (∃ w, edgeWeight G u v = some w) ∧ ∃ c : ℚ, getDist st.dist u = (c : DQ)
  hor : ∀ v (c : ℚ), getDist st.dist v = (c : DQ) → v ≠ o →
    ∃ u, getPred st.pred v = Int.ofNat u
  hheap : ∀ k x, (k, x) ∈ st.heap → ∃ c : ℚ, getDist st.dist x = (c : DQ)

/-- The relaxation pass preserves the path-validity invariant (and keeps
every finite tentative distance finite). -/
theorem astarRelax_winv {G : SGraph} {o : Nat} {h : Nat → ℚ} {cur : Nat}
    (hedge : ∀ a v w, (v, w) ∈ adj G a → ∃ w2, edgeWeight G a v = some w2)
    (hclG : ∀ d ∈ G, ∀ p ∈ d, p.1 < G.length) :
    ∀ (edges : Adj) (st : AStarState) (cd : DQ),
      (∀ p ∈ edges, p ∈ adj G cur) →
      (∀ c : ℚ, cd = (c : DQ) → ∃ c2 : ℚ, getDist st.dist cur = (c2 : DQ)) →
      WInv G o st →
      WInv G o (astarRelax h cur cd edges st) ∧
      (∀ x (c : ℚ), getDist st.dist x = (c : DQ) →
        ∃ c2 : ℚ, getDist (astarRelax h cur cd edges st).dist x = (c2 : DQ))
  | [], st, cd, _, _, hw => ⟨hw, fun x c hc => ⟨c, hc⟩⟩
  | (v, w2) :: rest, st, cd, hsub, hfin, hw => by
      cases cd with
      | none =>
          show WInv G o (astarRelax h cur none rest st) ∧ _
          exact astarRelax_winv hedge hclG rest st none
            (fun p hp => hsub p (List.mem_cons_of_mem _ hp)) hfin hw
      | some c =>
          rw [show (some c : DQ) = ((c : ℚ) : DQ) from rfl]
          have hvG : v < G.length := by
            obtain ⟨d, hd, hpd⟩ := adj_mem (hsub _ (List.mem_cons_self _ _))
            exact hclG d hd _ hpd
          have hvd : v < st.dist.length := by rw [hw.hdlen]; exact hvG
          have hvp : v < st.pred.length := by rw [hw.hplen]; exact hvG
          by_cases hlt : ((c + w2 : ℚ) : DQ) < getDist st.dist v
          · rw [astarRelax_cons_lt h cur c v w2 rest st hlt]
            obtain ⟨ccur, hccur⟩ := hfin c rfl
            have hdset : ∀ x (cx : ℚ), getDist st.dist x = (cx : DQ) →
                ∃ c2 : ℚ,
                  getDist (st.dist.set v ((c + w2 : ℚ) : DQ)) x = (c2 : DQ) := by
              intro x cx hcx
              by_cases hxv : v = x
              · subst hxv
                exact ⟨c + w2, getD_set_self _ _ _ _ hvd⟩
              · rw [show getDist (st.dist.set v ((c + w2 : ℚ) : DQ)) x =
                    getDist st.dist x from getD_set_ne _ _ _ _ _ hxv]
                exact ⟨cx, hcx⟩
            have hstep : WInv G o
                { dist := st.dist.set v ((c + w2 : ℚ) : DQ)
                  pred := st.pred.set v (Int.ofNat cur)
                  heap := heapPush st.heap (c + w2 + h v, v)
                  visited := st.visited } := by
              refine ⟨?_, ?_, ?_, ?_, ?_⟩
              · show (st.dist.set v _).length = G.length
                rw [List.length_set]
                exact hw.hdlen
              · show (st.pred.set v _).length = G.length
                rw [List.length_set]
                exact hw.hplen
              · intro x u hpu
                show (∃ w, edgeWeight G u x = some w) ∧
                  ∃ c2 : ℚ,
                    getDist (st.dist.set v ((c + w2 : ℚ) : DQ)) u = (c2 : DQ)
                by_cases hxv : v = x
                · subst hxv
                  rw [show getPred (st.pred.set v (Int.ofNat cur)) v =
                      Int.ofNat cur from getD_set_self _ _ _ _ hvp] at hpu
                  injection hpu with hpu
                  subst hpu
                  exact ⟨hedge cur v w2 (hsub _ (List.mem_cons_self _ _)),
                    hdset cur ccur hccur⟩
                · rw [show getPred (st.pred.set v (Int.ofNat cur)) x =
                      getPred st.pred x from getD_set_ne _ _ _ _ _ hxv] at hpu
                  obtain ⟨hwedge, cu, hcu⟩ := hw.hpred x u hpu
                  exact ⟨hwedge, hdset u cu hcu⟩
              · intro x cx hcx hxo
                by_cases hxv : v = x
                · subst hxv
                  exact ⟨cur, getD_set_self _ _ _ _ hvp⟩
                · refine Exists.imp (fun u hu => ?_) (hw.hor x cx ?_ hxo)
                  · rw [show getPred (st.pred.set v (Int.ofNat cur)) x =
                        getPred st.pred x from getD_set_ne _ _ _ _ _ hxv]
                    exact hu
                  · rw [show getDist
                        ({ dist := st.dist.set v ((c + w2 : ℚ) : DQ),
                           pred := st.pred.set v (Int.ofNat cur),
                           heap := heapPush st.heap (c + w2 + h v, v),
                           visited := st.visited } : AStarState).dist x =
                        getDist st.dist x from
                      getD_set_ne _ _ _ _ _ hxv] at hcx
                    exact hcx
              · intro k x hkx
                rcases mem_heapPush.mp hkx with h1 | h1
                · have hx : x = v := congrArg Prod.snd h1
                  subst hx
                  exact ⟨c + w2, getD_set_self _ _ _ _ hvd⟩
                · obtain ⟨cx, hcx⟩ := hw.hheap k x h1
                  exact hdset x cx hcx
            have hrec := @astarRelax_winv G o h cur hedge hclG rest
              { dist := st.dist.set v ((c + w2 : ℚ) : DQ)
                pred := st.pred.set v (Int.ofNat cur)
                heap := heapPush st.heap (c + w2 + h v, v)
                visited := st.visited } ((c : ℚ) : DQ)
              (fun p hp => hsub p (List.mem_cons_of_mem _ hp))
              (fun c3 hc3 => by
                have hc3e : c3 = c := by
                  have := hc3
                  injection this with h4
                  exact h4.symm
                subst hc3e
                exact hdset cur ccur hccur)
              hstep
            refine ⟨hrec.1, ?_⟩
            intro x cx hcx
            obtain ⟨c2, hc2⟩ := hdset x cx hcx
            exact hrec.2 x c2 hc2
          · rw [astarRelax_cons_ge h cur c v w2 rest st hlt]
            exact astarRelax_winv hedge hclG rest st ((c : ℚ) : DQ)
              (fun p hp => hsub p (List.mem_cons_of_mem _ hp))
              (fun c3 hc3 => hfin c3 hc3) hw

/-- The A* main loop preserves the path-validity invariant, and the node it
reports on exit has a finite tentative distance. -/
theorem astarLoop_winv {G : SGraph} {o t : Nat} {h : Nat → ℚ}
    (hedge : ∀ a v w, (v, w) ∈ adj G a → ∃ w2, edgeWeight G a v = some w2)
    (hclG : ∀ d ∈ G, ∀ p ∈ d, p.1 < G.length) :
    ∀ (fuel : Nat) (st : AStarState) (lastId fid : Nat) (st2 : AStarState),
      WInv G o st → (∃ c : ℚ, getDist st.dist lastId = (c : DQ)) →
      astarLoop G h t fuel st lastId = some (fid, st2) →
      WInv G o st2 ∧ ∃ c : ℚ, getDist st2.dist fid = (c : DQ)
  | 0, _, _, _, _, _, _, hrun => Option.noConfusion hrun
  | fuel + 1, st, lastId, fid, st2, hw, hlast, hrun => by
      cases hheap : st.heap with
      | nil =>
          rw [show astarLoop G h t (fuel + 1) st lastId =
              some (lastId, st) from by
            have hpop : heapPop st.heap = none := by rw [hheap]; rfl
            simp only [astarLoop, hpop]] at hrun
          injection hrun with hrun
          injection hrun with h1 h2
          subst h1
          subst h2
          exact ⟨hw, hlast⟩
      | cons e rest =>
          obtain ⟨k, cur⟩ := e
          rw [astarLoop_pop G h t fuel st lastId k cur rest hheap] at hrun
          have hcurfin : ∃ c : ℚ, getDist st.dist cur = (c : DQ) :=
            hw.hheap k cur (by rw [hheap]; exact List.mem_cons_self _ _)
          have hrest : ∀ k2 x, (k2, x) ∈ rest →
              ∃ c : ℚ, getDist st.dist x = (c : DQ) := fun k2 x hkx =>
            hw.hheap k2 x (by rw [hheap]; exact List.mem_cons_of_mem _ hkx)
          by_cases hct : cur = t
          · rw [if_pos hct] at hrun
            injection hrun with hrun
            injection hrun with h1 h2
            subst h1
            subst h2
            refine ⟨⟨hw.hdlen, hw.hplen, hw.hpred, hw.hor, ?_⟩, hcurfin⟩
            intro k2 x hkx
            exact hrest k2 x hkx
          · rw [if_neg hct] at hrun
            by_cases hvis : getVis st.visited cur = 1
            · rw [if_pos hvis] at hrun
              exact astarLoop_winv hedge hclG fuel { st with heap := rest }
                cur fid st2
                ⟨hw.hdlen, hw.hplen, hw.hpred, hw.hor,
                  fun k2 x hkx => hrest k2 x hkx⟩
                hcurfin hrun
            · rw [if_neg hvis] at hrun
              have hmid : WInv G o
                  { st with heap := rest, visited := st.visited.set cur 1 } :=
                ⟨hw.hdlen, hw.hplen, hw.hpred, hw.hor,
                  fun k2 x hkx => hrest k2 x hkx⟩
              have hrel := @astarRelax_winv G o h cur hedge hclG (adj G cur)
                { st with heap := rest, visited := st.visited.set cur 1 }
                (getDist st.dist cur) (fun p hp => hp)
                (fun c hc => ⟨c, hc⟩) hmid
              obtain ⟨ccur, hccur⟩ := hcurfin
              exact astarLoop_winv hedge hclG fuel _ cur fid st2 hrel.1
                (hrel.2 cur ccur hccur) hrun

/-- Reading the predecessor chain back from a node with finite distance
yields (after reversal) a walk from the origin to that node. -/
theorem predWalk_walk {G : SGraph} {o : Nat} {st : AStarState}
    (hw : WInv G o st) :
    ∀ (fuel : Nat) (v : Nat) (l : List Nat) (c : ℚ),
      getDist st.dist v = (c : DQ) →
      predWalk st.pred v fuel = some l →
      ∃ cw, IsWalk G o v l.reverse cw
  | 0, _, _, _, _, hp => Option.noConfusion hp
  | fuel + 1, v, l, c, hc, hp => by
      rw [predWalk] at hp
      cases hpred : getPred st.pred v with
      | negSucc a =>
          simp only [hpred] at hp
          injection hp with hp
          subst hp
          by_cases hvo : v = o
          · subst hvo
            exact ⟨0, rfl, rfl, rfl⟩
          · obtain ⟨u, hu⟩ := hw.hor v c hc hvo
            rw [hu] at hpred
            exact Int.noConfusion hpred
      | ofNat u =>
          simp only [hpred] at hp
          cases hpw : predWalk st.pred u fuel with
          | none => rw [hpw] at hp; exact Option.noConfusion hp
          | some l2 =>
              rw [hpw] at hp
              injection hp with hp
              subst hp
              obtain ⟨⟨w, hwedge⟩, cu, hcu⟩ := hw.hpred v u hpred
              obtain ⟨cw, hwalk⟩ := predWalk_walk hw fuel u l2 cu hcu hpw
              refine ⟨cw + w, ?_⟩
              rw [List.reverse_cons]
              exact walk_snoc hwalk hwedge

/-- The invariant holds at the initial A* state when the origin is a graph
index. -/
theorem astarInit_winv {G : SGraph} {o : Nat} (ho : o < G.length) :
    WInv G o (astarInit G.length o) := by
  refine ⟨?_, ?_, ?_, ?_, ?_⟩
  · show ((List.replicate G.length (⊤ : DQ)).set o ((0 : ℚ) : DQ)).length =
      G.length
    rw [List.length_set, List.length_replicate]
  · show (List.replicate G.length (-1 : Int)).length = G.length
    rw [List.length_replicate]
  · intro v u hpu
    rw [show getPred (astarInit G.length o).pred v = (-1 : Int) from
      getD_replicate_self _ _ _] at hpu
    exact Int.noConfusion hpu
  · intro v c hc hvo
    rw [show getDist (astarInit G.length o).dist v = (⊤ : DQ) from by
      rw [show getDist (astarInit G.length o).dist v =
          getDist (List.replicate G.length (⊤ : DQ)) v
          from getD_set_ne _ _ _ _ _ (fun e => hvo e.symm)]
      exact getD_replicate_self _ _ _] at hc
    exact Option.noConfusion hc
  · intro k x hkx
    rcases List.mem_cons.mp hkx with h1 | h1
    · have hx : x = o := congrArg Prod.snd h1
      subst hx
      refine ⟨0, ?_⟩
      show ((List.replicate G.length (⊤ : DQ)).set x ((0 : ℚ) : DQ)).getD
        x ⊤ = ((0 : ℚ) : DQ)
      exact getD_set_self _ _ _ _ (by rw [List.length_replicate]; exact ho)
    · exact absurd h1 (List.not_mem_nil _)

/-- Whenever `a_star` reports success, the returned node list is a walk
from the origin to the destination in the graph. -/
theorem a_star_walk {G : SGraph} (hfn : Nat → Nat → ℚ) (o t : Nat)
    (hclG : ∀ d ∈ G, ∀ p ∈ d, p.1 < G.length) (ho : o < G.length)
    {out : PathResult} (hok : a_star G hfn o t = .ok out) :
    ∃ c, IsWalk G o t out.path c := by
  have hedge : ∀ a v w, (v, w) ∈ adj G a →
      ∃ w2, edgeWeight G a v = some w2 := fun a v w hm =>
    dictGet?_isSome_of_mem hm
  have hdisto : getDist (astarInit G.length o).dist o = ((0 : ℚ) : DQ) := by
    show ((List.replicate G.length (⊤ : DQ)).set o ((0 : ℚ) : DQ)).getD
      o ⊤ = ((0 : ℚ) : DQ)
    exact getD_set_self _ _ _ _ (by rw [List.length_replicate]; exact ho)
  unfold a_star at hok
  cases hloop : astarLoop G (fun v => hfn v t) t (stdFuel G)
      (astarInit G.length o) o with
  | none => rw [hloop] at hok; exact Except.noConfusion hok
  | some pr =>
      obtain ⟨fid, stF⟩ := pr
      simp only [hloop] at hok
      by_cases hft : fid = t
      · rw [if_pos hft] at hok
        cases hbp : buildPath stF.pred fid with
        | none => rw [hbp] at hok; exact Except.noConfusion hok
        | some p =>
            rw [hbp] at hok
            injection hok with hok
            obtain ⟨hwF, cF, hcF⟩ := astarLoop_winv hedge hclG (stdFuel G)
              (astarInit G.length o) o fid stF (astarInit_winv ho)
              ⟨0, hdisto⟩ hloop
            unfold buildPath at hbp
            cases hpw : predWalk stF.pred fid (stF.pred.length + 1) with
            | none => rw [hpw] at hbp; exact Option.noConfusion hbp
            | some l =>
                rw [hpw] at hbp
                injection hbp with hbp
                subst hbp
                obtain ⟨cw, hwalk⟩ := predWalk_walk hwF _ fid l cF hcF hpw
                subst hft
                rw [← hok]
                exact ⟨cw, hwalk⟩
      · rw [if_neg hft] at hok
        exact Except.noConfusion hok

/-- Decomposition of a successful grid query with `output_path=True`: the
returned id path is the pathfinding stage result with an optional `-1`
marker on either side (present exactly for off-grid endpoints), and the
resolved origin has a nonempty adjacency. -/
theorem gridGSP_path_shape {G : SGraph} {xs ys : Nat} {sq : ℚ → ℚ}
    {algo : SGraph → Nat → Nat → Except String PathResult}
    {onode dnode : ℚ × ℚ} {fmt : String} {res : GridPathOutput}
    (hrun : gridGetShortestPath G xs ys sq algo onode dnode fmt true =
      .ok res) :
    ∃ (oid did : Nat) (out : PathResult) (dor : Adj) (pre post : List Int),
      algo G oid did = .ok out ∧
      G[oid]? = some dor ∧ dor ≠ [] ∧
      (pre = ([] : List Int) ∨ pre = [-1]) ∧
      (post = ([] : List Int) ∨ post = [-1]) ∧
      res.path = some (pre ++ out.path.map (fun n => (n : Int)) ++ post) := by
  unfold gridGetShortestPath at hrun
  cases hco : closest_node_with_connections G xs ys onode.1 onode.2 with
  | error e => simp only [hco] at hrun; exact Except.noConfusion hrun
  | ok pr1 =>
  obtain ⟨oid, od⟩ := pr1
  simp only [hco] at hrun
  cases hcd : closest_node_with_connections G xs ys dnode.1 dnode.2 with
  | error e => simp only [hcd] at hrun; exact Except.noConfusion hrun
  | ok pr2 =>
  obtain ⟨did, dd⟩ := pr2
  simp only [hcd] at hrun
  cases horg : G[oid]? with
  | none => simp only [horg] at hrun; exact Except.noConfusion hrun
  | some dor =>
  simp only [horg] at hrun
  by_cases hdor : dor = []
  · rw [if_pos hdor] at hrun
    exact Except.noConfusion hrun
  rw [if_neg hdor] at hrun
  cases hdst : G[did]? with
  | none => simp only [hdst] at hrun; exact Except.noConfusion hrun
  | some dde =>
  simp only [hdst] at hrun
  by_cases hdde : dde = []
  · rw [if_pos hdde] at hrun
    exact Except.noConfusion hrun
  rw [if_neg hdde] at hrun
  cases halgo : algo G oid did with
  | error e => simp only [halgo] at hrun; exact Except.noConfusion hrun
  | ok out =>
  simp only [halgo] at hrun
  cases hcp : get_coordinate_path xs out.path fmt with
  | error e => simp only [hcp] at hrun; exact Except.noConfusion hrun
  | ok cpath0 =>
  simp only [hcp] at hrun
  by_cases hod : 0 < od
  · simp only [if_pos hod] at hrun
    cases hfco : format_coordinate onode fmt with
    | error e => simp only [hfco] at hrun; exact Except.noConfusion hrun
    | ok oc =>
    simp only [hfco] at hrun
    by_cases hdd : 0 < dd
    · simp only [if_pos hdd] at hrun
      cases hfcd : format_coordinate dnode fmt with
      | error e => simp only [hfcd] at hrun; exact Except.noConfusion hrun
      | ok dc =>
      simp only [hfcd] at hrun
      injection hrun with hrun
      exact ⟨oid, did, out, dor, [-1], [-1], halgo, horg, hdor,
        Or.inr rfl, Or.inr rfl, by rw [← hrun]; rfl⟩
    · simp only [if_neg hdd] at hrun
      injection hrun with hrun
      exact ⟨oid, did, out, dor, [-1], [], halgo, horg, hdor,
        Or.inr rfl, Or.inl rfl, by rw [← hrun, List.append_nil]; rfl⟩
  · simp only [if_neg hod] at hrun
    by_cases hdd : 0 < dd
    · simp only [if_pos hdd] at hrun
      cases hfcd : format_coordinate dnode fmt with
      | error e => simp only [hfcd] at hrun; exact Except.noConfusion hrun
      | ok dc =>
      simp only [hfcd] at hrun
      injection hrun with hrun
      exact ⟨oid, did, out, dor, [], [-1], halgo, horg, hdor,
        Or.inl rfl, Or.inr rfl, by rw [← hrun]; rfl⟩
    · simp only [if_neg hdd] at hrun
      injection hrun with hrun
      exact ⟨oid, did, out, dor, [], [], halgo, horg, hdor,
        Or.inl rfl, Or.inl rfl, by rw [← hrun, List.append_nil]; rfl⟩

/-- Length of a row-major flattening with uniform row width. -/
theorem flatMap_id_length {α : Type} :
    ∀ (m : List (List α)) (W : Nat), (∀ row ∈ m, row.length = W) →
    (m.flatMap id).length = m.length * W
  | [], _, _ => by simp [List.flatMap]
  | r :: t, W, hlen => by
      rw [show (r :: t).flatMap id = r ++ t.flatMap id from rfl,
        List.length_append,
        flatMap_id_length t W
          (fun row hrow => hlen row (List.mem_cons_of_mem _ hrow)),
        hlen r (List.mem_cons_self _ _), List.length_cons]
      ring

/-- The constructed grid graph is closed: all edge targets are graph
indices. -/
theorem gridCreateGraph_closed (s : ℚ → ℚ) (xs ys : Int) (hxs : 0 < xs)
    (hys : 0 < ys) (blocks : List (Int × Int)) (shape : List (ℚ × ℚ))
    (conn : List (Int × Int × ℚ)) :
    ∀ d ∈ gridCreateGraph s xs ys blocks shape conn, ∀ p ∈ d,
      p.1 < (gridCreateGraph s xs ys blocks shape conn).length := by
  intro d hd p hp
  have hshape : MatShape xs ys
      (gridBlockStage xs ys (deltaOffsets s shape conn) blocks
        (gridMatrixInit xs ys conn)) :=
    MatShape_gridBlockStage (MatShape_gridMatrixInit xs ys conn)
  have hlen : (gridCreateGraph s xs ys blocks shape conn).length =
      ys.toNat * xs.toNat := by
    unfold gridCreateGraph
    rw [List.length_map, flatMap_id_length _ xs.toNat hshape.2, hshape.1]
  obtain ⟨i, hi⟩ := List.getElem?_of_mem hd
  unfold gridCreateGraph at hi
  rw [List.getElem?_map] at hi
  cases hflat : ((gridBlockStage xs ys (deltaOffsets s shape conn) blocks
      (gridMatrixInit xs ys conn)).flatMap id)[i]? with
  | none => rw [hflat] at hi; exact Option.noConfusion hi
  | some cell =>
      rw [hflat] at hi
      injection hi with hi
      subst hi
      have hWpos : 0 < xs.toNat := by omega
      obtain ⟨row, hrowq, hcellq⟩ := flatMap_id_get _ xs.toNat hWpos
        hshape.2 i cell hflat
      unfold gridFlattenCell at hp
      rcases List.mem_map.mp hp with ⟨kv, hkvmem, hkve⟩
      obtain ⟨e, _, hkv, hbx0, hbx1, hby0, hby1⟩ :=
        gridMatrixInit_mem (matMem_gridBlockStage_elim
          ⟨row, cell, hrowq, hcellq, hkvmem⟩)
      have hp1 : p.1 = (kv.1.1 + kv.1.2 * xs).toNat := (congrArg Prod.fst
        hkve).symm
      rw [hp1, hlen, hkv]
      have hkx0 : (0 : Int) ≤ ((i % xs.toNat : Nat) : Int) + e.1 := hbx0
      have hky0 : (0 : Int) ≤ ((i / xs.toNat : Nat) : Int) + e.2.1 := hby0
      have h4 : (0 : Int) ≤ (((i % xs.toNat : Nat) : Int) + e.1) +
          (((i / xs.toNat : Nat) : Int) + e.2.1) * xs := by
        have := mul_nonneg hky0 (le_of_lt hxs)
        omega
      have h3 : ((((i / xs.toNat : Nat) : Int) + e.2.1) + 1) * xs ≤
          ys * xs :=
        mul_le_mul_of_nonneg_right (by omega) (le_of_lt hxs)
      have h5 : (((i % xs.toNat : Nat) : Int) + e.1) +
          (((i / xs.toNat : Nat) : Int) + e.2.1) * xs < ys * xs := by
        nlinarith [h3, hbx1]
      have h7 : ((ys.toNat : Nat) : Int) = ys := Int.toNat_of_nonneg
        (le_of_lt hys)
      have h8 : ((xs.toNat : Nat) : Int) = xs := Int.toNat_of_nonneg
        (le_of_lt hxs)
      have h9 : ((ys.toNat * xs.toNat : Nat) : Int) = ys * xs := by
        push_cast
        rw [h7, h8]
      have h6 : ((((((i % xs.toNat : Nat) : Int) + e.1) +
          (((i / xs.toNat : Nat) : Int) + e.2.1) * xs).toNat : Nat) : Int) =
          (((i % xs.toNat : Nat) : Int) + e.1) +
          (((i / xs.toNat : Nat) : Int) + e.2.1) * xs :=
        Int.toNat_of_nonneg h4
      have h10 : (((((i % xs.toNat : Nat) : Int) + e.1) +
          (((i / xs.toNat : Nat) : Int) + e.2.1) * xs).toNat : Int) <
          ((ys.toNat * xs.toNat : Nat) : Int) := by
        rw [h6, h9]
        exact h5
      exact_mod_cast h10

/-- C8: for every grid built from the default unit-square shape and default
connection data over any in-range block set, every successful
`GridGraph.get_shortest_path` query answered by `Graph.a_star` (the
non-cache pathfinding stage, with an arbitrary heuristic) returns an id
path that is, up to the optional `-1` off-grid markers, a list of grid
cells in which no cell is blocked and no step -- diagonal steps included --
sweeps the moving square over a blocked cell (`gridPathFree`: every cell of
the bounding box of every step avoids the block list, which for the default
shape is exactly the swept area computed by
`ShapeMoverUtils.moving_shape_overlap_intervals`). -/
theorem C8_grid_get_shortest_path_avoids_blocks
    (s sq : ℚ → ℚ) (hs : 0 < s 2)
    (xs ys : Int) (hxs : 0 < xs) (hys : 0 < ys)
    (blocks : List (Int × Int))
    (hblk : ∀ b ∈ blocks, 0 ≤ b.1 ∧ b.1 < xs ∧ 0 ≤ b.2 ∧ b.2 < ys)
    (hfn : Nat → Nat → ℚ)
    (onode dnode : ℚ × ℚ) (fmt : String) (res : GridPathOutput)
    (hrun : gridGetShortestPath
      (gridCreateGraph s xs ys blocks defaultShape defaultConnData)
      xs.toNat ys.toNat sq (fun g o d => a_star g hfn o d)
      onode dnode fmt true = .ok res) :
    ∃ (p : List Nat) (pre post : List Int),
      res.path = some (pre ++ p.map (fun n => (n : Int)) ++ post) ∧
      (pre = [] ∨ pre = [-1]) ∧ (post = [] ∨ post = [-1]) ∧
      gridPathFree xs blocks p := by
  obtain ⟨oid, did, out, dor, pre, post, halgo, horg, hdor, hpre, hpost,
    hpath⟩ := gridGSP_path_shape hrun
  have hclG := gridCreateGraph_closed s xs ys hxs hys blocks defaultShape
    defaultConnData
  have hoid : oid < (gridCreateGraph s xs ys blocks defaultShape
      defaultConnData).length := (List.getElem?_eq_some_iff.mp horg).1
  obtain ⟨c, hw1, hw2, hw3⟩ := a_star_walk hfn oid did hclG hoid halgo
  have hadj : adj (gridCreateGraph s xs ys blocks defaultShape
      defaultConnData) oid = dor := by
    unfold adj
    rw [List.getD_eq_getElem?_getD, horg]
    rfl
  have hfree0 : ((oid : Int) % xs, (oid : Int) / xs) ∉ blocks :=
    cell_free_of_adj_ne s hs xs ys hxs blocks (by rw [hadj]; exact hdor)
  exact ⟨out.path, pre, post, hpath, hpre, hpost,
    walk_gridPathFree s hs xs ys hxs blocks out.path oid c hw3 hw1 hfree0⟩

set_option maxRecDepth 40000 in
/-- Witness: the 3-by-3 grid with the centre cell blocked, queried from
cell (0,0) to cell (2,2); the returned path [0, 1, 2, 5, 8] goes around the
block and makes no blocked step. -/
theorem C8_grid_get_shortest_path_avoids_blocks_witness :
    ∃ (p : List Nat) (pre post : List Int),
      (({ path := some [0, 1, 2, 5, 8],
          coordinate_path := [.tup (0, 0), .tup (1, 0), .tup (2, 0),
            .tup (2, 1), .tup (2, 2)],
          length := ((4 : ℚ) : DQ) } : GridPathOutput)).path =
        some (pre ++ p.map (fun n => (n : Int)) ++ post) ∧
      (pre = [] ∨ pre = [-1]) ∧ (post = [] ∨ post = [-1]) ∧
      gridPathFree 3 [(1, 1)] p :=
  C8_grid_get_shortest_path_avoids_blocks (fun _ => 3/2) (fun q => q)
    (by decide) 3 3 (by decide) (by decide) [(1, 1)] (by decide)
    (fun _ _ => 0) (0, 0) (2, 2) "list_of_tuples"
    { path := some [0, 1, 2, 5, 8],
      coordinate_path := [.tup (0, 0), .tup (1, 0), .tup (2, 0),
        .tup (2, 1), .tup (2, 2)],
      length := ((4 : ℚ) : DQ) }
    (by decide)
